import Mathlib

/-!
# HPMC: histopyramid marching cubes and the particle demo

A shallow embedding of the parts of the HPMC repository that the
specification talks about:

* the histopyramid core (base level, reduction, top-down traversal), whose
  implementation lives outside the files at hand and is modelled from the
  specification;
* the shader generator `shadergen.cpp` (`HPMCgenerateDefines`,
  `HPMCgenerateExtractVertexFunction`);
* the demo application `particles.cpp` (`fetch_code`, `init`, `render`, `main`).
-/

namespace HPMC

/-! ## Histopyramid core -/

/-- Modelled from the spec: the Lattice of section 3, a 3-D grid of scalar samples of
dimensions `(sizeX, sizeY, sizeZ)`; the field classes behind `HPMCIsoSurface` are not
part of the files at hand. -/
structure Lattice where
  sizeX : Nat
  sizeY : Nat
  sizeZ : Nat
  sample : Nat → Nat → Nat → ℚ

/-- Modelled from the spec: cell counts `(sizeX-1, sizeY-1, sizeZ-1)` of section 6. -/
def Lattice.cellsX (l : Lattice) : Nat := l.sizeX - 1

/-- Modelled from the spec: cell counts `(sizeX-1, sizeY-1, sizeZ-1)` of section 6. -/
def Lattice.cellsY (l : Lattice) : Nat := l.sizeY - 1

/-- Modelled from the spec: cell counts `(sizeX-1, sizeY-1, sizeZ-1)` of section 6. -/
def Lattice.cellsZ (l : Lattice) : Nat := l.sizeZ - 1

/-- Modelled from the spec: the number `(X-1)(Y-1)(Z-1)` of cells of section 3. -/
def Lattice.numCells (l : Lattice) : Nat := l.cellsX * l.cellsY * l.cellsZ

/-- Modelled from the spec: the sample at corner `c` (0..7) of cell `(i,j,k)`; bit 0 of
`c` steps in x, bit 1 in y, bit 2 in z. -/
def cornerSample (l : Lattice) (i j k c : Nat) : ℚ :=
  l.sample (i + c % 2) (j + c / 2 % 2) (k + c / 4 % 2)

/-- Modelled from the spec: the Configuration of section 3: an 8-bit value, one bit per
corner, the bit set if corner scalar minus iso-value is at least 0. -/
def configuration (l : Lattice) (iso : ℚ) (i j k : Nat) : Nat :=
  ((List.range 8).map fun c => if 0 ≤ cornerSample l i j k c - iso then 2 ^ c else 0).sum

/-- Modelled from the spec: the inputs of one build: the lattice, the iso-value and the
Case Table's `vertexCount` (fixed external data, section 6). -/
structure Build where
  lattice : Lattice
  isoValue : ℚ
  vertexCount : Nat → Nat

/-- Modelled from the spec: the Base-Level Count of a cell: the Case Table lookup of the
vertex count of the cell's configuration. -/
def Build.cellCount (b : Build) (i j k : Nat) : Nat :=
  b.vertexCount (configuration b.lattice b.isoValue i j k)

/-- Modelled from the spec: the logarithm of the side of the base level, the smallest
power-of-two square that holds all cells: the least `n` with `numCells ≤ (2^n)^2`. -/
def Build.log2Size (b : Build) : Nat := Nat.clog 4 b.lattice.numCells

/-- Modelled from the spec: the side length of the base level. -/
def Build.hpSize (b : Build) : Nat := 2 ^ b.log2Size

/-- Modelled from the spec: the cell with linear address `a` (row-major: x fastest, then
y, then z). -/
def Lattice.cellOfAddress (l : Lattice) (a : Nat) : Nat × Nat × Nat :=
  (a % l.cellsX, a / l.cellsX % l.cellsY, a / (l.cellsX * l.cellsY))

/-- Modelled from the spec: the Base-Level Builder of section 4.1: the count of every cell
is written to the surface at the cell's linear address (row-major in the surface);
padding entries hold 0. -/
def buildBaseLevel (b : Build) (x y : Nat) : Nat :=
  if x < b.hpSize ∧ x + b.hpSize * y < b.lattice.numCells then
    let c := b.lattice.cellOfAddress (x + b.hpSize * y)
    b.cellCount c.1 c.2.1 c.2.2
  else 0

/-- Modelled from the spec: the Pyramid Reducer of section 4.2 with branching factor 4:
level `l+1` cell `(x,y)` is the sum of the 2x2 block of level `l`; level 0 is the base
level. -/
def reduce (base : Nat → Nat → Nat) : Nat → Nat → Nat → Nat
  | 0, x, y => base x y
  | l + 1, x, y =>
      reduce base l (2 * x) (2 * y) + reduce base l (2 * x + 1) (2 * y)
        + reduce base l (2 * x) (2 * y + 1) + reduce base l (2 * x + 1) (2 * y + 1)

/-- Modelled from the spec: the apex, the single cell of the top level; it is what
`HPMCacquireNumberOfVertices` reads back after `HPMCbuildIsoSurface`. -/
def apex (b : Build) : Nat := reduce (buildBaseLevel b) b.log2Size 0 0

/-- Modelled from the spec: the Traversal Decoder of section 4.3: from node `(x,y)` of
level `l` with residual `r`, inspect the four children in row-major order within the
2x2 block, select the first child whose cumulative count exceeds `r`, subtract the
counts of the preceding children and descend; at the base level return the position and
the residual. -/
def descend (base : Nat → Nat → Nat) : Nat → Nat → Nat → Nat → Nat × Nat × Nat
  | 0, x, y, r => (x, y, r)
  | l + 1, x, y, r =>
      let c0 := reduce base l (2 * x) (2 * y)
      let c1 := reduce base l (2 * x + 1) (2 * y)
      let c2 := reduce base l (2 * x) (2 * y + 1)
      if r < c0 then descend base l (2 * x) (2 * y) r
      else if r < c0 + c1 then descend base l (2 * x + 1) (2 * y) (r - c0)
      else if r < c0 + c1 + c2 then descend base l (2 * x) (2 * y + 1) (r - c0 - c1)
      else descend base l (2 * x + 1) (2 * y + 1) (r - c0 - c1 - c2)

/-- Modelled from the spec: `decode(pyramid, key) -> (cellAddress, localIndex)`: the walk
from the apex to the base level that `HPMC_baseLevelExtract` performs on a key, the base
position turned back into the cell it holds. -/
def decode (b : Build) (key : Nat) : (Nat × Nat × Nat) × Nat :=
  let t := descend (buildBaseLevel b) b.log2Size 0 0 key
  (b.lattice.cellOfAddress (t.1 + b.hpSize * t.2.1), t.2.2)

/-- Modelled from the spec: the set `{(cell, i) : 0 <= i < vertexCount(configuration(cell))}`
of section 8, cells ranging over the `(X-1)(Y-1)(Z-1)` cells of the lattice. -/
def vertexSlots (b : Build) : Set ((Nat × Nat × Nat) × Nat) :=
  {p | p.1.1 < b.lattice.cellsX ∧ p.1.2.1 < b.lattice.cellsY ∧ p.1.2.2 < b.lattice.cellsZ ∧
    p.2 < b.cellCount p.1.1 p.1.2.1 p.1.2.2}

/-- The 2x2x2 lattice of the scenario of section 8: all corners +1 except corner (0,0,0),
which is -1. -/
def singleCornerLattice : Lattice :=
  { sizeX := 2, sizeY := 2, sizeZ := 2,
    sample := fun i j k => if i = 0 ∧ j = 0 ∧ k = 0 then -1 else 1 }

/-- The build of the scenario: the single-corner lattice, iso-value 0, any case table. -/
def singleCornerBuild (vc : Nat → Nat) : Build := ⟨singleCornerLattice, 0, vc⟩

/-! ## 32-bit integers, binary32 and binary64 floats -/

/-- Wrap an integer to the range of a 32-bit `int` (two's complement). -/
def int32 (a : Int) : Int := Int.bmod a (2 ^ 32)

/-- Round to the nearest integer, ties to the even one. -/
def roundHalfEven (q : ℚ) : ℤ :=
  if q - ⌊q⌋ < 1 / 2 then ⌊q⌋
  else if 1 / 2 < q - ⌊q⌋ then ⌊q⌋ + 1
  else if ⌊q⌋ % 2 = 0 then ⌊q⌋ else ⌊q⌋ + 1

/-- The spacing of the binary32 values (24-bit significand) around a positive `q`. -/
def ulp32 (q : ℚ) : ℚ := 2 ^ (Int.log 2 q - 23)

/-- The `float` nearest to a real number: IEEE 754 binary32, round to nearest, ties to
even. The exponent range is not limited here; the values `render` puts through it are 0
or lie between 1 and 2^32, far inside the normal range. -/
def fl32 (q : ℚ) : ℚ :=
  if 0 < q then roundHalfEven (q / ulp32 q) * ulp32 q
  else if q < 0 then -(roundHalfEven (-q / ulp32 (-q)) * ulp32 (-q))
  else 0

/-- The conversion `static_cast<GLsizei>( x )` of a `float`: truncation toward zero; C++
leaves it undefined when the truncated value is not a 32-bit `int`. -/
def toGLsizei (q : ℚ) : Option ℤ :=
  let t : ℤ := if 0 ≤ q then ⌊q⌋ else ⌈q⌉
  if -2 ^ 31 ≤ t ∧ t < 2 ^ 31 then some t else none

/-- The spacing of the binary64 values (53-bit significand) around a positive `q`. -/
def ulp64 (q : ℚ) : ℚ := 2 ^ (Int.log 2 q - 52)

/-- The `double` nearest to a real number: IEEE 754 binary64, round to nearest, ties to
even. The exponent range is not limited here; the values `render` puts through it lie
far inside the normal range. -/
def fl64 (q : ℚ) : ℚ :=
  if 0 < q then roundHalfEven (q / ulp64 q) * ulp64 q
  else if q < 0 then -(roundHalfEven (-q / ulp64 (-q)) * ulp64 (-q))
  else 0

/-- The conversion `static_cast<int>( x )` of a `double`: as for `GLsizei`, which is `int`. -/
def toInt (q : ℚ) : Option ℤ := toGLsizei q

/-! ## particles.cpp: the field `fetch_code` -/

/-- GLSL `vec3`. -/
structure Vec3 (K : Type) where
  x : K
  y : K
  z : K

/-- GLSL `vec4`. -/
structure Vec4 (K : Type) where
  x : K
  y : K
  z : K
  w : K

section fetch
variable {K : Type} [Add K] [Sub K] [Mul K] [Neg K] [OfScientific K]

/-- The statements `p -= 0.5; p *= 2.2;` that open both functions of `fetch_code`. -/
def fetch_transform (p : Vec3 K) : Vec3 K :=
  let p : Vec3 K := ⟨p.x - 0.5, p.y - 0.5, p.z - 0.5⟩
  ⟨p.x * 2.2, p.y * 2.2, p.z * 2.2⟩

/-- The `return` expression of `HPMC_fetch`, `p` being the transformed point. -/
def HPMC_fetch_return (shape : Fin 12 → K) (p : Vec3 K) : K :=
  -( shape 0*p.x*p.x*p.x*p.x*p.x +
     shape 1*p.x*p.x*p.x*p.x +
     shape 2*p.y*p.y*p.y*p.y +
     shape 3*p.z*p.z*p.z*p.z +
     shape 4*p.x*p.x*p.y*p.y +
     shape 5*p.x*p.x*p.z*p.z +
     shape 6*p.y*p.y*p.z*p.z +
     shape 7*p.x*p.y*p.z +
     shape 8*p.x*p.x +
     shape 9*p.y*p.y +
     shape 10*p.z*p.z +
     shape 11 )

/-- Shader function `HPMC_fetch` of `fetch_code`: evaluates the scalar field. -/
def HPMC_fetch (shape : Fin 12 → K) (p : Vec3 K) : K :=
  HPMC_fetch_return shape (fetch_transform p)

/-- Unary minus on a `vec4`. -/
def Vec4.neg (v : Vec4 K) : Vec4 K := ⟨-v.x, -v.y, -v.z, -v.w⟩

/-- The `return` expression of `HPMC_fetchGrad`, `p` being the transformed point. -/
def HPMC_fetchGrad_return (shape : Fin 12 → K) (p : Vec3 K) : Vec4 K :=
  Vec4.neg ⟨
    5.0*shape 0*p.x*p.x*p.x*p.x +
    4.0*shape 1*p.x*p.x*p.x +
    2.0*shape 4*p.x*p.y*p.y +
    2.0*shape 5*p.x*p.z*p.z +
        shape 7*p.y*p.z +
    2.0*shape 8*p.x,

    4.0*shape 2*p.y*p.y*p.y +
    2.0*shape 4*p.x*p.x*p.y +
    2.0*shape 6*p.y*p.z*p.z +
        shape 7*p.x*p.z +
    2.0*shape 9*p.y,

    4.0*shape 3*p.z*p.z*p.z +
    2.0*shape 5*p.x*p.x*p.z +
    2.0*shape 6*p.y*p.z*p.z +
        shape 7*p.x*p.y +
    2.0*shape 10*p.z,

    shape 0*p.x*p.x*p.x*p.x*p.x +
    shape 1*p.x*p.x*p.x*p.x +
    shape 2*p.y*p.y*p.y*p.y +
    shape 3*p.z*p.z*p.z*p.z +
    shape 4*p.x*p.x*p.y*p.y +
    shape 5*p.x*p.x*p.z*p.z +
    shape 6*p.y*p.y*p.z*p.z +
    shape 7*p.x*p.y*p.z +
    shape 8*p.x*p.x +
    shape 9*p.y*p.y +
    shape 10*p.z*p.z +
    shape 11 ⟩

/-- Shader function `HPMC_fetchGrad` of `fetch_code`: evaluates the gradient as well as the
scalar field. -/
def HPMC_fetchGrad (shape : Fin 12 → K) (p : Vec3 K) : Vec4 K :=
  HPMC_fetchGrad_return shape (fetch_transform p)

end fetch

/-- The coefficient vector with `shape[6] = 1` (the `y^2z^2` term) and 0 elsewhere. -/
def shape_y2z2 (K : Type) [OfNat K 0] [OfNat K 1] : Fin 12 → K :=
  fun i => if i = 6 then 1 else 0

/-! ## particles.cpp: `main`, `init`, `render` -/

/-- C `isspace` in the "C" locale. -/
def isspace (c : Char) : Bool := c = ' ' || (9 ≤ c.toNat && c.toNat ≤ 13)

/-- The value of a run of decimal digits. -/
def digitsValue (ds : List Char) : Int :=
  ds.foldl (fun acc c => 10 * acc + ((c.toNat : Int) - 48)) 0

/-- C `atoi`: skip white space, take an optional sign, convert the leading decimal digits;
0 when there are none. C does not define the result for a value outside `int`; here such
a value is wrapped to 32 bits. -/
def atoi (s : String) : Int :=
  let cs := s.data.dropWhile isspace
  match cs with
  | '-' :: r => int32 (-(digitsValue (r.takeWhile Char.isDigit)))
  | '+' :: r => int32 (digitsValue (r.takeWhile Char.isDigit))
  | _ => int32 (digitsValue (cs.takeWhile Char.isDigit))

/-- The globals `volume_size_x`, `volume_size_y`, `volume_size_z` of `particles.cpp`. -/
structure VolumeSize where
  volume_size_x : Int
  volume_size_y : Int
  volume_size_z : Int
deriving DecidableEq, Repr

/-- The argument handling of `main`: `argv` is the command line (program name first) as
`glutInit` leaves it, `argc` its length. -/
def main_volume_size (argv : List String) : VolumeSize :=
  if argv.length = 2 then
    ⟨atoi (argv.getD 1 ""), atoi (argv.getD 1 ""), atoi (argv.getD 1 "")⟩
  else if argv.length = 4 then
    ⟨atoi (argv.getD 1 ""), atoi (argv.getD 2 ""), atoi (argv.getD 3 "")⟩
  else
    ⟨64, 64, 64⟩

/-- The HPMC configuration calls of `init` with the arguments they are given, and the
capacity `mc_tri_vbo_N` that `init` gives the triangle feedback buffer. -/
structure InitCalls where
  HPMCsetLatticeSize : Int × Int × Int
  HPMCsetGridSize : Int × Int × Int
  HPMCsetGridExtent : ℚ × ℚ × ℚ
  mc_tri_vbo_N : Int

/-- The part of `init` that creates the HistoPyramid and the triangle feedback buffer. -/
def init (v : VolumeSize) : InitCalls :=
  { HPMCsetLatticeSize := (v.volume_size_x, v.volume_size_y, v.volume_size_z)
    HPMCsetGridSize :=
      (int32 (v.volume_size_x - 1), int32 (v.volume_size_y - 1), int32 (v.volume_size_z - 1))
    HPMCsetGridExtent := (1, 1, 1)
    mc_tri_vbo_N := 3 * 1000 }

/-- The size argument `(3+3) * mc_tri_vbo_N * sizeof(GLfloat)` that `render` gives
`glBufferData`: the product `(3+3) * mc_tri_vbo_N` is taken on 32-bit `int`s, where C++
leaves an overflow undefined, and then multiplied by `sizeof(GLfloat)`, which is 4, in
`size_t` and passed as a `GLsizeiptr`; both are taken as 64 bits wide, where four times a
32-bit `int` arrives unchanged. -/
def render_buffer_size (mc_tri_vbo_N : ℤ) : Option ℤ :=
  if -2 ^ 31 ≤ (3 + 3) * mc_tri_vbo_N ∧ (3 + 3) * mc_tri_vbo_N < 2 ^ 31 then
    some ((3 + 3) * mc_tri_vbo_N * 4)
  else none

/-- The resize check of `render`: with `N` the vertex count read back, the capacity
`mc_tri_vbo_N` after `if( mc_tri_vbo_N < N )`, whose branch assigns `mc_tri_vbo_N =
static_cast<GLsizei>( 1.1f*static_cast<float>(N) )` and then sizes the buffer with
`glBufferData( GL_ARRAY_BUFFER, (3+3) * mc_tri_vbo_N * sizeof(GLfloat), ... )`. There is no
result when the conversion or the size computation is undefined. -/
def render_resize (mc_tri_vbo_N N : ℤ) : Option ℤ :=
  if mc_tri_vbo_N < N then
    (toGLsizei (fl32 (fl32 (11 / 10) * fl32 N))).bind fun c =>
      (render_buffer_size c).map fun _ => c
  else some mc_tri_vbo_N

/-- The capacity `mc_tri_vbo_N` after the frames of `render` that read back the vertex
counts `Ns`, in order, starting from the capacity set by `init`. -/
def render_capacity (v : VolumeSize) (Ns : List ℤ) : Option ℤ :=
  Ns.foldlM render_resize (init v).mc_tri_vbo_N

/-! ## particles.cpp: the emission threshold of `render` -/

/-- The global `static int particle_flow = 4000` of `particles.cpp`. -/
def particle_flow : Int := 4000

/-- The statement `float particles_per_sec = emitter_result/max(1e-5f,dt)` of `render`:
the query result is converted to `float` and divided in `float`. -/
def render_particles_per_sec (emitter_result : Nat) (dt : ℚ) : ℚ :=
  fl32 (fl32 emitter_result / max (fl32 (1 / 100000)) dt)

/-- The threshold adjustment of `render` ("Adjust threshold, try to keep a steady flow of
newly generated particles"): `0.5*threshold` and `10.1*threshold` are `double` products,
converted back to `int`; the `int` bounds of the comparisons are converted to `float`. -/
def render_adjust_threshold (threshold : Int) (particles_per_sec : ℚ) : Option Int :=
  if particles_per_sec < fl32 (int32 (particle_flow - 100)) then
    (toInt (fl64 (fl64 (1 / 2) * fl64 threshold))).map (max 1)
  else if particles_per_sec > fl32 (int32 (particle_flow + 100)) then
    (toInt (fl64 (fl64 (101 / 10) * fl64 threshold))).map (min 100000)
  else some threshold

/-- The reset at the top of `render`: `if( t < 1e-6 ) threshold = 500`, the `float` time
compared with the `double` constant; the result is the `threshold` uniform of the frame's
emitter pass. -/
def render_reset_threshold (threshold : Int) (t : ℚ) : Int :=
  if t < fl64 (1 / 1000000) then 500 else threshold

/-- The arguments of one call `render( t, dt, fps )` that the threshold depends on, with
the result of the emitter query of that frame. -/
structure Frame where
  t : ℚ
  dt : ℚ
  emitter_result : Nat

/-- The `static int threshold` at the end of a frame of `render` that starts with the
value `threshold`. -/
def render_threshold (threshold : Int) (f : Frame) : Option Int :=
  render_adjust_threshold (render_reset_threshold threshold f.t)
    (render_particles_per_sec f.emitter_result f.dt)

/-- The `static int threshold` after the frames `frames`, in order, starting from its
initial value 500. -/
def render_thresholds (frames : List Frame) : Option Int :=
  frames.foldlM render_threshold 500

/-! ## particles.cpp: the emitter geometry shader -/

/-- The test `int(off + gl_PrimitiveIDIn) % threshold == 0` of `emitter_geometry_shader`
on 32-bit `int`s: whether the triangle emits a particle. The remainder has no defined
result when `threshold` is zero. -/
def emitter_emits (off threshold gl_PrimitiveIDIn : Int) : Option Bool :=
  if threshold = 0 then none
  else some (decide ((int32 (off + gl_PrimitiveIDIn)).tmod threshold = 0))

/-- The statement `int side = (gl_PrimitiveIDIn / threshold) %2` of
`emitter_geometry_shader`; the quotient has no defined result when `threshold` is zero. -/
def emitter_side (threshold gl_PrimitiveIDIn : Int) : Option Int :=
  if threshold = 0 then none
  else some ((gl_PrimitiveIDIn.tdiv threshold).tmod 2)

/-! ## particles.cpp: the particle animation shader, position update

The positions, velocities and times of the sub-step loop are taken as the elements of an
ordered field. -/

section anim
variable {K : Type} [LinearOrderedField K]

/-- GLSL `a + b` on `vec3`. -/
def Vec3.add (a b : Vec3 K) : Vec3 K := ⟨a.x + b.x, a.y + b.y, a.z + b.z⟩

/-- GLSL `a - b` on `vec3`. -/
def Vec3.sub (a b : Vec3 K) : Vec3 K := ⟨a.x - b.x, a.y - b.y, a.z - b.z⟩

/-- GLSL `s * v`, a `float` times a `vec3`. -/
def Vec3.scale (s : K) (v : Vec3 K) : Vec3 K := ⟨s * v.x, s * v.y, s * v.z⟩

/-- The constant `steps = 32` of `anim_geometry_shader`. -/
def anim_steps : Nat := 32

/-- The sub-step `float sdt = (1.0/float(steps))*dt` of `anim_geometry_shader`. -/
def anim_sdt (dt : K) : K := (1 / (anim_steps : K)) * dt

/-- The integration statement `pos_b_c = pos_a_c + sdt * vel_b_c` of the sub-step loop. -/
def anim_integrate (pos_a_c vel_b_c : Vec3 K) (dt : K) : Vec3 K :=
  Vec3.add pos_a_c (Vec3.scale (anim_sdt dt) vel_b_c)

/-- The statement `pos_b_c -= (1.0-t)*dt*vel_b_c`, commented "step back to intersection",
of the collision branch. -/
def anim_step_back (pos_b_c vel_b_c : Vec3 K) (t dt : K) : Vec3 K :=
  Vec3.sub pos_b_c (Vec3.scale ((1 - t) * dt) vel_b_c)

end anim

/-! ## particles.cpp: the particle animation shader, collision test

The `float` values of the collision test are taken in IEEE 754 binary32 arithmetic, every
operation rounded once: round to nearest, ties to even, gradual underflow, overflow to
infinity. -/

/-- A value of a shader `float`: a finite number, an infinity (`negative` gives its sign)
or not a number. The sign of a zero is not kept; no operation below depends on it. -/
inductive GFloat where
  | fin (q : ℚ)
  | inf (negative : Bool)
  | nan
deriving DecidableEq

/-- The exponent of the binade of a positive number in binary32: the exponent of its
leading bit, and -126 for the subnormal numbers. -/
def binade32 (q : ℚ) : ℤ := max (Int.log 2 q) (-126)

/-- The binary32 number nearest to a positive number (ties to even), with the exponent not
limited above: a multiple of `2^(binade32 q - 23)`. -/
def round32pos (q : ℚ) : ℚ :=
  roundHalfEven (q / 2 ^ (binade32 q - 23)) * 2 ^ (binade32 q - 23)

/-- The binary32 number nearest to a real number (ties to even, gradual underflow), with
the exponent not limited above. -/
def round32 (q : ℚ) : ℚ :=
  if 0 < q then round32pos q
  else if q < 0 then -round32pos (-q)
  else 0

/-- The `float` result of an operation whose exact result is `q`: the nearest binary32
number, or an infinity when that is 2^128 or more in magnitude. -/
def GFloat.ofRat (q : ℚ) : GFloat :=
  if 2 ^ 128 ≤ round32 q then GFloat.inf false
  else if round32 q ≤ -2 ^ 128 then GFloat.inf true
  else GFloat.fin (round32 q)

/-- A finite number that is a binary32 value. -/
def isBinary32 (q : ℚ) : Prop := GFloat.ofRat q = GFloat.fin q

/-- A multiple of 2^-149, the spacing of the subnormal binary32 numbers. -/
def onGrid32 (q : ℚ) : Prop := ∃ k : ℤ, q = k / 2 ^ 149

/-- A shader `float` whose finite value is a binary32 number. -/
def GFloat.valid : GFloat → Prop
  | GFloat.fin q => isBinary32 q
  | GFloat.inf _ => True
  | GFloat.nan => True

/-- GLSL unary `-x`. -/
def GFloat.neg : GFloat → GFloat
  | GFloat.fin q => GFloat.fin (-q)
  | GFloat.inf s => GFloat.inf (!s)
  | GFloat.nan => GFloat.nan

/-- GLSL `x - y` on `float`s. -/
def GFloat.sub : GFloat → GFloat → GFloat
  | GFloat.fin a, GFloat.fin b => GFloat.ofRat (a - b)
  | GFloat.fin _, GFloat.inf s => GFloat.inf (!s)
  | GFloat.inf s, GFloat.fin _ => GFloat.inf s
  | GFloat.inf s, GFloat.inf r => if s = r then GFloat.nan else GFloat.inf s
  | GFloat.nan, _ => GFloat.nan
  | _, GFloat.nan => GFloat.nan

/-- GLSL `x * y` on `float`s. -/
def GFloat.mul : GFloat → GFloat → GFloat
  | GFloat.fin a, GFloat.fin b => GFloat.ofRat (a * b)
  | GFloat.fin a, GFloat.inf s =>
      if a = 0 then GFloat.nan else GFloat.inf (xor (decide (a < 0)) s)
  | GFloat.inf s, GFloat.fin b =>
      if b = 0 then GFloat.nan else GFloat.inf (xor s (decide (b < 0)))
  | GFloat.inf s, GFloat.inf r => GFloat.inf (xor s r)
  | GFloat.nan, _ => GFloat.nan
  | _, GFloat.nan => GFloat.nan

/-- GLSL `x / y` on `float`s. GLSL leaves the result of a division by zero unspecified:
there is no result then. -/
def GFloat.div : GFloat → GFloat → Option GFloat
  | GFloat.fin a, GFloat.fin b => if b = 0 then none else some (GFloat.ofRat (a / b))
  | GFloat.inf s, GFloat.fin b =>
      if b = 0 then none else some (GFloat.inf (xor s (decide (b < 0))))
  | GFloat.nan, GFloat.fin b => if b = 0 then none else some GFloat.nan
  | GFloat.fin _, GFloat.inf _ => some (GFloat.fin 0)
  | GFloat.inf _, GFloat.inf _ => some GFloat.nan
  | GFloat.nan, GFloat.inf _ => some GFloat.nan
  | _, GFloat.nan => some GFloat.nan

/-- GLSL `x <= 0.0` on a `float`. -/
def GFloat.le_zero : GFloat → Bool
  | GFloat.fin q => decide (q ≤ 0)
  | GFloat.inf s => s
  | GFloat.nan => false

/-- The field values `HPMC_fetch( pos ) - iso` of the collision branch, `sample` being the
value `HPMC_fetch` returns. -/
def anim_field (sample iso : GFloat) : GFloat := GFloat.sub sample iso

/-- The test `field_a*field_b <= 0.0` ("check for sign change") of the collision branch. -/
def anim_sign_change (field_a field_b : GFloat) : Bool :=
  GFloat.le_zero (GFloat.mul field_a field_b)

/-- The statement `float t = -field_a/(field_b-field_a)` ("determine zero-crossing") of the
collision branch. -/
def anim_zero_crossing (field_a field_b : GFloat) : Option GFloat :=
  GFloat.div (GFloat.neg field_a) (GFloat.sub field_b field_a)

/-- The test `(to_surf_field)*(gradsample_a.w) <= 0.0` of the branch that pushes a particle
back from the surface. -/
def anim_surf_sign_change (to_surf_field gradsample_a_w : GFloat) : Bool :=
  GFloat.le_zero (GFloat.mul to_surf_field gradsample_a_w)

/-- The statement `float t = -gradsample_a.w/(to_surf_field-gradsample_a.w)` ("determine
closest point on surface"). -/
def anim_surf_crossing (to_surf_field gradsample_a_w : GFloat) : Option GFloat :=
  GFloat.div (GFloat.neg gradsample_a_w) (GFloat.sub to_surf_field gradsample_a_w)

/-! ## particles.cpp: the on-screen vertex shader -/

/-- Shader source `custom_vertex_shader` of `particles.cpp`: a small vertex shader that
calls the provided extraction function. -/
def custom_vertex_shader : String :=
  "varying out vec3 normal_cs;\n"
  ++ "varying out vec3 position_cs;\n"
  ++ "void\n"
  ++ "main()\n"
  ++ "\x7b\n"
  ++ "    vec3 p, n;\n"
  ++ "    extractVertex( p, n );\n"
  ++ "    vec4 pp = gl_ModelViewMatrix * vec4( p, 1.0 );\n"
  ++ "    vec3 cn = normalize( gl_NormalMatrix * n );\n"
  ++ "    normal_cs = cn;\n"
  ++ "    position_cs = (1.0/pp.w)*pp.xyz;\n"
  ++ "    gl_Position = gl_ProjectionMatrix * pp;\n"
  ++ "\x7d\n"

/-! ## shadergen.cpp -/

/-- The accessors of `h->field()` that `HPMCgenerateDefines` reads; the class is declared
in `IsoSurface.hpp`, outside the files at hand. -/
structure Field where
  sizeX : Int
  sizeY : Int
  sizeZ : Int
  cellsX : Int
  cellsY : Int
  cellsZ : Int
  extentX : ℚ
  extentY : ℚ
  extentZ : ℚ
  isBinary : Bool
  hasGradient : Bool

/-- The accessors of `h->baseLevelBuilder()` that `HPMCgenerateDefines` reads. -/
structure BaseLevelBuilder where
  layoutX : Int
  layoutY : Int
  tileSizeX : Int
  tileSizeY : Int
  log2Size : Nat

/-- The parts of `struct HPMCIsoSurface` that the shader generator reads; `target` is
`h->constants()->target()`. -/
structure HPMCIsoSurface where
  field : Field
  baseLevelBuilder : BaseLevelBuilder
  target : Int

/-- Function `HPMCgenerateDefines` of `shadergen.cpp`. The string stream is kept as the
list of its lines, one for every `src << ... << endl` statement; `showFloat` is the text
the stream writes for a `float`. `1<<n` is taken on a 32-bit `int`. -/
def HPMCgenerateDefines (showFloat : ℚ → String) (h : HPMCIsoSurface) : List String :=
  [ "// generated by HPMCgenerateDefines",
    "#define HPMC_FUNC_X        " ++ toString h.field.sizeX,
    "#define HPMC_FUNC_X_F      float(HPMC_FUNC_X)",
    "#define HPMC_FUNC_Y        " ++ toString h.field.sizeY,
    "#define HPMC_FUNC_Y_F      float(HPMC_FUNC_Y)",
    "#define HPMC_FUNC_Z        " ++ toString h.field.sizeZ,
    "#define HPMC_FUNC_Z_F      float(HPMC_FUNC_Z)",
    "#define HPMC_CELLS_X       " ++ toString h.field.cellsX,
    "#define HPMC_CELLS_X_F     float(HPMC_CELLS_X)",
    "#define HPMC_CELLS_Y       " ++ toString h.field.cellsY,
    "#define HPMC_CELLS_Y_F     float(HPMC_CELLS_Y)",
    "#define HPMC_CELLS_Z       " ++ toString h.field.cellsZ,
    "#define HPMC_CELLS_Z_F     float(HPMC_CELLS_Z)",
    "#define HPMC_GRID_EXT_X_F  float(" ++ showFloat h.field.extentX ++ ")",
    "#define HPMC_GRID_EXT_Y_F  float(" ++ showFloat h.field.extentY ++ ")",
    "#define HPMC_GRID_EXT_Z_F  float(" ++ showFloat h.field.extentZ ++ ")",
    "#define HPMC_TILES_X       " ++ toString h.baseLevelBuilder.layoutX,
    "#define HPMC_TILES_X_F     float(HPMC_TILES_X)",
    "#define HPMC_TILES_Y       " ++ toString h.baseLevelBuilder.layoutY,
    "#define HPMC_TILES_Y_F     float(HPMC_TILES_Y)",
    "#define HPMC_TILE_SIZE_X   " ++ toString h.baseLevelBuilder.tileSizeX,
    "#define HPMC_TILE_SIZE_X_F float(HPMC_TILE_SIZE_X)",
    "#define HPMC_TILE_SIZE_Y   " ++ toString h.baseLevelBuilder.tileSizeY,
    "#define HPMC_TILE_SIZE_Y_F float(HPMC_TILE_SIZE_Y)",
    "#define HPMC_HP_SIZE_L2  " ++ toString h.baseLevelBuilder.log2Size,
    "#define HPMC_HP_SIZE     " ++ toString (int32 (1 * 2 ^ h.baseLevelBuilder.log2Size)) ]
  ++ (if h.field.isBinary then ["#define FIELD_BINARY 1"] else [])
  ++ (if h.field.hasGradient then ["#define FIELD_HAS_GRADIENT 1"] else [])

/-- A handle as the demo configures it for the default 64x64x64 lattice, with a base level
of side 2^9. -/
def sampleIsoSurface : HPMCIsoSurface :=
  { field :=
      { sizeX := 64, sizeY := 64, sizeZ := 64, cellsX := 63, cellsY := 63, cellsZ := 63,
        extentX := 1, extentY := 1, extentZ := 1, isBinary := false, hasGradient := true }
    baseLevelBuilder :=
      { layoutX := 8, layoutY := 8, tileSizeX := 64, tileSizeY := 64, log2Size := 9 }
    target := 0 }

/-- The shader texts of `hpmc::resources` that `shadergen.cpp` declares `extern`; their
contents are not part of the files at hand. -/
structure Resources where
  downtraversal_110 : String
  downtraversal_130 : String
  baselevel_traversal_110 : String
  baselevel_traversal_130 : String

/-- The line end `std::endl` written to a string stream. -/
def endl : String := "\n"

/-- Function `HPMCgenerateExtractVertexFunction` of `shadergen.cpp`; `target` is
`h->constants()->target()`, and the value of the enumerator `HPMC_TARGET_GL30_GLSL130`
(declared in `hpmc.h`) is a parameter. -/
def HPMCgenerateExtractVertexFunction (HPMC_TARGET_GL30_GLSL130 : Int) (res : Resources)
    (target : Int) : String :=
  if target < HPMC_TARGET_GL30_GLSL130 then
    "uniform sampler2D  HPMC_histopyramid;" ++ endl
    ++ "uniform float      HPMC_threshold;" ++ endl
    ++ "uniform sampler2D  HPMC_edge_table;" ++ endl
    ++ res.downtraversal_110
    ++ res.baselevel_traversal_110
    ++ "// generated by HPMCgenerateExtractShaderFunctions" ++ endl
    ++ "uniform float      HPMC_key_offset;" ++ endl
    ++ "void" ++ endl
    ++ "extractVertex( out vec3 a, out vec3 b, out vec3 p, out vec3 n )" ++ endl
    ++ "\x7b" ++ endl
    ++ "    float key = gl_Vertex.x + HPMC_key_offset;" ++ endl
    ++ "    HPMC_baseLevelExtract( a, b, p, n, key );" ++ endl
    ++ "\x7d" ++ endl
    ++ "void" ++ endl
    ++ "extractVertex( out vec3 p, out vec3 n )" ++ endl
    ++ "\x7b" ++ endl
    ++ "    vec3 a, b;" ++ endl
    ++ "    extractVertex( a, b, p, n );" ++ endl
    ++ "\x7d" ++ endl
  else
    "uniform sampler2D  HPMC_histopyramid;" ++ endl
    ++ "uniform float      HPMC_threshold;" ++ endl
    ++ "uniform sampler2D  HPMC_edge_table;" ++ endl
    ++ res.downtraversal_130
    ++ res.baselevel_traversal_110
    ++ "// generated by HPMCgenerateExtractShaderFunctions" ++ endl
    ++ "void" ++ endl
    ++ "extractVertex( out vec3 a, out vec3 b, out vec3 p, out vec3 n )" ++ endl
    ++ "\x7b" ++ endl
    ++ "    float key = gl_VertexID;" ++ endl
    ++ "    HPMC_baseLevelExtract( a, b, p, n, key );" ++ endl
    ++ "\x7d" ++ endl
    ++ "void" ++ endl
    ++ "extractVertex( out vec3 p, out vec3 n )" ++ endl
    ++ "\x7b" ++ endl
    ++ "    vec3 a, b;" ++ endl
    ++ "    extractVertex( a, b, p, n );" ++ endl
    ++ "\x7d" ++ endl

/-- The text of a four-output `extractVertex( a, b, p, n )` whose body computes `key` by
the statement `keyStmt` and calls `HPMC_baseLevelExtract( a, b, p, n, key )`. -/
def extractVertex4 (keyStmt : String) : String :=
  "void" ++ endl
  ++ "extractVertex( out vec3 a, out vec3 b, out vec3 p, out vec3 n )" ++ endl
  ++ "\x7b" ++ endl
  ++ keyStmt ++ endl
  ++ "    HPMC_baseLevelExtract( a, b, p, n, key );" ++ endl
  ++ "\x7d" ++ endl

/-- The text of a two-output `extractVertex( p, n )` whose body only declares `a, b` and
calls the four-output one. -/
def extractVertex2 : String :=
  "void" ++ endl
  ++ "extractVertex( out vec3 p, out vec3 n )" ++ endl
  ++ "\x7b" ++ endl
  ++ "    vec3 a, b;" ++ endl
  ++ "    extractVertex( a, b, p, n );" ++ endl
  ++ "\x7d" ++ endl

/-- The text `needle` occurs somewhere in the text `s`. -/
def occursIn (needle s : String) : Prop := needle.data <:+: s.data

/-! ## Theorems: the histopyramid -/

/-- A node of level `l` holds the sum of the base entries of the block below it. -/
theorem reduce_eq_sum (base : Nat → Nat → Nat) (l x y : Nat) :
    reduce base l x y =
      ∑ dy in Finset.range (2 ^ l), ∑ dx in Finset.range (2 ^ l),
        base (x * 2 ^ l + dx) (y * 2 ^ l + dy) := by
  induction l generalizing x y with
  | zero => simp [reduce]
  | succ l ih =>
    have h2 : 2 ^ (l + 1) = 2 ^ l + 2 ^ l := by ring
    simp only [reduce, ih, h2, Finset.sum_range_add, Finset.sum_add_distrib]
    have e1 : ∀ a : Nat, 2 * x * 2 ^ l + a = x * (2 ^ l + 2 ^ l) + a := fun a => by ring
    have e2 : ∀ a : Nat, (2 * x + 1) * 2 ^ l + a = x * (2 ^ l + 2 ^ l) + (2 ^ l + a) :=
      fun a => by ring
    have e3 : ∀ a : Nat, 2 * y * 2 ^ l + a = y * (2 ^ l + 2 ^ l) + a := fun a => by ring
    have e4 : ∀ a : Nat, (2 * y + 1) * 2 ^ l + a = y * (2 ^ l + 2 ^ l) + (2 ^ l + a) :=
      fun a => by ring
    simp only [e1, e2, e3, e4]
    ring

/-- A sum over `m * n` linear addresses is the sum over the rows and columns of an `m`-wide
surface. -/
theorem sum_range_mul (f : Nat → Nat) (m n : Nat) :
    ∑ a in Finset.range (m * n), f a =
      ∑ y in Finset.range n, ∑ x in Finset.range m, f (x + m * y) := by
  induction n with
  | zero => simp
  | succ n ih =>
    rw [Nat.mul_succ, Finset.sum_range_add, ih, Finset.sum_range_succ]
    congr 1
    apply Finset.sum_congr rfl
    intro x _
    rw [Nat.add_comm]

/-- The parent of the level-`l` node above a base position is that node halved. -/
theorem div_two_pow_succ (a l : Nat) : a / 2 ^ (l + 1) = a / 2 ^ l / 2 := by
  rw [Nat.div_div_eq_div_mul, pow_succ]

/-- A residual below the value of a node descends to a base entry under that node, with a
local index below the entry. -/
theorem descend_mem (base : Nat → Nat → Nat) (l : Nat) :
    ∀ x y r, r < reduce base l x y →
      (descend base l x y r).1 / 2 ^ l = x ∧ (descend base l x y r).2.1 / 2 ^ l = y ∧
        (descend base l x y r).2.2 < base (descend base l x y r).1 (descend base l x y r).2.1 := by
  induction l with
  | zero => intro x y r h; simpa [descend, reduce] using h
  | succ l ih =>
    intro x y r h
    simp only [reduce] at h
    simp only [descend, div_two_pow_succ]
    split_ifs with h0 h1 h2
    · obtain ⟨a, b, c⟩ := ih _ _ _ h0
      exact ⟨by omega, by omega, c⟩
    · obtain ⟨a, b, c⟩ := ih (2 * x + 1) (2 * y) (r - reduce base l (2 * x) (2 * y)) (by omega)
      exact ⟨by omega, by omega, c⟩
    · obtain ⟨a, b, c⟩ := ih (2 * x) (2 * y + 1)
        (r - reduce base l (2 * x) (2 * y) - reduce base l (2 * x + 1) (2 * y)) (by omega)
      exact ⟨by omega, by omega, c⟩
    · obtain ⟨a, b, c⟩ := ih (2 * x + 1) (2 * y + 1)
        (r - reduce base l (2 * x) (2 * y) - reduce base l (2 * x + 1) (2 * y)
          - reduce base l (2 * x) (2 * y + 1)) (by omega)
      exact ⟨by omega, by omega, c⟩

/-- Two residuals below the value of a node that descend to the same place are equal. -/
theorem descend_inj (base : Nat → Nat → Nat) (l : Nat) :
    ∀ x y r s, r < reduce base l x y → s < reduce base l x y →
      descend base l x y r = descend base l x y s → r = s := by
  induction l with
  | zero =>
    intro x y r s _ _ h
    simp only [descend, Prod.mk.injEq] at h
    exact h.2.2
  | succ l ih =>
    intro x y r s hr hs h
    simp only [reduce] at hr hs
    have key : ∀ (x1 y1 r1 x2 y2 r2 : Nat), r1 < reduce base l x1 y1 → r2 < reduce base l x2 y2 →
        descend base l x1 y1 r1 = descend base l x2 y2 r2 → x1 = x2 ∧ y1 = y2 := by
      intro x1 y1 r1 x2 y2 r2 h1 h2 e
      have m1 := descend_mem base l x1 y1 r1 h1
      have m2 := descend_mem base l x2 y2 r2 h2
      rw [e] at m1
      exact ⟨m1.1.symm.trans m2.1, m1.2.1.symm.trans m2.2.1⟩
    simp only [descend] at h
    split_ifs at h with a0 a1 a2 b0 b1 b2 b0 b1 b2 b0 b1 b2 b0 b1 b2
    all_goals first
      | (have hh := ih _ _ _ _ (by omega) (by omega) h
         omega)
      | (have hh := key _ _ _ _ _ _ (by omega) (by omega) h
         omega)

/-- Every local index of every base entry under a node is reached from a residual below the
value of the node. -/
theorem descend_surj (base : Nat → Nat → Nat) (l : Nat) :
    ∀ x y x' y' i, x' / 2 ^ l = x → y' / 2 ^ l = y → i < base x' y' →
      ∃ r, r < reduce base l x y ∧ descend base l x y r = (x', y', i) := by
  induction l with
  | zero =>
    intro x y x' y' i hx hy hi
    simp only [pow_zero, Nat.div_one] at hx hy
    subst hx hy
    exact ⟨i, by simpa [reduce] using hi, rfl⟩
  | succ l ih =>
    intro x y x' y' i hx hy hi
    rw [div_two_pow_succ] at hx hy
    obtain ⟨r, hr, e⟩ := ih (x' / 2 ^ l) (y' / 2 ^ l) x' y' i rfl rfl hi
    rcases Nat.mod_two_eq_zero_or_one (x' / 2 ^ l) with px | px <;>
    rcases Nat.mod_two_eq_zero_or_one (y' / 2 ^ l) with py | py
    · have ex : x' / 2 ^ l = 2 * x := by omega
      have ey : y' / 2 ^ l = 2 * y := by omega
      rw [ex, ey] at hr e
      refine ⟨r, by simp only [reduce]; omega, ?_⟩
      simp only [descend, if_pos hr, e]
    · have ex : x' / 2 ^ l = 2 * x := by omega
      have ey : y' / 2 ^ l = 2 * y + 1 := by omega
      rw [ex, ey] at hr e
      refine ⟨reduce base l (2 * x) (2 * y) + reduce base l (2 * x + 1) (2 * y) + r,
        by simp only [reduce]; omega, ?_⟩
      simp only [descend]
      rw [if_neg (by omega), if_neg (by omega), if_pos (by omega)]
      rw [← e]; congr 1; omega
    · have ex : x' / 2 ^ l = 2 * x + 1 := by omega
      have ey : y' / 2 ^ l = 2 * y := by omega
      rw [ex, ey] at hr e
      refine ⟨reduce base l (2 * x) (2 * y) + r, by simp only [reduce]; omega, ?_⟩
      simp only [descend]
      rw [if_neg (by omega), if_pos (by omega)]
      rw [← e]; congr 1; omega
    · have ex : x' / 2 ^ l = 2 * x + 1 := by omega
      have ey : y' / 2 ^ l = 2 * y + 1 := by omega
      rw [ex, ey] at hr e
      refine ⟨reduce base l (2 * x) (2 * y) + reduce base l (2 * x + 1) (2 * y)
        + reduce base l (2 * x) (2 * y + 1) + r, by simp only [reduce]; omega, ?_⟩
      simp only [descend]
      rw [if_neg (by omega), if_neg (by omega), if_neg (by omega)]
      rw [← e]; congr 1; omega

/-- The cell of the linear address of `(i,j,k)` is `(i,j,k)`. -/
theorem cellOfAddress_address (l : Lattice) (i j k : Nat) (hi : i < l.cellsX)
    (hj : j < l.cellsY) :
    l.cellOfAddress (i + l.cellsX * (j + l.cellsY * k)) = (i, j, k) := by
  have hx : 0 < l.cellsX := by omega
  have hy : 0 < l.cellsY := by omega
  have d1 : (i + l.cellsX * (j + l.cellsY * k)) / l.cellsX = j + l.cellsY * k := by
    rw [Nat.add_mul_div_left _ _ hx, Nat.div_eq_of_lt hi, Nat.zero_add]
  simp only [Lattice.cellOfAddress, ← Nat.div_div_eq_div_mul, d1, Nat.add_mul_mod_self_left,
    Nat.mod_eq_of_lt hi, Nat.mod_eq_of_lt hj, Nat.add_mul_div_left _ _ hy, Nat.div_eq_of_lt hj,
    Nat.zero_add]

/-- The linear address of the cell of `a` is `a`. -/
theorem address_cellOfAddress (l : Lattice) (a : Nat) :
    (l.cellOfAddress a).1 + l.cellsX * ((l.cellOfAddress a).2.1
      + l.cellsY * (l.cellOfAddress a).2.2) = a := by
  simp only [Lattice.cellOfAddress, ← Nat.div_div_eq_div_mul, Nat.mod_add_div]

/-- An address below the number of cells is the address of a cell of the grid. -/
theorem cellOfAddress_lt (l : Lattice) (a : Nat) (h : a < l.numCells) :
    (l.cellOfAddress a).1 < l.cellsX ∧ (l.cellOfAddress a).2.1 < l.cellsY ∧
      (l.cellOfAddress a).2.2 < l.cellsZ := by
  unfold Lattice.numCells at h
  have hx : 0 < l.cellsX := by
    rcases Nat.eq_zero_or_pos l.cellsX with e | e
    · rw [e] at h; simp at h
    · exact e
  have hy : 0 < l.cellsY := by
    rcases Nat.eq_zero_or_pos l.cellsY with e | e
    · rw [e] at h; simp at h
    · exact e
  refine ⟨Nat.mod_lt _ hx, Nat.mod_lt _ hy, ?_⟩
  exact (Nat.div_lt_iff_lt_mul (Nat.mul_pos hx hy)).2 (by rw [Nat.mul_comm]; exact h)

/-- The linear address of a cell of the grid is below the number of cells. -/
theorem address_lt (l : Lattice) (i j k : Nat) (hi : i < l.cellsX) (hj : j < l.cellsY)
    (hk : k < l.cellsZ) : i + l.cellsX * (j + l.cellsY * k) < l.numCells := by
  unfold Lattice.numCells
  have h1 : j + l.cellsY * k + 1 ≤ l.cellsY * l.cellsZ := by
    calc j + l.cellsY * k + 1 ≤ l.cellsY * (k + 1) := by rw [Nat.mul_succ]; omega
      _ ≤ l.cellsY * l.cellsZ := Nat.mul_le_mul_left _ hk
  calc i + l.cellsX * (j + l.cellsY * k) < l.cellsX * (j + l.cellsY * k + 1) := by
        rw [Nat.mul_succ]; omega
    _ ≤ l.cellsX * (l.cellsY * l.cellsZ) := Nat.mul_le_mul_left _ h1
    _ = l.cellsX * l.cellsY * l.cellsZ := (Nat.mul_assoc _ _ _).symm

/-- The base level holds all cells. -/
theorem numCells_le_sq (b : Build) : b.lattice.numCells ≤ b.hpSize * b.hpSize := by
  have h := Nat.le_pow_clog (by norm_num : 1 < 4) b.lattice.numCells
  have e : (4 : Nat) ^ Nat.clog 4 b.lattice.numCells = b.hpSize * b.hpSize := by
    unfold Build.hpSize Build.log2Size
    rw [← Nat.mul_pow]
  rw [e] at h; exact h

/-- A base entry with a nonzero count is the entry of a cell, not padding. -/
theorem buildBaseLevel_pos (b : Build) (x y r : Nat) (h : r < buildBaseLevel b x y) :
    x < b.hpSize ∧ x + b.hpSize * y < b.lattice.numCells ∧
      r < b.cellCount (b.lattice.cellOfAddress (x + b.hpSize * y)).1
        (b.lattice.cellOfAddress (x + b.hpSize * y)).2.1
        (b.lattice.cellOfAddress (x + b.hpSize * y)).2.2 := by
  unfold buildBaseLevel at h
  split_ifs at h with c
  · exact ⟨c.1, c.2, h⟩
  · omega

/-- The side of the base level is positive. -/
theorem hpSize_pos (b : Build) : 0 < b.hpSize := Nat.pos_pow_of_pos _ (by norm_num)

/-- The positions under the apex are those inside the base level. -/
theorem div_hpSize_eq_zero (b : Build) (x : Nat) : x / 2 ^ b.log2Size = 0 ↔ x < b.hpSize := by
  unfold Build.hpSize
  rw [Nat.div_eq_zero_iff (Nat.pos_pow_of_pos _ (by norm_num))]

/-- C2: for every build, the traversal of a key from the apex down to the base level maps
the keys `0 .. apex-1` one-to-one and onto the pairs `(cell, i)` with
`i < vertexCount (configuration cell)`. -/
theorem decode_bijOn (b : Build) :
    Set.BijOn (decode b) {key | key < apex b} (vertexSlots b) := by
  refine ⟨?_, ?_, ?_⟩
  · intro key hkey
    obtain ⟨-, -, h3⟩ := descend_mem (buildBaseLevel b) b.log2Size 0 0 key hkey
    obtain ⟨-, hN, hr⟩ := buildBaseLevel_pos b _ _ _ h3
    obtain ⟨c1, c2, c3⟩ := cellOfAddress_lt b.lattice _ hN
    exact ⟨c1, c2, c3, hr⟩
  · intro k1 h1 k2 h2 e
    obtain ⟨-, my1, m1⟩ := descend_mem (buildBaseLevel b) b.log2Size 0 0 k1 h1
    obtain ⟨-, my2, m2⟩ := descend_mem (buildBaseLevel b) b.log2Size 0 0 k2 h2
    obtain ⟨x1, -, -⟩ := buildBaseLevel_pos b _ _ _ m1
    obtain ⟨x2, -, -⟩ := buildBaseLevel_pos b _ _ _ m2
    simp only [decode, Prod.mk.injEq] at e
    obtain ⟨ec, er⟩ := e
    have ea := address_cellOfAddress b.lattice
      ((descend (buildBaseLevel b) b.log2Size 0 0 k1).1
        + b.hpSize * (descend (buildBaseLevel b) b.log2Size 0 0 k1).2.1)
    rw [ec, address_cellOfAddress] at ea
    have ex : (descend (buildBaseLevel b) b.log2Size 0 0 k1).1
        = (descend (buildBaseLevel b) b.log2Size 0 0 k2).1 := by
      have := congrArg (· % b.hpSize) ea
      simpa [Nat.add_mul_mod_self_left, Nat.mod_eq_of_lt x1, Nat.mod_eq_of_lt x2] using this.symm
    have ey : (descend (buildBaseLevel b) b.log2Size 0 0 k1).2.1
        = (descend (buildBaseLevel b) b.log2Size 0 0 k2).2.1 := by
      have := congrArg (· / b.hpSize) ea
      simpa [Nat.add_mul_div_left _ _ (hpSize_pos b), Nat.div_eq_of_lt x1,
        Nat.div_eq_of_lt x2] using this.symm
    exact descend_inj (buildBaseLevel b) b.log2Size 0 0 k1 k2 h1 h2
      (Prod.ext ex (Prod.ext ey er))
  · rintro ⟨⟨i, j, k⟩, r⟩ ⟨hi, hj, hk, hr⟩
    simp only at hi hj hk hr
    have hN := address_lt b.lattice i j k hi hj hk
    have hS := numCells_le_sq b
    have hp := hpSize_pos b
    set a := i + b.lattice.cellsX * (j + b.lattice.cellsY * k) with ha
    have hx : a % b.hpSize < b.hpSize := Nat.mod_lt _ hp
    have hy : a / b.hpSize < b.hpSize := (Nat.div_lt_iff_lt_mul hp).2 (lt_of_lt_of_le hN hS)
    have hxy : a % b.hpSize + b.hpSize * (a / b.hpSize) = a := Nat.mod_add_div _ _
    have hb : r < buildBaseLevel b (a % b.hpSize) (a / b.hpSize) := by
      unfold buildBaseLevel
      rw [hxy, if_pos ⟨hx, hN⟩, ha, cellOfAddress_address _ _ _ _ hi hj]
      exact hr
    obtain ⟨key, hkey, e⟩ := descend_surj (buildBaseLevel b) b.log2Size 0 0 _ _ r
      ((div_hpSize_eq_zero b _).2 hx) ((div_hpSize_eq_zero b _).2 hy) hb
    refine ⟨key, hkey, ?_⟩
    simp only [decode, e, hxy]
    rw [ha, cellOfAddress_address _ _ _ _ hi hj]

/-- C1: for every build, the apex of the pyramid (the vertex count read back) is the sum,
over all `(X-1)(Y-1)(Z-1)` cells, of the case-table vertex count of the configuration of
the cell. -/
theorem apex_eq_sum (b : Build) :
    apex b = ∑ i in Finset.range b.lattice.cellsX, ∑ j in Finset.range b.lattice.cellsY,
      ∑ k in Finset.range b.lattice.cellsZ, b.cellCount i j k := by
  have hS := numCells_le_sq b
  have e1 : apex b = ∑ a in Finset.range (b.hpSize * b.hpSize),
      if a < b.lattice.numCells then
        b.cellCount (b.lattice.cellOfAddress a).1 (b.lattice.cellOfAddress a).2.1
          (b.lattice.cellOfAddress a).2.2 else 0 := by
    rw [sum_range_mul]
    unfold apex
    rw [reduce_eq_sum]
    apply Finset.sum_congr rfl
    intro y _
    apply Finset.sum_congr rfl
    intro x hx
    have hx' : x < b.hpSize := Finset.mem_range.1 hx
    simp only [Nat.zero_mul, Nat.zero_add, buildBaseLevel, hx', true_and]
  have e2 : (∑ a in Finset.range (b.hpSize * b.hpSize),
      if a < b.lattice.numCells then
        b.cellCount (b.lattice.cellOfAddress a).1 (b.lattice.cellOfAddress a).2.1
          (b.lattice.cellOfAddress a).2.2 else 0)
      = ∑ a in Finset.range b.lattice.numCells,
        b.cellCount (b.lattice.cellOfAddress a).1 (b.lattice.cellOfAddress a).2.1
          (b.lattice.cellOfAddress a).2.2 := by
    obtain ⟨d, hd⟩ := Nat.exists_eq_add_of_le hS
    rw [hd, Finset.sum_range_add]
    have z : ∀ x ∈ Finset.range d, (if b.lattice.numCells + x < b.lattice.numCells then
        b.cellCount (b.lattice.cellOfAddress (b.lattice.numCells + x)).1
          (b.lattice.cellOfAddress (b.lattice.numCells + x)).2.1
          (b.lattice.cellOfAddress (b.lattice.numCells + x)).2.2 else 0) = 0 := by
      intro x _; rw [if_neg (by omega)]
    rw [Finset.sum_eq_zero z, Nat.add_zero]
    apply Finset.sum_congr rfl
    intro a ha
    rw [if_pos (Finset.mem_range.1 ha)]
  rw [e1, e2]
  unfold Lattice.numCells
  rw [Nat.mul_assoc, sum_range_mul]
  rw [Finset.sum_comm]
  apply Finset.sum_congr rfl
  intro i hi
  rw [sum_range_mul, Finset.sum_comm]
  apply Finset.sum_congr rfl
  intro j hj
  apply Finset.sum_congr rfl
  intro k _
  rw [cellOfAddress_address _ _ _ _ (Finset.mem_range.1 hi) (Finset.mem_range.1 hj)]

/-- The scenario of section 8: on the 2x2x2 lattice with one negative corner and iso-value 0
the only cell has the single-corner configuration 254, the apex is the table's count for
it, and every key decodes to that cell. -/
theorem apex_single_corner (vc : Nat → Nat) :
    configuration singleCornerLattice 0 0 0 0 = 254 ∧
    apex (singleCornerBuild vc) = vc 254 ∧
    ∀ key, decode (singleCornerBuild vc) key = ((0, 0, 0), key) := by
  have hc : configuration singleCornerLattice 0 0 0 0 = 254 := by
    simp [configuration, cornerSample, singleCornerLattice, List.range, List.range.loop]
  have hn : (singleCornerBuild vc).lattice.numCells = 1 := rfl
  have hl : (singleCornerBuild vc).log2Size = 0 := by
    unfold Build.log2Size; rw [hn]; simp
  have hs : (singleCornerBuild vc).hpSize = 1 := by
    unfold Build.hpSize; rw [hl]; rfl
  have ha : (singleCornerBuild vc).lattice.cellOfAddress 0 = (0, 0, 0) := by
    simp [Lattice.cellOfAddress]
  refine ⟨hc, ?_, ?_⟩
  · unfold apex
    rw [hl]
    simp only [reduce, buildBaseLevel, hs, hn, ha, Build.cellCount]
    simp only [singleCornerBuild, hc]
    simp
  · intro key
    unfold decode
    rw [hl]
    simp only [descend, hs, Nat.mul_zero, Nat.add_zero, ha]

/-! ## Theorems: the resize check of `render` -/

/-- Rounding to nearest loses at most one half. -/
theorem roundHalfEven_ge (q : ℚ) : q - 1 / 2 ≤ roundHalfEven q := by
  have h1 := Int.floor_le q
  have h2 := Int.lt_floor_add_one q
  unfold roundHalfEven
  split_ifs <;> push_cast <;> linarith

/-- Rounding to nearest gains at most one half. -/
theorem roundHalfEven_le (q : ℚ) : (roundHalfEven q : ℚ) ≤ q + 1 / 2 := by
  have h1 := Int.floor_le q
  have h2 := Int.lt_floor_add_one q
  unfold roundHalfEven
  split_ifs <;> push_cast <;> linarith

/-- A number strictly within one half of the integer `m` rounds to `m`. -/
theorem roundHalfEven_eval (q : ℚ) (m : ℤ) (h1 : (m : ℚ) - 1 / 2 < q) (h2 : q < m + 1 / 2) :
    roundHalfEven q = m := by
  have hf1 := Int.floor_le q
  have hf2 := Int.lt_floor_add_one q
  have lo := roundHalfEven_ge q
  have hi := roundHalfEven_le q
  have u : (roundHalfEven q : ℚ) < m + 1 := by linarith
  have v : (m : ℚ) - 1 < roundHalfEven q := by linarith
  have u1 : roundHalfEven q < m + 1 := by exact_mod_cast u
  have v1 : m - 1 < roundHalfEven q := by exact_mod_cast v
  omega

/-- The spacing of binary32 values is positive. -/
theorem ulp32_pos (q : ℚ) : 0 < ulp32 q := by
  unfold ulp32; positivity

/-- The spacing of binary32 values around `q` is at most `q / 2^23`. -/
theorem ulp32_le (q : ℚ) (h : 0 < q) : ulp32 q ≤ q / 2 ^ 23 := by
  unfold ulp32
  have h1 : ((2 : ℕ) : ℚ) ^ Int.log 2 q ≤ q := Int.zpow_log_le_self (by norm_num) h
  rw [zpow_sub₀ (by norm_num : (2 : ℚ) ≠ 0)]
  push_cast at h1
  have : (2 : ℚ) ^ (23 : ℤ) = 2 ^ 23 := by norm_cast
  rw [this]
  exact div_le_div_of_nonneg_right h1 (by positivity)

/-- Rounding to `float` lowers a positive number by at most the relative error 2^-24. -/
theorem fl32_ge (q : ℚ) (h : 0 < q) : q * (1 - 1 / 2 ^ 24) ≤ fl32 q := by
  have hu := ulp32_pos q
  have hl := ulp32_le q h
  have hr := roundHalfEven_ge (q / ulp32 q)
  unfold fl32
  rw [if_pos h]
  have : (q / ulp32 q - 1 / 2) * ulp32 q ≤ roundHalfEven (q / ulp32 q) * ulp32 q :=
    mul_le_mul_of_nonneg_right hr hu.le
  have e : (q / ulp32 q - 1 / 2) * ulp32 q = q - ulp32 q / 2 := by
    field_simp
    ring
  rw [e] at this
  norm_num at hl ⊢
  linarith

/-- Rounding to `float` raises a positive number by at most the relative error 2^-24. -/
theorem fl32_le (q : ℚ) (h : 0 < q) : fl32 q ≤ q * (1 + 1 / 2 ^ 24) := by
  have hu := ulp32_pos q
  have hl := ulp32_le q h
  have hr := roundHalfEven_le (q / ulp32 q)
  unfold fl32
  rw [if_pos h]
  have : (roundHalfEven (q / ulp32 q) : ℚ) * ulp32 q ≤ (q / ulp32 q + 1 / 2) * ulp32 q :=
    mul_le_mul_of_nonneg_right hr hu.le
  have e : (q / ulp32 q + 1 / 2) * ulp32 q = q + ulp32 q / 2 := by
    field_simp
    ring
  rw [e] at this
  norm_num at hl ⊢
  linarith

/-- Zero is a `float`. -/
theorem fl32_zero : fl32 0 = 0 := by simp [fl32]

/-- The `float` of a positive number in the binade `[2^e, 2^(e+1))` whose significand
rounds to `m`. -/
theorem fl32_eval (q : ℚ) (e m : ℤ) (hq : 0 < q) (h1 : (2 : ℚ) ^ e ≤ q) (h2 : q < 2 ^ (e + 1))
    (hm : roundHalfEven (q / 2 ^ (e - 23)) = m) : fl32 q = m * 2 ^ (e - 23) := by
  have hl : Int.log 2 q = e := by
    have a : e ≤ Int.log 2 q := by
      rw [← Int.zpow_le_iff_le_log (by norm_num) hq]; exact_mod_cast h1
    have b : Int.log 2 q < e + 1 := by
      rw [← Int.lt_zpow_iff_log_lt (by norm_num) hq]; exact_mod_cast h2
    omega
  unfold fl32 ulp32
  rw [if_pos hq, hl, hm]

/-- The literal `1.1f` is the binary32 value 9227469 / 2^23. -/
theorem fl32_eleven_tenths : fl32 (11 / 10) = 9227469 / 8388608 := by
  rw [fl32_eval _ 0 9227469 (by norm_num) (by norm_num) (by norm_num)
    (roundHalfEven_eval _ _ (by norm_num) (by norm_num))]
  norm_num

/-- For a vertex count up to 1 950 000 000 the product `1.1f*float(N)`, rounded to `float`,
is at least `N` and below 2^31. -/
theorem resize_value_bounds (N : ℤ) (h0 : 0 ≤ N) (h1 : N ≤ 1950000000) :
    (N : ℚ) ≤ fl32 (fl32 (11 / 10) * fl32 N) ∧ fl32 (fl32 (11 / 10) * fl32 N) < 2 ^ 31 := by
  rw [fl32_eleven_tenths]
  rcases h0.eq_or_lt with e | e
  · rw [← e]; norm_num [fl32_zero]
  · have hN : (0 : ℚ) < N := by exact_mod_cast e
    have hN1 : (N : ℚ) ≤ 1950000000 := by exact_mod_cast h1
    have a1 := fl32_ge N hN
    have a2 := fl32_le N hN
    have hf : 0 < fl32 (N : ℚ) := by
      have : (0 : ℚ) < N * (1 - 1 / 2 ^ 24) := by apply mul_pos hN; norm_num
      linarith
    have hp : (0 : ℚ) < 9227469 / 8388608 * fl32 N := by positivity
    have b1 := fl32_ge _ hp
    have b2 := fl32_le _ hp
    norm_num at a1 a2 b1 b2 ⊢
    constructor <;> linarith

/-- An integer rounds to itself. -/
theorem roundHalfEven_intCast (z : ℤ) : roundHalfEven (z : ℚ) = z :=
  roundHalfEven_eval _ _ (by linarith) (by linarith)

/-- A number below `m + 1/2` rounds to at most the integer `m`. -/
theorem roundHalfEven_le_of_lt (q : ℚ) (m : ℤ) (h : q < m + 1 / 2) : roundHalfEven q ≤ m := by
  have hi := roundHalfEven_le q
  have u : (roundHalfEven q : ℚ) < m + 1 := by linarith
  have u1 : roundHalfEven q < m + 1 := by exact_mod_cast u
  omega

/-- A number that is at least the integer `m` rounds to at least `m`. -/
theorem roundHalfEven_ge_of_le (q : ℚ) (m : ℤ) (h : (m : ℚ) ≤ q) : m ≤ roundHalfEven q := by
  have lo := roundHalfEven_ge q
  have v : (m : ℚ) - 1 < roundHalfEven q := by linarith
  have v1 : m - 1 < roundHalfEven q := by exact_mod_cast v
  omega

/-- A tie above an odd integer rounds up to the even one. -/
theorem roundHalfEven_tie_odd (m : ℤ) (hodd : m % 2 = 1) :
    roundHalfEven ((m : ℚ) + 1 / 2) = m + 1 := by
  have hf : ⌊(m : ℚ) + 1 / 2⌋ = m := by
    rw [Int.floor_eq_iff]; constructor <;> linarith
  unfold roundHalfEven
  rw [hf]
  have e : (m : ℚ) + 1 / 2 - m = 1 / 2 := by ring
  rw [e, if_neg (lt_irrefl _), if_neg (lt_irrefl _), if_neg (by omega)]

/-- For a vertex count up to 325 376 303 the product `1.1f*float(N)`, rounded to `float`, is
at most 357 913 920, so six times its truncation is below 2^31. -/
theorem resize_value_le (N : ℤ) (h0 : 0 ≤ N) (h1 : N ≤ 325376303) :
    fl32 (fl32 (11 / 10) * fl32 N) ≤ 357913920 := by
  rw [fl32_eleven_tenths]
  by_cases hb : N < 268435456
  · rcases h0.eq_or_lt with e | e
    · rw [← e]; norm_num [fl32_zero]
    · have hN : (0 : ℚ) < N := by exact_mod_cast e
      have hN1 : (N : ℚ) < 268435456 := by exact_mod_cast hb
      have a2 := fl32_le N hN
      have a1 := fl32_ge N hN
      have hf : 0 < fl32 (N : ℚ) := by
        have : (0 : ℚ) < N * (1 - 1 / 2 ^ 24) := by apply mul_pos hN; norm_num
        linarith
      have hp : (0 : ℚ) < 9227469 / 8388608 * fl32 N := by positivity
      have b2 := fl32_le _ hp
      norm_num at a2 b2 ⊢
      linarith
  · have hN0 : (268435456 : ℚ) ≤ N := by exact_mod_cast (not_lt.1 hb)
    have hN1 : (N : ℚ) ≤ 325376303 := by exact_mod_cast h1
    have hm1 : roundHalfEven ((N : ℚ) / 2 ^ ((28 : ℤ) - 23)) ≤ 10168009 :=
      roundHalfEven_le_of_lt _ _ (by norm_num; linarith)
    have hm0 : 8388608 ≤ roundHalfEven ((N : ℚ) / 2 ^ ((28 : ℤ) - 23)) :=
      roundHalfEven_ge_of_le _ _ (by norm_num; linarith)
    have hm1q : (roundHalfEven ((N : ℚ) / 2 ^ ((28 : ℤ) - 23)) : ℚ) ≤ 10168009 := by
      exact_mod_cast hm1
    have hm0q : (8388608 : ℚ) ≤ roundHalfEven ((N : ℚ) / 2 ^ ((28 : ℤ) - 23)) := by
      exact_mod_cast hm0
    rw [fl32_eval (N : ℚ) 28 _ (by linarith) (by norm_num; linarith) (by norm_num; linarith) rfl]
    generalize roundHalfEven ((N : ℚ) / 2 ^ ((28 : ℤ) - 23)) = m at hm1q hm0q
    have hmpos : (0 : ℚ) < m := by linarith
    have hp0 : (0 : ℚ) < 9227469 / 8388608 * ((m : ℚ) * 2 ^ ((28 : ℤ) - 23)) := by
      positivity
    have hk : roundHalfEven (9227469 / 8388608 * ((m : ℚ) * 2 ^ ((28 : ℤ) - 23))
        / 2 ^ ((28 : ℤ) - 23)) ≤ 11184810 :=
      roundHalfEven_le_of_lt _ _ (by norm_num; linarith)
    have hkq : (roundHalfEven (9227469 / 8388608 * ((m : ℚ) * 2 ^ ((28 : ℤ) - 23))
        / 2 ^ ((28 : ℤ) - 23)) : ℚ) ≤ 11184810 := by exact_mod_cast hk
    rw [fl32_eval _ 28 _ hp0 (by norm_num; linarith) (by norm_num; linarith) rfl]
    norm_num at hkq ⊢
    linarith

/-- One resize check: for a vertex count up to 325 376 303 the check returns a capacity
that is at least the count and at least the old capacity, and the size of the buffer is
computed without overflow. -/
theorem render_resize_spec (cap N : ℤ) (h0 : 0 ≤ N) (h1 : N ≤ 325376303) :
    ∃ c, render_resize cap N = some c ∧ N ≤ c ∧ cap ≤ c ∧
      (cap < N → c = ⌊fl32 (fl32 (11 / 10) * fl32 N)⌋ ∧
        render_buffer_size c = some ((3 + 3) * c * 4)) ∧
      (¬ cap < N → c = cap) := by
  obtain ⟨lo, -⟩ := resize_value_bounds N h0 (by omega)
  have hi := resize_value_le N h0 h1
  have hnn : (0 : ℚ) ≤ fl32 (fl32 (11 / 10) * fl32 N) :=
    le_trans (by exact_mod_cast h0) lo
  have fl : N ≤ ⌊fl32 (fl32 (11 / 10) * fl32 N)⌋ := Int.le_floor.2 lo
  have fu : ⌊fl32 (fl32 (11 / 10) * fl32 N)⌋ ≤ 357913920 := by
    have : (⌊fl32 (fl32 (11 / 10) * fl32 N)⌋ : ℚ) ≤ 357913920 :=
      le_trans (Int.floor_le _) hi
    exact_mod_cast this
  have hsize : render_buffer_size ⌊fl32 (fl32 (11 / 10) * fl32 N)⌋
      = some ((3 + 3) * ⌊fl32 (fl32 (11 / 10) * fl32 N)⌋ * 4) := by
    unfold render_buffer_size
    rw [if_pos ⟨by omega, by omega⟩]
  by_cases hc : cap < N
  · refine ⟨⌊fl32 (fl32 (11 / 10) * fl32 N)⌋, ?_, fl, by omega, fun _ => ⟨rfl, hsize⟩,
      fun h => absurd hc h⟩
    unfold render_resize toGLsizei
    rw [if_pos hc]
    simp only [if_pos hnn]
    rw [if_pos ⟨by omega, by omega⟩, Option.some_bind, hsize]
    rfl
  · refine ⟨cap, ?_, by omega, le_refl _, fun h => absurd h hc, fun _ => rfl⟩
    unfold render_resize; rw [if_neg hc]

/-- A run of frames with vertex counts up to 325 376 303 leaves a capacity, and the capacity
never shrinks. -/
theorem render_capacity_total (Ns : List ℤ) (hNs : ∀ n ∈ Ns, 0 ≤ n ∧ n ≤ 325376303) :
    ∀ cap0 : ℤ, ∃ cap, Ns.foldlM render_resize cap0 = some cap ∧ cap0 ≤ cap := by
  induction Ns with
  | nil => intro cap0; exact ⟨cap0, rfl, le_refl _⟩
  | cons n Ns ih =>
    intro cap0
    obtain ⟨c, hc, -, hle, -⟩ := render_resize_spec cap0 n (hNs n (List.mem_cons_self _ _)).1
      (hNs n (List.mem_cons_self _ _)).2
    obtain ⟨cap, h, hle2⟩ := ih (fun m hm => hNs m (List.mem_cons_of_mem _ hm)) c
    refine ⟨cap, ?_, le_trans hle hle2⟩
    rw [List.foldlM_cons, hc]
    exact h

/-- At the largest 32-bit vertex count the product `1.1f*float(N)` is 2362232064, which no
32-bit `int` holds: the conversion of the resize check is undefined there. -/
theorem render_resize_overflow (v : VolumeSize) :
    render_resize (init v).mc_tri_vbo_N 2147483647 = none := by
  have e1 : fl32 ((2147483647 : ℤ) : ℚ) = 2147483648 := by
    rw [fl32_eval _ 30 16777216 (by norm_num) (by norm_num) (by norm_num)
      (roundHalfEven_eval _ _ (by norm_num) (by norm_num))]
    norm_num
  have e2 : fl32 (9227469 / 8388608 * 2147483648) = 2362232064 := by
    rw [fl32_eval _ 31 9227469 (by norm_num) (by norm_num) (by norm_num)
      (roundHalfEven_eval _ _ (by norm_num) (by norm_num))]
    norm_num
  unfold render_resize toGLsizei init
  rw [if_pos (by norm_num), fl32_eleven_tenths, e1, e2]
  norm_num

/-- The bound 325 376 303 is the last one: at the vertex count 325 376 304 the new capacity
is 357 913 952, and `(3+3) * mc_tri_vbo_N` = 2 147 483 712 overflows a 32-bit `int`, so the
resize check has no defined result. -/
theorem render_resize_size_overflow (v : VolumeSize) :
    toGLsizei (fl32 (fl32 (11 / 10) * fl32 ((325376304 : ℤ) : ℚ))) = some 357913952 ∧
    render_buffer_size 357913952 = none ∧
    render_resize (init v).mc_tri_vbo_N 325376304 = none := by
  have e1 : fl32 ((325376304 : ℤ) : ℚ) = 325376320 := by
    have ht : roundHalfEven (((325376304 : ℤ) : ℚ) / 2 ^ ((28 : ℤ) - 23)) = 10168009 + 1 := by
      have := roundHalfEven_tie_odd 10168009 (by decide)
      rw [← this]
      congr 1
      norm_num
    rw [fl32_eval _ 28 _ (by norm_num) (by norm_num) (by norm_num) ht]
    norm_num
  have e2 : fl32 (9227469 / 8388608 * 325376320) = 357913952 := by
    rw [fl32_eval _ 28 11184811 (by norm_num) (by norm_num) (by norm_num)
      (roundHalfEven_eval _ _ (by norm_num) (by norm_num))]
    norm_num
  have c1 : toGLsizei (fl32 (fl32 (11 / 10) * fl32 ((325376304 : ℤ) : ℚ))) = some 357913952 := by
    unfold toGLsizei
    rw [fl32_eleven_tenths, e1, e2]
    norm_num
  have c2 : render_buffer_size 357913952 = none := by
    unfold render_buffer_size
    norm_num
  refine ⟨c1, c2, ?_⟩
  unfold render_resize init
  rw [if_pos (by norm_num), c1, Option.some_bind, c2]
  rfl

/-- C3, as stated, fails: with the capacity 3000 set by `init` and the vertex count
N = 4194309 read back, the resize check sets the capacity to 4613740, which is not
floor(1.1*N) = 4613739 (the factor is the `float` constant `1.1f`, slightly above 1.1). -/
theorem render_resize_not_floor :
    render_resize (init ⟨64, 64, 64⟩).mc_tri_vbo_N 4194309 = some 4613740 ∧
      ⌊(11 / 10 : ℚ) * 4194309⌋ = 4613739 := by
  constructor
  · have e1 : fl32 ((4194309 : ℤ) : ℚ) = 4194309 := by
      rw [fl32_eval _ 22 (4194309 * 2) (by norm_num) (by norm_num) (by norm_num)
        (roundHalfEven_eval _ _ (by norm_num) (by norm_num))]
      norm_num
    have e2 : fl32 (9227469 / 8388608 * 4194309) = 4613740 := by
      rw [fl32_eval _ 22 (4613740 * 2) (by norm_num) (by norm_num) (by norm_num)
        (roundHalfEven_eval _ _ (by norm_num) (by norm_num))]
      norm_num
    unfold render_resize toGLsizei render_buffer_size init
    rw [if_pos (by norm_num), fl32_eleven_tenths, e1, e2]
    norm_num
  · rw [Int.floor_eq_iff]; norm_num

/-- C3, amended: in `render`, for every run of earlier frames and every vertex count `N`
read back, all counts between 0 and 325 376 303, the capacity `mc_tri_vbo_N` before the
check is at least the 3000 set by `init`, the resize check returns a capacity, and that
capacity is at least `N`: if `mc_tri_vbo_N < N` it is `1.1f*float(N)` computed in binary32
and truncated, and the size of the buffer is computed without overflow; otherwise it is
left unchanged. -/
theorem render_capacity_ge (v : VolumeSize) (Ns : List ℤ) (N : ℤ)
    (hNs : ∀ n ∈ Ns, 0 ≤ n ∧ n ≤ 325376303) (h0 : 0 ≤ N) (h1 : N ≤ 325376303) :
    ∃ cap c, render_capacity v Ns = some cap ∧ 3000 ≤ cap ∧ render_resize cap N = some c ∧
      N ≤ c ∧
      (cap < N → c = ⌊fl32 (fl32 (11 / 10) * fl32 N)⌋ ∧
        render_buffer_size c = some ((3 + 3) * c * 4)) ∧
      (¬ cap < N → c = cap) := by
  obtain ⟨cap, hcap, hle⟩ := render_capacity_total Ns hNs (init v).mc_tri_vbo_N
  obtain ⟨c, hc, hN, -, ha, hb⟩ := render_resize_spec cap N h0 h1
  refine ⟨cap, c, hcap, ?_, hc, hN, ha, hb⟩
  have : (init v).mc_tri_vbo_N = 3000 := by simp [init]
  omega

/-- Witness for C3: a frame that reads back 4000 vertices after a frame that read back
5000. -/
theorem render_capacity_ge_witness :
    ∃ cap c, render_capacity ⟨64, 64, 64⟩ [5000] = some cap ∧ 3000 ≤ cap ∧
      render_resize cap 4000 = some c ∧ 4000 ≤ c ∧
      (cap < 4000 → c = ⌊fl32 (fl32 (11 / 10) * fl32 ((4000 : ℤ) : ℚ))⌋ ∧
        render_buffer_size c = some ((3 + 3) * c * 4)) ∧
      (¬ cap < 4000 → c = cap) :=
  render_capacity_ge ⟨64, 64, 64⟩ [5000] 4000 (by simp) (by norm_num) (by norm_num)

/-! ## Theorems: the field and its gradient -/

/-- C5: for every coefficient vector and every point, in any arithmetic, the fourth
component of `HPMC_fetchGrad(p)` is `HPMC_fetch(p)`, so `HPMC_fetchGrad(p).w - iso` is
`HPMC_fetch(p) - iso`. -/
theorem fetchGrad_w_eq_fetch {K : Type} [Add K] [Sub K] [Mul K] [Neg K] [OfScientific K]
    (shape : Fin 12 → K) (p : Vec3 K) (iso : K) :
    (HPMC_fetchGrad shape p).w = HPMC_fetch shape p ∧
      (HPMC_fetchGrad shape p).w - iso = HPMC_fetch shape p - iso :=
  ⟨rfl, rfl⟩

/-- The x component of `HPMC_fetchGrad` is the derivative in x of the field of `HPMC_fetch`,
in the transformed coordinates. -/
theorem fetchGrad_x (shape : Fin 12 → ℝ) (x y z : ℝ) :
    HasDerivAt (fun t => HPMC_fetch_return shape ⟨t, y, z⟩)
      (HPMC_fetchGrad_return shape ⟨x, y, z⟩).x x := by
  unfold HPMC_fetch_return HPMC_fetchGrad_return Vec4.neg
  simp only
  have h : HasDerivAt (fun t : ℝ => t) 1 x := hasDerivAt_id x
  have := ((((((((((((h.const_mul (shape 0)).mul h).mul h).mul h).mul h).add
    ((((h.const_mul (shape 1)).mul h).mul h).mul h)).add_const (shape 2*y*y*y*y)).add_const
    (shape 3*z*z*z*z)).add ((((h.const_mul (shape 4)).mul h).mul_const y).mul_const y)).add
    ((((h.const_mul (shape 5)).mul h).mul_const z).mul_const z)).add_const
    (shape 6*y*y*z*z)).add (((h.const_mul (shape 7)).mul_const y).mul_const z)).add
    ((h.const_mul (shape 8)).mul h)
  have := (((this.add_const (shape 9*y*y)).add_const (shape 10*z*z)).add_const (shape 11)).neg
  convert this using 1
  norm_num
  ring

/-- The y component of `HPMC_fetchGrad` is the derivative in y of the field of `HPMC_fetch`,
in the transformed coordinates. -/
theorem fetchGrad_y (shape : Fin 12 → ℝ) (x y z : ℝ) :
    HasDerivAt (fun t => HPMC_fetch_return shape ⟨x, t, z⟩)
      (HPMC_fetchGrad_return shape ⟨x, y, z⟩).y y := by
  unfold HPMC_fetch_return HPMC_fetchGrad_return Vec4.neg
  simp only
  have h : HasDerivAt (fun t : ℝ => t) 1 y := hasDerivAt_id y
  have := (((((((((hasDerivAt_const y (shape 0*x*x*x*x*x + shape 1*x*x*x*x)).add
    ((((h.const_mul (shape 2)).mul h).mul h).mul h)).add_const (shape 3*z*z*z*z)).add
    ((h.const_mul (shape 4*x*x)).mul h)).add_const (shape 5*x*x*z*z)).add
    ((((h.const_mul (shape 6)).mul h).mul_const z).mul_const z)).add
    ((h.const_mul (shape 7*x)).mul_const z)).add_const (shape 8*x*x)).add
    ((h.const_mul (shape 9)).mul h))
  have := ((this.add_const (shape 10*z*z)).add_const (shape 11)).neg
  convert this using 1
  norm_num
  ring

/-- The derivative in z of the field of `HPMC_fetch`: the z component of `HPMC_fetchGrad`
with `p.y*p.y*p.z` in the `shape[6]` term, where the code has `p.y*p.z*p.z`. -/
theorem fetch_deriv_z (shape : Fin 12 → ℝ) (x y z : ℝ) :
    HasDerivAt (fun t => HPMC_fetch_return shape ⟨x, y, t⟩)
      ((HPMC_fetchGrad_return shape ⟨x, y, z⟩).z
        + (2.0*shape 6*y*z*z - 2.0*shape 6*y*y*z)) z := by
  unfold HPMC_fetch_return HPMC_fetchGrad_return Vec4.neg
  simp only
  have h : HasDerivAt (fun t : ℝ => t) 1 z := hasDerivAt_id z
  have := (((((((((hasDerivAt_const z
      (shape 0*x*x*x*x*x + shape 1*x*x*x*x + shape 2*y*y*y*y)).add
    ((((h.const_mul (shape 3)).mul h).mul h).mul h)).add_const (shape 4*x*x*y*y)).add
    ((h.const_mul (shape 5*x*x)).mul h)).add
    ((h.const_mul (shape 6*y*y)).mul h)).add
    (h.const_mul (shape 7*x*y))).add_const (shape 8*x*x)).add_const (shape 9*y*y)).add
    ((h.const_mul (shape 10)).mul h))
  have := (this.add_const (shape 11)).neg
  convert this using 1
  norm_num
  ring

/-- C4 fails on the code: with `shape[6] = 1`, all other coefficients 0 and
p = (0.5, 1, 0), the transformed point is q = (0, 1.1, -1.1), the z component of
`HPMC_fetchGrad(p)` is -2.662, and the derivative in z of the field of `HPMC_fetch` at q
is 2.662; so the z component is not that derivative. -/
theorem fetchGrad_z_not_derivative :
    fetch_transform (⟨0.5, 1, 0⟩ : Vec3 ℝ) = ⟨0, 1.1, -1.1⟩ ∧
    (HPMC_fetchGrad (shape_y2z2 ℝ) ⟨0.5, 1, 0⟩).z = -2.662 ∧
    HasDerivAt (fun t => HPMC_fetch_return (shape_y2z2 ℝ) ⟨0, 1.1, t⟩) 2.662 (-1.1) ∧
    ¬ HasDerivAt (fun t => HPMC_fetch_return (shape_y2z2 ℝ) ⟨0, 1.1, t⟩)
      (HPMC_fetchGrad (shape_y2z2 ℝ) ⟨0.5, 1, 0⟩).z (-1.1) := by
  have e0 : fetch_transform (⟨0.5, 1, 0⟩ : Vec3 ℝ) = ⟨0, 1.1, -1.1⟩ := by
    simp only [fetch_transform, Vec3.mk.injEq]
    norm_num
  have s3 : shape_y2z2 ℝ 3 = 0 := if_neg (by decide)
  have s5 : shape_y2z2 ℝ 5 = 0 := if_neg (by decide)
  have s6 : shape_y2z2 ℝ 6 = 1 := if_pos rfl
  have s7 : shape_y2z2 ℝ 7 = 0 := if_neg (by decide)
  have s10 : shape_y2z2 ℝ 10 = 0 := if_neg (by decide)
  have e1 : (HPMC_fetchGrad (shape_y2z2 ℝ) ⟨0.5, 1, 0⟩).z = -2.662 := by
    rw [HPMC_fetchGrad, e0]
    simp only [HPMC_fetchGrad_return, Vec4.neg, s3, s5, s6, s7, s10]
    norm_num
  have e2 : HasDerivAt (fun t => HPMC_fetch_return (shape_y2z2 ℝ) ⟨0, 1.1, t⟩) 2.662 (-1.1) := by
    have := fetch_deriv_z (shape_y2z2 ℝ) 0 1.1 (-1.1)
    convert this using 1
    simp only [HPMC_fetchGrad_return, Vec4.neg, s3, s5, s6, s7, s10]
    norm_num
  refine ⟨e0, e1, e2, fun h => ?_⟩
  have := h.unique e2
  rw [e1] at this
  norm_num at this

/-! ## Theorems: `main` and `init` -/

/-- A value in the range of a 32-bit `int` is not changed by wrapping. -/
theorem int32_of_range (a : Int) (h1 : -2 ^ 31 ≤ a) (h2 : a < 2 ^ 31) : int32 a = a := by
  unfold int32 Int.bmod
  norm_num at h1 h2 ⊢
  split_ifs <;> omega

/-- C7, as stated, fails: for the command line `particles 1` the lattice dimensions that
`init` passes to `HPMCsetLatticeSize` are (1, 1, 1), below 2 in each axis. -/
theorem main_lattice_size_one :
    (init (main_volume_size ["particles", "1"])).HPMCsetLatticeSize = (1, 1, 1) := by
  decide

/-- C7, amended: for every command line the lattice dimensions that `init` passes to
`HPMCsetLatticeSize` are 64 in each axis when there is no argument or an argument count
other than one or three, `atoi` of the single size argument in all axes, or `atoi` of each
of the three size arguments; so they are at least 2 in each axis exactly when every size
argument that is read parses to at least 2. -/
theorem main_lattice_size (argv : List String) :
    (init (main_volume_size argv)).HPMCsetLatticeSize =
      (if argv.length = 2 then
        (atoi (argv.getD 1 ""), atoi (argv.getD 1 ""), atoi (argv.getD 1 ""))
      else if argv.length = 4 then
        (atoi (argv.getD 1 ""), atoi (argv.getD 2 ""), atoi (argv.getD 3 ""))
      else (64, 64, 64)) ∧
    ((2 ≤ (init (main_volume_size argv)).HPMCsetLatticeSize.1 ∧
      2 ≤ (init (main_volume_size argv)).HPMCsetLatticeSize.2.1 ∧
      2 ≤ (init (main_volume_size argv)).HPMCsetLatticeSize.2.2) ↔
      ((argv.length = 2 → 2 ≤ atoi (argv.getD 1 "")) ∧
       (argv.length = 4 → 2 ≤ atoi (argv.getD 1 "") ∧ 2 ≤ atoi (argv.getD 2 "") ∧
          2 ≤ atoi (argv.getD 3 "")))) := by
  by_cases h2 : argv.length = 2
  · have h4 : argv.length ≠ 4 := by omega
    simp [init, main_volume_size, h2]
  · by_cases h4 : argv.length = 4
    · simp [init, main_volume_size, h4]
    · simp [init, main_volume_size, h2, h4]

/-- C8: for every lattice size held in the 32-bit globals (any value but the least `int`,
whose predecessor does not exist), `init` passes the sizes themselves to
`HPMCsetLatticeSize` and exactly one less on each axis to `HPMCsetGridSize`. -/
theorem init_grid_size (v : VolumeSize)
    (hx : -2 ^ 31 < v.volume_size_x ∧ v.volume_size_x < 2 ^ 31)
    (hy : -2 ^ 31 < v.volume_size_y ∧ v.volume_size_y < 2 ^ 31)
    (hz : -2 ^ 31 < v.volume_size_z ∧ v.volume_size_z < 2 ^ 31) :
    (init v).HPMCsetLatticeSize = (v.volume_size_x, v.volume_size_y, v.volume_size_z) ∧
    (init v).HPMCsetGridSize =
      (v.volume_size_x - 1, v.volume_size_y - 1, v.volume_size_z - 1) := by
  refine ⟨rfl, ?_⟩
  simp only [init]
  rw [int32_of_range _ (by omega) (by omega), int32_of_range _ (by omega) (by omega),
    int32_of_range _ (by omega) (by omega)]

/-- Witness for C8: the lattice 128 x 64 x 32 gets the cell grid 127 x 63 x 31. -/
theorem init_grid_size_witness :
    (init ⟨128, 64, 32⟩).HPMCsetLatticeSize = (128, 64, 32) ∧
    (init ⟨128, 64, 32⟩).HPMCsetGridSize = (127, 63, 31) :=
  init_grid_size ⟨128, 64, 32⟩ (by decide) (by decide) (by decide)

/-! ## Theorems: the shader generator -/

/-- A text that opens with `a` differs from `t` when `t` does not open with `a`. -/
theorem append_ne_of_take_ne (a s t : String) (h : a.data ≠ t.data.take a.data.length) :
    a ++ s ≠ t := by
  intro e
  apply h
  rw [← e, String.data_append, List.take_left']
  rfl

/-- Appending to the same text is injective. -/
theorem append_left_cancel (a s t : String) (h : a ++ s = a ++ t) : s = t := by
  have := congrArg String.data h
  simp only [String.data_append, List.append_cancel_left_eq] at this
  exact String.ext this

/-- The shift `1<<L` does not overflow a 32-bit `int` for `L` up to 30. -/
theorem int32_one_shl (L : Nat) (h : L ≤ 30) : int32 (1 * 2 ^ L) = 2 ^ L := by
  unfold int32
  interval_cases L <;> rfl

/-- A flag line among the defines comes from one of the two flag tests, not from the
lines written before them. -/
theorem defines_fixed_ne (sf : ℚ → String) (h : HPMCIsoSurface) (t : String)
    (ht : t = "#define FIELD_BINARY 1" ∨ t = "#define FIELD_HAS_GRADIENT 1")
    (hm : t ∈ HPMCgenerateDefines sf h) :
    t ∈ (if h.field.isBinary then ["#define FIELD_BINARY 1"] else [])
      ∨ t ∈ (if h.field.hasGradient then ["#define FIELD_HAS_GRADIENT 1"] else []) := by
  unfold HPMCgenerateDefines at hm
  rw [List.mem_append, List.mem_append] at hm
  rcases hm with (hm | hm) | hm
  · exfalso
    simp only [List.mem_cons, List.mem_singleton, List.not_mem_nil, or_false] at hm
    rcases ht with rfl | rfl
    · repeat' (rcases hm with hm | hm)
      all_goals first
        | exact absurd hm (by decide)
        | exact (append_ne_of_take_ne _ _ _ (by decide)) hm.symm
        | (rw [String.append_assoc] at hm
           exact (append_ne_of_take_ne _ _ _ (by decide)) hm.symm)
    · repeat' (rcases hm with hm | hm)
      all_goals first
        | exact absurd hm (by decide)
        | exact (append_ne_of_take_ne _ _ _ (by decide)) hm.symm
        | (rw [String.append_assoc] at hm
           exact (append_ne_of_take_ne _ _ _ (by decide)) hm.symm)
  · exact Or.inl hm
  · exact Or.inr hm

/-- C6: the lines returned by `HPMCgenerateDefines` contain `#define FIELD_BINARY 1` if and
only if the field's `isBinary()` is true, and `#define FIELD_HAS_GRADIENT 1` if and only if
its `hasGradient()` is true, whatever the other flag and all other settings are. -/
theorem defines_flags (sf : ℚ → String) (h : HPMCIsoSurface) :
    ("#define FIELD_BINARY 1" ∈ HPMCgenerateDefines sf h ↔ h.field.isBinary = true) ∧
    ("#define FIELD_HAS_GRADIENT 1" ∈ HPMCgenerateDefines sf h ↔
      h.field.hasGradient = true) := by
  refine ⟨⟨fun hm => ?_, fun c => ?_⟩, ⟨fun hm => ?_, fun c => ?_⟩⟩
  · rcases defines_fixed_ne sf h _ (Or.inl rfl) hm with m | m
    · split_ifs at m with c
      · exact c
      · simp at m
    · split_ifs at m with c
      · exact absurd (List.mem_singleton.1 m) (by decide)
      · simp at m
  · unfold HPMCgenerateDefines
    simp [c]
  · rcases defines_fixed_ne sf h _ (Or.inr rfl) hm with m | m
    · split_ifs at m with c
      · exact absurd (List.mem_singleton.1 m) (by decide)
      · simp at m
    · split_ifs at m with c
      · exact c
      · simp at m
  · unfold HPMCgenerateDefines
    simp [c]

/-- C9: for every base-level `log2Size` L with 0 <= L <= 30, the lines returned by
`HPMCgenerateDefines` define `HPMC_HP_SIZE_L2` as L and nothing else, and `HPMC_HP_SIZE`
as 2^L and nothing else. -/
theorem defines_hp_size (sf : ℚ → String) (h : HPMCIsoSurface)
    (hL : h.baseLevelBuilder.log2Size ≤ 30) :
    (∀ s : String, "#define HPMC_HP_SIZE_L2  " ++ s ∈ HPMCgenerateDefines sf h ↔
      s = toString h.baseLevelBuilder.log2Size) ∧
    (∀ s : String, "#define HPMC_HP_SIZE     " ++ s ∈ HPMCgenerateDefines sf h ↔
      s = toString ((2 : Int) ^ h.baseLevelBuilder.log2Size)) := by
  constructor
  · intro s
    constructor
    · intro hm
      unfold HPMCgenerateDefines at hm
      rw [List.mem_append, List.mem_append] at hm
      rcases hm with (hm | hm) | hm
      · simp only [List.mem_cons, List.mem_singleton, List.not_mem_nil, or_false] at hm
        repeat' (rcases hm with hm | hm)
        all_goals first
          | exact append_left_cancel _ _ _ hm
          | exact absurd hm (append_ne_of_take_ne _ _ _ (by decide))
      · split_ifs at hm
        · exact absurd (List.mem_singleton.1 hm) (append_ne_of_take_ne _ _ _ (by decide))
        · simp at hm
      · split_ifs at hm
        · exact absurd (List.mem_singleton.1 hm) (append_ne_of_take_ne _ _ _ (by decide))
        · simp at hm
    · rintro rfl
      unfold HPMCgenerateDefines
      simp
  · intro s
    constructor
    · intro hm
      unfold HPMCgenerateDefines at hm
      rw [int32_one_shl _ hL, List.mem_append, List.mem_append] at hm
      rcases hm with (hm | hm) | hm
      · simp only [List.mem_cons, List.mem_singleton, List.not_mem_nil, or_false] at hm
        repeat' (rcases hm with hm | hm)
        all_goals first
          | exact append_left_cancel _ _ _ hm
          | exact absurd hm (append_ne_of_take_ne _ _ _ (by decide))
      · split_ifs at hm
        · exact absurd (List.mem_singleton.1 hm) (append_ne_of_take_ne _ _ _ (by decide))
        · simp at hm
      · split_ifs at hm
        · exact absurd (List.mem_singleton.1 hm) (append_ne_of_take_ne _ _ _ (by decide))
        · simp at hm
    · rintro rfl
      unfold HPMCgenerateDefines
      rw [int32_one_shl _ hL]
      simp

/-- Witness for C9: with `log2Size` 9 the defines hold `HPMC_HP_SIZE_L2` as 9 and
`HPMC_HP_SIZE` as 512. -/
theorem defines_hp_size_witness :
    sampleIsoSurface.baseLevelBuilder.log2Size ≤ 30 ∧
    "#define HPMC_HP_SIZE_L2  " ++ "9" ∈ HPMCgenerateDefines (fun _ => "1") sampleIsoSurface ∧
    "#define HPMC_HP_SIZE     " ++ "512" ∈ HPMCgenerateDefines (fun _ => "1") sampleIsoSurface :=
  ⟨by decide,
    ((defines_hp_size (fun _ => "1") sampleIsoSurface (by decide)).1 "9").2 (by decide),
    ((defines_hp_size (fun _ => "1") sampleIsoSurface (by decide)).2 "512").2 (by decide)⟩

/-- C10: for every target, the source returned by `HPMCgenerateExtractVertexFunction` ends
with a four-output `extractVertex( a, b, p, n )` whose body sets `key` and calls
`HPMC_baseLevelExtract( a, b, p, n, key )`, followed by a two-output `extractVertex( p, n )`
whose body only delegates to the four-output one; and the demo vertex shader calls
`extractVertex( p, n )`. -/
theorem extractVertex_defined (gl30 : Int) (res : Resources) (target : Int) :
    (∃ head keyStmt, HPMCgenerateExtractVertexFunction gl30 res target
        = head ++ extractVertex4 keyStmt ++ extractVertex2 ∧
      (keyStmt = "    float key = gl_Vertex.x + HPMC_key_offset;" ∨
        keyStmt = "    float key = gl_VertexID;")) ∧
    (∃ head tail, custom_vertex_shader = head ++ "    extractVertex( p, n );\n" ++ tail) := by
  constructor
  · unfold HPMCgenerateExtractVertexFunction
    split_ifs
    · refine ⟨"uniform sampler2D  HPMC_histopyramid;" ++ endl
        ++ "uniform float      HPMC_threshold;" ++ endl
        ++ "uniform sampler2D  HPMC_edge_table;" ++ endl
        ++ res.downtraversal_110
        ++ res.baselevel_traversal_110
        ++ "// generated by HPMCgenerateExtractShaderFunctions" ++ endl
        ++ "uniform float      HPMC_key_offset;" ++ endl,
        "    float key = gl_Vertex.x + HPMC_key_offset;", ?_, Or.inl rfl⟩
      simp only [String.append_assoc, extractVertex4, extractVertex2]
    · refine ⟨"uniform sampler2D  HPMC_histopyramid;" ++ endl
        ++ "uniform float      HPMC_threshold;" ++ endl
        ++ "uniform sampler2D  HPMC_edge_table;" ++ endl
        ++ res.downtraversal_130
        ++ res.baselevel_traversal_110
        ++ "// generated by HPMCgenerateExtractShaderFunctions" ++ endl,
        "    float key = gl_VertexID;", ?_, Or.inr rfl⟩
      simp only [String.append_assoc, extractVertex4, extractVertex2]
  · refine ⟨"varying out vec3 normal_cs;\n"
        ++ "varying out vec3 position_cs;\n"
        ++ "void\n"
        ++ "main()\n"
        ++ "\x7b\n"
        ++ "    vec3 p, n;\n",
      "    vec4 pp = gl_ModelViewMatrix * vec4( p, 1.0 );\n"
        ++ "    vec3 cn = normalize( gl_NormalMatrix * n );\n"
        ++ "    normal_cs = cn;\n"
        ++ "    position_cs = (1.0/pp.w)*pp.xyz;\n"
        ++ "    gl_Position = gl_ProjectionMatrix * pp;\n"
        ++ "\x7d\n", ?_⟩
    simp only [custom_vertex_shader, String.append_assoc]

/-! ## Theorems: the key of `extractVertex` -/

/-- A text without the character `c` that occurs in `A ++ c ++ B` occurs in `A` or in `B`. -/
theorem infix_split_at (n A B : List Char) (c : Char) (hc : c ∉ n)
    (h : n <:+: A ++ c :: B) : n <:+: A ∨ n <:+: B := by
  induction A with
  | nil =>
    rw [List.nil_append, List.infix_cons_iff] at h
    rcases h with h | h
    · cases n with
      | nil => exact Or.inl (List.infix_refl _)
      | cons a n =>
        have := List.cons_prefix_cons.1 h
        exact absurd (this.1 ▸ List.mem_cons_self _ _) hc
    · exact Or.inr h
  | cons a A ih =>
    rw [List.cons_append, List.infix_cons_iff] at h
    rcases h with h | h
    · have h2 : (a :: A) ++ [c] <+: a :: (A ++ c :: B) := by
        refine ⟨B, ?_⟩
        simp
      rcases List.prefix_or_prefix_of_prefix h h2 with p | p
      · rcases List.prefix_concat_iff.1 p with e | e
        · exact absurd (e ▸ List.mem_append_right _ (List.mem_singleton_self c)) hc
        · exact Or.inl e.isInfix
      · exact absurd (p.subset (List.mem_append_right _ (List.mem_singleton_self c))) hc
    · rcases ih h with h | h
      · exact Or.inl (List.infix_cons h)
      · exact Or.inr h

/-- A text without a line end that occurs neither in a line nor in what follows the line
does not occur in the two put together. -/
theorem not_occursIn_line (n L rest : String) (hc : '\n' ∉ n.data) (h1 : ¬ occursIn n L)
    (h2 : ¬ occursIn n rest) : ¬ occursIn n (L ++ (endl ++ rest)) := by
  intro h
  unfold occursIn at h h1 h2
  simp only [String.data_append] at h
  have e : endl.data = ['\n'] := rfl
  rw [e, List.singleton_append] at h
  exact (infix_split_at _ _ _ '\n' hc h).elim h1 h2

/-- A text without a slash that occurs in texts followed by a comment occurs in those
texts or in the comment after its first slash. -/
theorem occursIn_before_comment (n R T : String) (hc : '/' ∉ n.data)
    (h : occursIn n (R ++ ("/" ++ T))) : occursIn n R ∨ occursIn n T := by
  unfold occursIn at h ⊢
  have h2 : n.data <:+: R.data ++ '/' :: T.data := by
    simpa [String.data_append] using h
  exact infix_split_at _ _ _ '/' hc h2

set_option maxRecDepth 8000 in
/-- C11: in the source returned by `HPMCgenerateExtractVertexFunction`, for every target
below `HPMC_TARGET_GL30_GLSL130` the uniform `HPMC_key_offset` is declared and the key is
`gl_Vertex.x + HPMC_key_offset`; for every other target the key is `gl_VertexID` and,
unless the traversal resources mention it, `HPMC_key_offset` does not occur in the source
at all. -/
theorem extractVertex_key (gl30 : Int) (res : Resources) (target : Int) :
    (target < gl30 →
      ∃ head, HPMCgenerateExtractVertexFunction gl30 res target
        = head ++ "uniform float      HPMC_key_offset;" ++ endl
          ++ extractVertex4 "    float key = gl_Vertex.x + HPMC_key_offset;"
          ++ extractVertex2) ∧
    (¬ target < gl30 →
      (∃ head, HPMCgenerateExtractVertexFunction gl30 res target
        = head ++ extractVertex4 "    float key = gl_VertexID;" ++ extractVertex2) ∧
      (¬ occursIn "HPMC_key_offset" (res.downtraversal_130 ++ res.baselevel_traversal_110) →
        ¬ occursIn "HPMC_key_offset" (HPMCgenerateExtractVertexFunction gl30 res target))) := by
  refine ⟨fun h => ?_, fun h => ⟨?_, fun hres hocc => ?_⟩⟩
  · unfold HPMCgenerateExtractVertexFunction
    rw [if_pos h]
    refine ⟨"uniform sampler2D  HPMC_histopyramid;" ++ endl
        ++ "uniform float      HPMC_threshold;" ++ endl
        ++ "uniform sampler2D  HPMC_edge_table;" ++ endl
        ++ res.downtraversal_110
        ++ res.baselevel_traversal_110
        ++ "// generated by HPMCgenerateExtractShaderFunctions" ++ endl, ?_⟩
    simp only [String.append_assoc, extractVertex4, extractVertex2]
  · unfold HPMCgenerateExtractVertexFunction
    rw [if_neg h]
    refine ⟨"uniform sampler2D  HPMC_histopyramid;" ++ endl
        ++ "uniform float      HPMC_threshold;" ++ endl
        ++ "uniform sampler2D  HPMC_edge_table;" ++ endl
        ++ res.downtraversal_130
        ++ res.baselevel_traversal_110
        ++ "// generated by HPMCgenerateExtractShaderFunctions" ++ endl, ?_⟩
    simp only [String.append_assoc, extractVertex4, extractVertex2]
  · unfold HPMCgenerateExtractVertexFunction at hocc
    rw [if_neg h] at hocc
    simp only [String.append_assoc] at hocc
    have hn : '\n' ∉ ("HPMC_key_offset" : String).data := by decide
    have hs : '/' ∉ ("HPMC_key_offset" : String).data := by decide
    revert hocc
    refine not_occursIn_line _ _ _ hn (by unfold occursIn; decide) ?_
    refine not_occursIn_line _ _ _ hn (by unfold occursIn; decide) ?_
    refine not_occursIn_line _ _ _ hn (by unfold occursIn; decide) ?_
    intro hocc
    have e : ("// generated by HPMCgenerateExtractShaderFunctions" : String)
        = "/" ++ "/ generated by HPMCgenerateExtractShaderFunctions" := by decide
    rw [e, ← String.append_assoc res.downtraversal_130, String.append_assoc "/"] at hocc
    rcases occursIn_before_comment _ _ _ hs hocc with h1 | h1
    · exact hres h1
    · revert h1
      refine not_occursIn_line _ _ _ hn (by unfold occursIn; decide) ?_
      refine not_occursIn_line _ _ _ hn (by unfold occursIn; decide) ?_
      refine not_occursIn_line _ _ _ hn (by unfold occursIn; decide) ?_
      refine not_occursIn_line _ _ _ hn (by unfold occursIn; decide) ?_
      refine not_occursIn_line _ _ _ hn (by unfold occursIn; decide) ?_
      refine not_occursIn_line _ _ _ hn (by unfold occursIn; decide) ?_
      refine not_occursIn_line _ _ _ hn (by unfold occursIn; decide) ?_
      refine not_occursIn_line _ _ _ hn (by unfold occursIn; decide) ?_
      refine not_occursIn_line _ _ _ hn (by unfold occursIn; decide) ?_
      refine not_occursIn_line _ _ _ hn (by unfold occursIn; decide) ?_
      refine not_occursIn_line _ _ _ hn (by unfold occursIn; decide) ?_
      refine not_occursIn_line _ _ _ hn (by unfold occursIn; decide) ?_
      unfold occursIn; decide

/-- Witness for C11: with empty traversal resources and a target at or above
`HPMC_TARGET_GL30_GLSL130`, `HPMC_key_offset` does not occur in the generated source. -/
theorem extractVertex_key_witness :
    ¬ occursIn "HPMC_key_offset" (HPMCgenerateExtractVertexFunction 3 ⟨"", "", "", ""⟩ 5) :=
  ((extractVertex_key 3 ⟨"", "", "", ""⟩ 5).2 (by decide)).2 (by unfold occursIn; decide)

/-! ## Theorems: the emitter geometry shader -/

/-- While `off + gl_PrimitiveIDIn` stays a non-negative 32-bit `int`, the emitter test is
the test `(off + k) mod threshold = 0`. -/
theorem emitter_emits_eq (off threshold k : Int) (ht : 1 ≤ threshold) (h0 : 0 ≤ off + k)
    (h1 : off + k < 2 ^ 31) :
    emitter_emits off threshold k = some (decide ((off + k) % threshold = 0)) := by
  unfold emitter_emits
  rw [if_neg (by omega), int32_of_range _ (by omega) h1,
    Int.tmod_eq_emod h0 (by omega)]

/-- C12: a triangle with primitive id k emits a particle exactly when
(off + k) mod threshold = 0; so for every threshold >= 1 and off >= 0, among any
threshold consecutive primitive ids k0 .. k0+threshold-1 (with off + k inside the shader's
32-bit `int`) exactly one triangle emits a particle. -/
theorem emitter_one_in_threshold (off threshold k0 : Int) (ht : 1 ≤ threshold)
    (ho : 0 ≤ off) (hk : 0 ≤ k0) (hr : off + k0 + threshold ≤ 2 ^ 31) :
    (∀ k, k0 ≤ k → k < k0 + threshold →
      emitter_emits off threshold k = some (decide ((off + k) % threshold = 0))) ∧
    ∃! k, k0 ≤ k ∧ k < k0 + threshold ∧ emitter_emits off threshold k = some true := by
  have hpos : 0 < threshold := by omega
  have hne : threshold ≠ 0 := by omega
  have hev : ∀ k, k0 ≤ k → k < k0 + threshold →
      emitter_emits off threshold k = some (decide ((off + k) % threshold = 0)) :=
    fun k h1 h2 => emitter_emits_eq off threshold k ht (by omega) (by omega)
  refine ⟨hev, ?_⟩
  have r0 : 0 ≤ (-(off + k0)) % threshold := Int.emod_nonneg _ hne
  have r1 : (-(off + k0)) % threshold < threshold := Int.emod_lt_of_pos _ hpos
  refine ⟨k0 + (-(off + k0)) % threshold, ⟨by omega, by omega, ?_⟩, ?_⟩
  · rw [hev _ (by omega) (by omega)]
    have hd : threshold ∣ off + (k0 + (-(off + k0)) % threshold) := by
      have e := Int.emod_add_ediv (-(off + k0)) threshold
      refine ⟨-((-(off + k0)) / threshold), ?_⟩
      rw [mul_neg]
      omega
    rw [Int.emod_eq_zero_of_dvd hd]
    rfl
  · rintro k ⟨h1, h2, h3⟩
    rw [hev k h1 h2] at h3
    have hk0 : (off + k) % threshold = 0 := by simpa using h3
    have hd1 : threshold ∣ off + k := Int.dvd_of_emod_eq_zero hk0
    have hd2 : threshold ∣ off + (k0 + (-(off + k0)) % threshold) := by
      have e := Int.emod_add_ediv (-(off + k0)) threshold
      refine ⟨-((-(off + k0)) / threshold), ?_⟩
      rw [mul_neg]
      omega
    have hd3 : threshold ∣ k - (k0 + (-(off + k0)) % threshold) := by
      have := Int.dvd_sub hd1 hd2
      have e : off + k - (off + (k0 + (-(off + k0)) % threshold))
          = k - (k0 + (-(off + k0)) % threshold) := by ring
      rwa [e] at this
    have hz := Int.eq_zero_of_abs_lt_dvd hd3 (by rw [abs_lt]; constructor <;> omega)
    omega

/-- Witness for C12: with threshold 500 and off 123, among the primitive ids 1000 .. 1499
exactly one triangle emits a particle. -/
theorem emitter_one_in_threshold_witness :
    ∃! k : Int, 1000 ≤ k ∧ k < 1000 + 500 ∧ emitter_emits 123 500 k = some true :=
  (emitter_one_in_threshold 123 500 1000 (by decide) (by decide) (by decide) (by decide)).2

/-! ## Theorems: the particle animation shader -/

/-- After integration and the step back, the particle is at
`pos_a_c + (sdt - (1-t)*dt) * vel_b_c`: the step back is `(1-t)*dt`, 32 times the rest
`(1-t)*sdt` of the sub-step. -/
theorem anim_step_back_eq {K : Type} [LinearOrderedField K] (pos_a_c vel_b_c : Vec3 K)
    (t dt : K) :
    anim_step_back (anim_integrate pos_a_c vel_b_c dt) vel_b_c t dt =
      Vec3.add pos_a_c (Vec3.scale (t * anim_sdt dt - 31 * ((1 - t) * anim_sdt dt)) vel_b_c) := by
  simp only [anim_step_back, anim_integrate, Vec3.add, Vec3.sub, Vec3.scale, anim_sdt,
    anim_steps, Vec3.mk.injEq]
  refine ⟨?_, ?_, ?_⟩ <;> · push_cast; ring

/-- C13 fails on the code: with pos_a_c = (0,0,0), vel_b_c = (1,0,0), dt = 0.032 (so
sdt = 0.001) and t = 1/2, the sub-step ends at pos_b_c = (0.001, 0, 0), the point at
fraction t of the segment is (0.0005, 0, 0), and the statement commented "step back to
intersection" leaves pos_b_c = (-0.015, 0, 0). -/
theorem anim_step_back_misses :
    anim_integrate (⟨0, 0, 0⟩ : Vec3 ℚ) ⟨1, 0, 0⟩ (32 / 1000) = ⟨1 / 1000, 0, 0⟩ ∧
    Vec3.add (⟨0, 0, 0⟩ : Vec3 ℚ) (Vec3.scale ((1 / 2) * anim_sdt (32 / 1000)) ⟨1, 0, 0⟩)
      = ⟨5 / 10000, 0, 0⟩ ∧
    anim_step_back (anim_integrate (⟨0, 0, 0⟩ : Vec3 ℚ) ⟨1, 0, 0⟩ (32 / 1000)) ⟨1, 0, 0⟩
      (1 / 2) (32 / 1000) = ⟨-15 / 1000, 0, 0⟩ := by
  simp only [anim_step_back, anim_integrate, Vec3.add, Vec3.sub, Vec3.scale, anim_sdt,
    anim_steps, Vec3.mk.injEq]
  norm_num

/-! ## Theorems: binary32 rounding -/

/-- The spacing of the binary32 numbers of a binade is positive. -/
theorem spacing32_pos (q : ℚ) : (0 : ℚ) < 2 ^ (binade32 q - 23) := by positivity

/-- The binade of a positive number at or above 2^-126 starts at or below the number. -/
theorem binade32_normal (q : ℚ) (hq : 0 < q) (h : (2 : ℚ) ^ (-126 : ℤ) ≤ q) :
    binade32 q = Int.log 2 q ∧ (2 : ℚ) ^ binade32 q ≤ q := by
  have hl : (-126 : ℤ) ≤ Int.log 2 q := by
    rw [← Int.zpow_le_iff_le_log (by norm_num) hq]; exact_mod_cast h
  have e : binade32 q = Int.log 2 q := max_eq_left hl
  refine ⟨e, ?_⟩
  rw [e]
  exact_mod_cast Int.zpow_log_le_self (by norm_num : 1 < 2) hq

/-- The binade of a positive number below 2^-126 is the subnormal one. -/
theorem binade32_subnormal (q : ℚ) (hq : 0 < q) (h : q < (2 : ℚ) ^ (-126 : ℤ)) :
    binade32 q = -126 := by
  have hl : Int.log 2 q < -126 := by
    rw [← Int.lt_zpow_iff_log_lt (by norm_num) hq]; exact_mod_cast h
  exact max_eq_right hl.le

/-- A positive number lies below the end of its binade. -/
theorem lt_binade32_end (q : ℚ) : q < (2 : ℚ) ^ (binade32 q + 1) := by
  have h := Int.lt_zpow_succ_log_self (by norm_num : 1 < 2) q
  have h2 : ((2 : ℕ) : ℚ) ^ (Int.log 2 q + 1) ≤ ((2 : ℕ) : ℚ) ^ (binade32 q + 1) := by
    apply zpow_le_zpow_right₀ (by norm_num)
    have : Int.log 2 q ≤ binade32 q := le_max_left _ _
    omega
  exact_mod_cast lt_of_lt_of_le h h2

/-- The binade of a number is -126 or higher. -/
theorem binade32_ge (q : ℚ) : -126 ≤ binade32 q := le_max_right _ _

/-- Rounding moves a positive number by at most half the spacing of its binade. -/
theorem round32pos_bounds (q : ℚ) :
    q - 2 ^ (binade32 q - 23) / 2 ≤ round32pos q ∧
      round32pos q ≤ q + 2 ^ (binade32 q - 23) / 2 := by
  have hu := spacing32_pos q
  have lo := roundHalfEven_ge (q / 2 ^ (binade32 q - 23))
  have hi := roundHalfEven_le (q / 2 ^ (binade32 q - 23))
  unfold round32pos
  constructor
  · have := mul_le_mul_of_nonneg_right lo hu.le
    have e : (q / 2 ^ (binade32 q - 23) - 1 / 2) * 2 ^ (binade32 q - 23)
        = q - 2 ^ (binade32 q - 23) / 2 := by field_simp; ring
    linarith
  · have := mul_le_mul_of_nonneg_right hi hu.le
    have e : (q / 2 ^ (binade32 q - 23) + 1 / 2) * 2 ^ (binade32 q - 23)
        = q + 2 ^ (binade32 q - 23) / 2 := by field_simp; ring
    linarith

/-- A positive number rounds to a number that is not negative. -/
theorem round32pos_nonneg (q : ℚ) (hq : 0 < q) : 0 ≤ round32pos q := by
  have hu := spacing32_pos q
  have h : (0 : ℤ) ≤ roundHalfEven (q / 2 ^ (binade32 q - 23)) :=
    roundHalfEven_ge_of_le _ 0 (by push_cast; positivity)
  unfold round32pos
  have : (0 : ℚ) ≤ roundHalfEven (q / 2 ^ (binade32 q - 23)) := by exact_mod_cast h
  positivity

/-- A positive multiple of the spacing of its binade is a binary32 number. -/
theorem round32pos_grid (q : ℚ) (n : ℤ) (h : q = n * 2 ^ (binade32 q - 23)) :
    round32pos q = q := by
  have hu := spacing32_pos q
  have e : q / 2 ^ (binade32 q - 23) = n := by
    rw [div_eq_iff hu.ne']
    exact h
  unfold round32pos
  rw [e, roundHalfEven_intCast]
  exact h.symm

/-- The value of a rounding in a known binade. -/
theorem round32pos_eval (q : ℚ) (e m : ℤ) (hq : 0 < q) (he : -126 ≤ e)
    (h1 : (2 : ℚ) ^ e ≤ q ∨ e = -126) (h2 : q < 2 ^ (e + 1))
    (hm : roundHalfEven (q / 2 ^ (e - 23)) = m) : round32pos q = m * 2 ^ (e - 23) := by
  have hb : binade32 q = e := by
    have b : Int.log 2 q < e + 1 := by
      rw [← Int.lt_zpow_iff_log_lt (by norm_num) hq]; exact_mod_cast h2
    rcases h1 with h1 | h1
    · have a : e ≤ Int.log 2 q := by
        rw [← Int.zpow_le_iff_le_log (by norm_num) hq]; exact_mod_cast h1
      have : Int.log 2 q = e := by omega
      unfold binade32
      rw [this]
      exact max_eq_left he
    · unfold binade32
      rw [h1] at b ⊢
      exact max_eq_right (by omega)
  unfold round32pos
  rw [hb, hm]

/-- The spacing of a binade is a multiple of 2^-149. -/
theorem spacing32_eq (q : ℚ) :
    ∃ j : ℕ, (2 : ℚ) ^ (binade32 q - 23) = 2 ^ j / 2 ^ 149 := by
  have h := binade32_ge q
  refine ⟨(binade32 q + 126).toNat, ?_⟩
  have e : binade32 q - 23 = ((binade32 q + 126).toNat : ℤ) - 149 := by omega
  rw [e, zpow_sub₀ (by norm_num), zpow_natCast]
  norm_cast

/-- A positive number that rounding leaves unchanged is a multiple of 2^-149. -/
theorem onGrid32_of_fixed (q : ℚ) (h : round32pos q = q) : onGrid32 q := by
  obtain ⟨j, hj⟩ := spacing32_eq q
  unfold round32pos at h
  rw [hj] at h
  generalize roundHalfEven (q / (2 ^ j / 2 ^ 149)) = m at h
  refine ⟨m * 2 ^ j, ?_⟩
  rw [← h]
  push_cast
  ring


/-- A positive multiple of 2^-149 in the subnormal binade is a binary32 number. -/
theorem round32pos_subnormal_grid (x : ℚ) (hg : onGrid32 x) (hb : binade32 x = -126) :
    round32pos x = x := by
  obtain ⟨k, hk⟩ := hg
  have hu : (2 : ℚ) ^ ((-126 : ℤ) - 23) = 1 / 2 ^ 149 := by
    rw [show (-126 : ℤ) - 23 = -149 by norm_num, zpow_neg]; norm_num
  apply round32pos_grid x k
  rw [hb, hk, hu]
  ring

/-- Rounding a positive multiple of 2^-149 has a relative error of at most 2^-24. -/
theorem round32pos_rel (x : ℚ) (hx : 0 < x) (hg : onGrid32 x) :
    x - x / 2 ^ 24 ≤ round32pos x ∧ round32pos x ≤ x + x / 2 ^ 24 := by
  by_cases h : (2 : ℚ) ^ (-126 : ℤ) ≤ x
  · obtain ⟨-, hle⟩ := binade32_normal x hx h
    obtain ⟨lo, hi⟩ := round32pos_bounds x
    have e : (2 : ℚ) ^ (binade32 x - 23) = 2 ^ binade32 x / 2 ^ 23 := by
      rw [zpow_sub₀ (by norm_num)]; norm_cast
    rw [e] at lo hi
    have h2 : (2 : ℚ) ^ binade32 x / 2 ^ 23 / 2 ≤ x / 2 ^ 24 := by
      have : (2 : ℚ) ^ binade32 x / 2 ^ 24 ≤ x / 2 ^ 24 :=
        div_le_div_of_nonneg_right hle (by positivity)
      have e2 : (2 : ℚ) ^ binade32 x / 2 ^ 23 / 2 = 2 ^ binade32 x / 2 ^ 24 := by
        rw [div_div]; norm_num
      rw [e2]; exact this
    constructor <;> linarith
  · have hb := binade32_subnormal x hx (not_le.1 h)
    rw [round32pos_subnormal_grid x hg hb]
    have : 0 ≤ x / 2 ^ 24 := by positivity
    constructor <;> linarith

/-- A positive number rounds to zero exactly when it is at most 2^-150. -/
theorem round32pos_eq_zero_iff (q : ℚ) (hq : 0 < q) :
    round32pos q = 0 ↔ q ≤ 1 / 2 ^ 150 := by
  by_cases h : (2 : ℚ) ^ (-126 : ℤ) ≤ q
  · have h126 : (1 : ℚ) / 2 ^ 126 ≤ q := by
      have : (2 : ℚ) ^ (-126 : ℤ) = 1 / 2 ^ 126 := by rw [zpow_neg]; norm_num
      rwa [this] at h
    obtain ⟨-, hle⟩ := binade32_normal q hq h
    obtain ⟨lo, -⟩ := round32pos_bounds q
    have e : (2 : ℚ) ^ (binade32 q - 23) = 2 ^ binade32 q / 2 ^ 23 := by
      rw [zpow_sub₀ (by norm_num)]; norm_cast
    rw [e] at lo
    have hp : (0 : ℚ) < 2 ^ binade32 q := by positivity
    constructor
    · intro h0
      rw [h0] at lo
      norm_num at lo
      linarith
    · intro h1
      norm_num at h1 h126
      linarith
  · have hb := binade32_subnormal q hq (not_le.1 h)
    have hu : (2 : ℚ) ^ ((-126 : ℤ) - 23) = 1 / 2 ^ 149 := by
      rw [show (-126 : ℤ) - 23 = -149 by norm_num, zpow_neg]; norm_num
    unfold round32pos
    rw [hb, hu]
    have hpos : (0 : ℚ) < 1 / 2 ^ 149 := by positivity
    rw [mul_eq_zero, or_iff_left hpos.ne']
    constructor
    · intro h0
      have lo := roundHalfEven_ge (q / (1 / 2 ^ 149))
      rw [h0] at lo
      rw [div_div_eq_mul_div, div_one] at lo
      norm_num at lo ⊢
      linarith
    · intro h1
      have hq' : (0 : ℚ) < q / (1 / 2 ^ 149) := by positivity
      have hq2 : q / (1 / 2 ^ 149) ≤ 1 / 2 := by
        rw [div_div_eq_mul_div, div_one]
        norm_num at h1 ⊢
        linarith
      have hf : ⌊q / (1 / 2 ^ 149)⌋ = 0 := by
        rw [Int.floor_eq_iff]; constructor
        · push_cast; linarith
        · push_cast; linarith
      unfold roundHalfEven
      rw [hf]
      split_ifs with c1 c2 c3
      · rfl
      · push_cast at c2; linarith
      · rfl
      · simp at c3

/-- Rounding commutes with negation. -/
theorem round32_neg (q : ℚ) : round32 (-q) = -round32 q := by
  unfold round32
  rcases lt_trichotomy q 0 with h | h | h
  · have h1 : 0 < -q := by linarith
    have h2 : ¬ 0 < q := by linarith
    simp [h1, h2, h]
  · subst h; simp
  · have h1 : ¬ 0 < -q := by linarith
    have h2 : -q < 0 := by linarith
    simp [h1, h2, h]

/-- Rounding a positive number. -/
theorem round32_of_pos (q : ℚ) (h : 0 < q) : round32 q = round32pos q := if_pos h

/-- Zero rounds to zero. -/
theorem round32_zero : round32 0 = 0 := by simp [round32]

/-- A number that is not negative rounds to a number that is not negative. -/
theorem round32_nonneg (q : ℚ) (h : 0 ≤ q) : 0 ≤ round32 q := by
  rcases h.lt_or_eq with h | h
  · rw [round32_of_pos q h]; exact round32pos_nonneg q h
  · rw [← h, round32_zero]

/-- A number that is not positive rounds to a number that is not positive. -/
theorem round32_nonpos (q : ℚ) (h : q ≤ 0) : round32 q ≤ 0 := by
  have h1 := round32_nonneg (-q) (by linarith)
  rw [round32_neg] at h1
  linarith

/-- The multiples of 2^-149 are closed under negation. -/
theorem onGrid32_neg (q : ℚ) (h : onGrid32 q) : onGrid32 (-q) := by
  obtain ⟨k, hk⟩ := h
  exact ⟨-k, by rw [hk]; push_cast; ring⟩

/-- The multiples of 2^-149 are closed under subtraction. -/
theorem onGrid32_sub (p q : ℚ) (hp : onGrid32 p) (hq : onGrid32 q) : onGrid32 (p - q) := by
  obtain ⟨k, hk⟩ := hp
  obtain ⟨l, hl⟩ := hq
  exact ⟨k - l, by rw [hk, hl]; push_cast; ring⟩

/-- The absolute value of a multiple of 2^-149 is one. -/
theorem onGrid32_abs (q : ℚ) (h : onGrid32 q) : onGrid32 |q| := by
  rcases abs_choice q with e | e
  · rw [e]; exact h
  · rw [e]; exact onGrid32_neg q h

/-- A number that rounding leaves unchanged is a multiple of 2^-149. -/
theorem onGrid32_of_round32 (q : ℚ) (h : round32 q = q) : onGrid32 q := by
  rcases lt_trichotomy q 0 with hq | hq | hq
  · have h1 : round32 (-q) = -q := by rw [round32_neg, h]
    rw [round32_of_pos (-q) (by linarith)] at h1
    have := onGrid32_neg _ (onGrid32_of_fixed (-q) h1)
    rwa [neg_neg] at this
  · exact ⟨0, by rw [hq]; simp⟩
  · rw [round32_of_pos q hq] at h
    exact onGrid32_of_fixed q h

/-- Rounding a multiple of 2^-149 has a relative error of at most 2^-24. -/
theorem round32_rel (u : ℚ) (hg : onGrid32 u) :
    |u| - |u| / 2 ^ 24 ≤ |round32 u| ∧ |round32 u| ≤ |u| + |u| / 2 ^ 24 := by
  rcases lt_trichotomy u 0 with hu | hu | hu
  · have h1 := round32pos_rel (-u) (by linarith) (onGrid32_neg u hg)
    have h2 : round32 u = -round32pos (-u) := by
      have := round32_neg (-u)
      rw [neg_neg, round32_of_pos (-u) (by linarith)] at this
      exact this
    have h3 := round32pos_nonneg (-u) (by linarith)
    rw [h2, abs_neg, abs_of_nonneg h3, abs_of_neg hu]
    exact h1
  · rw [hu, round32_zero]; simp
  · have h1 := round32pos_rel u hu hg
    have h3 := round32pos_nonneg u hu
    rw [round32_of_pos u hu, abs_of_nonneg h3, abs_of_pos hu]
    exact h1

/-- A multiple of 2^-149 that rounds to zero is zero. -/
theorem round32_eq_zero (u : ℚ) (hg : onGrid32 u) (h : round32 u = 0) : u = 0 := by
  have h1 := (round32_rel u hg).1
  rw [h, abs_zero] at h1
  have h2 : |u| / 2 ^ 24 ≤ |u| / 2 := by
    apply div_le_div_of_nonneg_left (abs_nonneg u) (by norm_num) (by norm_num)
  have h3 : |u| ≤ 0 := by linarith
  exact abs_nonpos_iff.1 h3

/-- The end of a binade in units of its spacing. -/
theorem binade32_end_eq (q : ℚ) :
    (2 : ℚ) ^ (binade32 q + 1) = ((2 ^ 24 : ℤ) : ℚ) * 2 ^ (binade32 q - 23) := by
  have e : binade32 q + 1 = 24 + (binade32 q - 23) := by ring
  rw [e, zpow_add₀ (by norm_num)]
  norm_num

/-- The start of a binade in units of its spacing. -/
theorem binade32_start_eq (q : ℚ) :
    (2 : ℚ) ^ binade32 q = ((2 ^ 23 : ℤ) : ℚ) * 2 ^ (binade32 q - 23) := by
  have e : binade32 q = 23 + (binade32 q - 23) := by ring
  nth_rewrite 1 [e]
  rw [zpow_add₀ (by norm_num)]
  norm_num

/-- The start of a binade above the subnormal one is at or below the number. -/
theorem binade32_start_le (z : ℚ) (hz : 0 < z) (h : -126 < binade32 z) :
    (2 : ℚ) ^ binade32 z ≤ z := by
  have hzn : binade32 z = Int.log 2 z := by
    unfold binade32 at h ⊢
    apply max_eq_left
    by_contra hc
    push_neg at hc
    rw [max_eq_right hc.le] at h
    omega
  rw [hzn]
  exact_mod_cast Int.zpow_log_le_self (by norm_num : 1 < 2) hz

/-- The binade rises with the number. -/
theorem binade32_mono (x z : ℚ) (hx : 0 < x) (hxz : x ≤ z) : binade32 x ≤ binade32 z :=
  max_le_max (Int.log_mono_right hx hxz) le_rfl

/-- Rounding is monotone at a binary32 number: a number at or above a positive binary32
number rounds to a number at or above it. -/
theorem round32pos_ge_fixed (x z : ℚ) (hx : 0 < x) (hfx : round32pos x = x) (hxz : x ≤ z) :
    x ≤ round32pos z := by
  have hz : 0 < z := lt_of_lt_of_le hx hxz
  have hu := spacing32_pos z
  rcases (binade32_mono x z hx hxz).lt_or_eq with hlt | heq
  · have h1 := lt_binade32_end x
    have h2 : (2 : ℚ) ^ (binade32 x + 1) ≤ 2 ^ binade32 z :=
      zpow_le_zpow_right₀ (by norm_num) (by omega)
    have h3 := binade32_start_le z hz (by have := binade32_ge x; omega)
    have e := binade32_start_eq z
    have h4 : (2 ^ 23 : ℤ) ≤ roundHalfEven (z / 2 ^ (binade32 z - 23)) := by
      apply roundHalfEven_ge_of_le
      rw [le_div_iff₀ hu, ← e]
      exact h3
    have h5 : (2 : ℚ) ^ binade32 z ≤ round32pos z := by
      unfold round32pos
      rw [e]
      exact mul_le_mul_of_nonneg_right (by exact_mod_cast h4) hu.le
    linarith
  · unfold round32pos at hfx ⊢
    rw [heq] at hfx
    generalize roundHalfEven (x / 2 ^ (binade32 z - 23)) = m at hfx
    have hm : m ≤ roundHalfEven (z / 2 ^ (binade32 z - 23)) := by
      apply roundHalfEven_ge_of_le
      rw [le_div_iff₀ hu, hfx]
      exact hxz
    rw [← hfx]
    exact mul_le_mul_of_nonneg_right (by exact_mod_cast hm) hu.le

/-- A positive number of at most 1 rounds to a number of at most 1, within 2^-24. -/
theorem round32pos_unit (q : ℚ) (hq : 0 < q) (h1 : q ≤ 1) :
    round32pos q ≤ 1 ∧ q - 1 / 2 ^ 24 ≤ round32pos q ∧ round32pos q ≤ q + 1 / 2 ^ 24 := by
  have hu := spacing32_pos q
  have hb0 : binade32 q ≤ 0 := by
    have h2 := binade32_mono q 1 hq h1
    have h3 : binade32 1 = 0 := by
      unfold binade32
      rw [Int.log_one_right]
      rfl
    omega
  have hb1 := binade32_ge q
  have hs : (2 : ℚ) ^ (binade32 q - 23) ≤ 1 / 2 ^ 23 := by
    have : (2 : ℚ) ^ (binade32 q - 23) ≤ 2 ^ (-23 : ℤ) :=
      zpow_le_zpow_right₀ (by norm_num) (by omega)
    have e : (2 : ℚ) ^ (-23 : ℤ) = 1 / 2 ^ 23 := by rw [zpow_neg]; norm_num
    rwa [e] at this
  obtain ⟨lo, hi⟩ := round32pos_bounds q
  refine ⟨?_, by linarith, by linarith⟩
  have e1 : ((2 ^ (23 - binade32 q).toNat : ℤ) : ℚ) * 2 ^ (binade32 q - 23) = 1 := by
    push_cast
    rw [← zpow_natCast, ← zpow_add₀ (by norm_num)]
    have : ((23 - binade32 q).toNat : ℤ) + (binade32 q - 23) = 0 := by omega
    rw [this, zpow_zero]
  have h4 : roundHalfEven (q / 2 ^ (binade32 q - 23)) ≤ (2 ^ (23 - binade32 q).toNat : ℤ) := by
    apply roundHalfEven_le_of_lt
    have : q / 2 ^ (binade32 q - 23) ≤ ((2 ^ (23 - binade32 q).toNat : ℤ) : ℚ) := by
      rw [div_le_iff₀ hu, e1]
      exact h1
    linarith
  unfold round32pos
  rw [← e1]
  exact mul_le_mul_of_nonneg_right (by exact_mod_cast h4) hu.le

/-- Rounding a number between 0 and 1 gives a number between 0 and 1, within 2^-24. -/
theorem round32_unit (q : ℚ) (hq : 0 ≤ q) (h1 : q ≤ 1) :
    0 ≤ round32 q ∧ round32 q ≤ 1 ∧ |round32 q - q| ≤ 1 / 2 ^ 24 := by
  refine ⟨round32_nonneg q hq, ?_⟩
  rcases hq.lt_or_eq with h | h
  · rw [round32_of_pos q h]
    obtain ⟨a, b, c⟩ := round32pos_unit q h h1
    exact ⟨a, abs_le.2 ⟨by linarith, by linarith⟩⟩
  · rw [← h, round32_zero]
    norm_num

/-- Rounding leaves the result of a rounding unchanged. -/
theorem round32pos_idem (z : ℚ) (hz : 0 < z) (hw : 0 < round32pos z) :
    round32pos (round32pos z) = round32pos z := by
  have hu := spacing32_pos z
  have hb := binade32_ge z
  have h2 := lt_binade32_end z
  rw [binade32_end_eq] at h2
  have hm2 : roundHalfEven (z / 2 ^ (binade32 z - 23)) ≤ (2 ^ 24 : ℤ) := by
    apply roundHalfEven_le_of_lt
    have : z / 2 ^ (binade32 z - 23) < ((2 ^ 24 : ℤ) : ℚ) := by
      rw [div_lt_iff₀ hu]; exact h2
    linarith
  have hm1 : -126 < binade32 z → (2 ^ 23 : ℤ) ≤ roundHalfEven (z / 2 ^ (binade32 z - 23)) := by
    intro h
    apply roundHalfEven_ge_of_le
    rw [le_div_iff₀ hu, ← binade32_start_eq]
    exact binade32_start_le z hz h
  unfold round32pos at hw
  have hw2 : round32pos z = roundHalfEven (z / 2 ^ (binade32 z - 23)) * 2 ^ (binade32 z - 23) :=
    rfl
  generalize roundHalfEven (z / 2 ^ (binade32 z - 23)) = m at hw hw2 hm1 hm2
  rcases hm2.lt_or_eq with hlt | heq
  · have hq : (m : ℚ) < ((2 ^ 24 : ℤ) : ℚ) := by exact_mod_cast hlt
    rw [hw2]
    apply round32pos_eval _ (binade32 z) m hw hb
    · rcases hb.lt_or_eq with h | h
      · left
        rw [binade32_start_eq]
        exact mul_le_mul_of_nonneg_right (by exact_mod_cast hm1 h) hu.le
      · right; exact h.symm
    · rw [binade32_end_eq]
      exact mul_lt_mul_of_pos_right hq hu
    · rw [mul_div_assoc, div_self hu.ne', mul_one, roundHalfEven_intCast]
  · have e : round32pos z = ((2 ^ 23 : ℤ) : ℚ) * 2 ^ (binade32 z + 1 - 23) := by
      rw [hw2, heq]
      have : binade32 z + 1 - 23 = 1 + (binade32 z - 23) := by ring
      rw [this, zpow_add₀ (by norm_num)]
      norm_num
      ring
    have hp : (0 : ℚ) < 2 ^ (binade32 z + 1 - 23) := by positivity
    rw [e]
    apply round32pos_eval _ (binade32 z + 1) (2 ^ 23) (by positivity) (by omega)
    · left
      have : binade32 z + 1 = 23 + (binade32 z + 1 - 23) := by ring
      nth_rewrite 1 [this]
      rw [zpow_add₀ (by norm_num)]
      norm_num
    · have : binade32 z + 1 + 1 = 24 + (binade32 z + 1 - 23) := by ring
      rw [this, zpow_add₀ (by norm_num)]
      apply mul_lt_mul_of_pos_right _ hp
      norm_num
    · rw [mul_div_assoc, div_self hp.ne', mul_one, roundHalfEven_intCast]

/-- Rounding leaves the result of a rounding unchanged. -/
theorem round32_idem (q : ℚ) : round32 (round32 q) = round32 q := by
  have pos : ∀ z : ℚ, 0 < z → round32 (round32 z) = round32 z := by
    intro z hz
    rw [round32_of_pos z hz]
    rcases (round32pos_nonneg z hz).lt_or_eq with h | h
    · rw [round32_of_pos _ h]; exact round32pos_idem z hz h
    · rw [← h, round32_zero]
  rcases lt_trichotomy q 0 with hq | hq | hq
  · have h1 := pos (-q) (by linarith)
    rw [round32_neg, round32_neg] at h1
    linarith
  · rw [hq, round32_zero, round32_zero]
  · exact pos q hq

/-- A binary32 value is a fixed point of rounding below 2^128 in magnitude. -/
theorem isBinary32_iff (q : ℚ) :
    isBinary32 q ↔ round32 q = q ∧ -2 ^ 128 < q ∧ q < 2 ^ 128 := by
  unfold isBinary32 GFloat.ofRat
  constructor
  · intro h
    split_ifs at h with h1 h2
    have e : round32 q = q := by injection h
    rw [e] at h1 h2
    exact ⟨e, not_le.1 h2, not_le.1 h1⟩
  · rintro ⟨e, lo, hi⟩
    rw [e, if_neg (not_le.2 hi), if_neg (not_le.2 lo)]

/-- The finite result of an operation is its rounded exact result. -/
theorem ofRat_eq_fin (q a : ℚ) (h : GFloat.ofRat q = GFloat.fin a) :
    a = round32 q ∧ -2 ^ 128 < a ∧ a < 2 ^ 128 := by
  unfold GFloat.ofRat at h
  split_ifs at h with h1 h2
  have e : round32 q = a := by injection h
  rw [e] at h1 h2
  exact ⟨e.symm, not_le.1 h2, not_le.1 h1⟩

/-- The finite result of an operation is a binary32 value. -/
theorem isBinary32_of_ofRat (q a : ℚ) (h : GFloat.ofRat q = GFloat.fin a) : isBinary32 a := by
  obtain ⟨e, lo, hi⟩ := ofRat_eq_fin q a h
  rw [isBinary32_iff]
  exact ⟨by rw [e, round32_idem], lo, hi⟩

/-- The result of an operation whose rounded exact result is below 2^128 in magnitude. -/
theorem ofRat_of_lt (q : ℚ) (lo : -2 ^ 128 < round32 q) (hi : round32 q < 2 ^ 128) :
    GFloat.ofRat q = GFloat.fin (round32 q) := by
  unfold GFloat.ofRat
  rw [if_neg (not_le.2 hi), if_neg (not_le.2 lo)]

/-- Zero is a binary32 value. -/
theorem isBinary32_zero : isBinary32 0 := by
  rw [isBinary32_iff, round32_zero]
  norm_num

/-- The negation of a binary32 value is one. -/
theorem isBinary32_neg (q : ℚ) (h : isBinary32 q) : isBinary32 (-q) := by
  rw [isBinary32_iff] at h ⊢
  obtain ⟨e, lo, hi⟩ := h
  exact ⟨by rw [round32_neg, e], by linarith, by linarith⟩

/-- A binary32 value is a multiple of 2^-149. -/
theorem onGrid32_of_isBinary32 (q : ℚ) (h : isBinary32 q) : onGrid32 q :=
  onGrid32_of_round32 q ((isBinary32_iff q).1 h).1

/-- A 24-bit significand at an exponent between -126 and 127 is a binary32 value. -/
theorem isBinary32_normal (q : ℚ) (m e : ℤ) (hm1 : 2 ^ 23 ≤ m) (hm2 : m < 2 ^ 24)
    (he1 : -126 ≤ e) (he2 : e ≤ 127) (hq : q = m * 2 ^ (e - 23)) : isBinary32 q := by
  have hp : (0 : ℚ) < 2 ^ (e - 23) := by positivity
  have hm1q : ((2 ^ 23 : ℤ) : ℚ) ≤ m := by exact_mod_cast hm1
  have hm2q : (m : ℚ) < ((2 ^ 24 : ℤ) : ℚ) := by exact_mod_cast hm2
  have hm0 : (0 : ℚ) < m := by
    have : (0 : ℚ) < ((2 ^ 23 : ℤ) : ℚ) := by norm_num
    linarith
  have hq0 : 0 < q := by rw [hq]; positivity
  have e1 : (2 : ℚ) ^ e = ((2 ^ 23 : ℤ) : ℚ) * 2 ^ (e - 23) := by
    have : e = 23 + (e - 23) := by ring
    nth_rewrite 1 [this]
    rw [zpow_add₀ (by norm_num)]
    norm_num
  have e2 : (2 : ℚ) ^ (e + 1) = ((2 ^ 24 : ℤ) : ℚ) * 2 ^ (e - 23) := by
    have : e + 1 = 24 + (e - 23) := by ring
    rw [this, zpow_add₀ (by norm_num)]
    norm_num
  have hlt : q < 2 ^ (e + 1) := by
    rw [hq, e2]
    exact mul_lt_mul_of_pos_right hm2q hp
  have hr : round32pos q = q := by
    rw [hq]
    apply round32pos_eval _ e m (by rw [← hq]; exact hq0) he1
    · left
      rw [e1]
      exact mul_le_mul_of_nonneg_right hm1q hp.le
    · rw [← hq]; exact hlt
    · rw [mul_div_assoc, div_self hp.ne', mul_one, roundHalfEven_intCast]
  rw [isBinary32_iff, round32_of_pos q hq0]
  refine ⟨hr, by linarith, ?_⟩
  have : (2 : ℚ) ^ (e + 1) ≤ 2 ^ (128 : ℤ) := zpow_le_zpow_right₀ (by norm_num) (by omega)
  have e3 : (2 : ℚ) ^ (128 : ℤ) = 2 ^ 128 := by norm_cast
  linarith

/-- The quotient of the zero crossing of two numbers of opposite sign, in magnitudes. -/
theorem crossing_abs (a b : ℚ) (h : a * b ≤ 0) (hne : a ≠ b) :
    (-a) / (b - a) = |a| / (|a| + |b|) ∧ 0 < |a| + |b| := by
  rcases mul_nonpos_iff.1 h with ⟨ha, hb⟩ | ⟨ha, hb⟩
  · rw [abs_of_nonneg ha, abs_of_nonpos hb]
    have hlt : 0 < a + -b := by
      rcases ha.lt_or_eq with h1 | h1
      · linarith
      · rcases hb.lt_or_eq with h2 | h2
        · linarith
        · exact absurd (h1.symm.trans h2.symm) hne
    refine ⟨?_, hlt⟩
    rw [← neg_div_neg_eq]
    congr 1
    · ring
    · ring
  · rw [abs_of_nonpos ha, abs_of_nonneg hb]
    have hlt : 0 < -a + b := by
      rcases ha.lt_or_eq with h1 | h1
      · linarith
      · rcases hb.lt_or_eq with h2 | h2
        · linarith
        · exact absurd (h1.trans h2) hne
    refine ⟨?_, hlt⟩
    congr 1
    ring

/-- The ratio p/(p+q) moves by at most 2^-24 when p and q each move by a relative 2^-24. -/
theorem ratio_perturb (p q P Q : ℚ) (hP : 0 ≤ P) (hQ : 0 ≤ Q) (hPQ : 0 < P + Q)
    (hp1 : P - P / 2 ^ 24 ≤ p) (hp2 : p ≤ P + P / 2 ^ 24)
    (hq1 : Q - Q / 2 ^ 24 ≤ q) (hq2 : q ≤ Q + Q / 2 ^ 24) :
    |p / (p + q) - P / (P + Q)| ≤ 1 / 2 ^ 24 := by
  have hsum : (P + Q) / 2 ≤ p + q := by
    have : P / 2 ^ 24 ≤ P / 2 := div_le_div_of_nonneg_left hP (by norm_num) (by norm_num)
    have : Q / 2 ^ 24 ≤ Q / 2 := div_le_div_of_nonneg_left hQ (by norm_num) (by norm_num)
    linarith
  have hpq : 0 < p + q := by linarith
  have hPQ2 : 0 ≤ P * Q := mul_nonneg hP hQ
  have hsq : 4 * (P * Q) ≤ (P + Q) * (P + Q) := by nlinarith [sq_nonneg (P - Q)]
  have e : p / (p + q) - P / (P + Q) = (p * Q - P * q) / ((p + q) * (P + Q)) := by
    field_simp
    ring
  have hden : 0 < (p + q) * (P + Q) := mul_pos hpq hPQ
  have hlow : (P + Q) - (P + Q) / 2 ^ 24 ≤ p + q := by
    have : (P + Q) / 2 ^ 24 = P / 2 ^ 24 + Q / 2 ^ 24 := by ring
    linarith
  have hden2 : ((P + Q) - (P + Q) / 2 ^ 24) * (P + Q) ≤ (p + q) * (P + Q) :=
    mul_le_mul_of_nonneg_right hlow hPQ.le
  have hnum1 : p * Q - P * q ≤ 2 * (P * Q) / 2 ^ 24 := by
    have h1 : p * Q ≤ (P + P / 2 ^ 24) * Q := mul_le_mul_of_nonneg_right hp2 hQ
    have h2 : P * (Q - Q / 2 ^ 24) ≤ P * q := mul_le_mul_of_nonneg_left hq1 hP
    have e1 : (P + P / 2 ^ 24) * Q - P * (Q - Q / 2 ^ 24) = 2 * (P * Q) / 2 ^ 24 := by ring
    linarith
  have hnum2 : -(2 * (P * Q) / 2 ^ 24) ≤ p * Q - P * q := by
    have h1 : (P - P / 2 ^ 24) * Q ≤ p * Q := mul_le_mul_of_nonneg_right hp1 hQ
    have h2 : P * q ≤ P * (Q + Q / 2 ^ 24) := mul_le_mul_of_nonneg_left hq2 hP
    have e1 : (P - P / 2 ^ 24) * Q - P * (Q + Q / 2 ^ 24) = -(2 * (P * Q) / 2 ^ 24) := by ring
    linarith
  have hkey : 2 * (P * Q) / 2 ^ 24 ≤ 1 / 2 ^ 24 * ((p + q) * (P + Q)) := by
    have e2 : ((P + Q) - (P + Q) / 2 ^ 24) * (P + Q)
        = (1 - 1 / 2 ^ 24) * ((P + Q) * (P + Q)) := by ring
    have h3 : (1 - 1 / 2 ^ 24) * (4 * (P * Q)) ≤ (1 - 1 / 2 ^ 24) * ((P + Q) * (P + Q)) :=
      mul_le_mul_of_nonneg_left hsq (by norm_num)
    have h4 : 2 * (P * Q) ≤ (1 - 1 / 2 ^ 24) * (4 * (P * Q)) := by
      have : (1 - 1 / 2 ^ 24 : ℚ) * (4 * (P * Q)) - 2 * (P * Q)
          = (2 - 4 / 2 ^ 24) * (P * Q) := by ring
      have : (0 : ℚ) ≤ (2 - 4 / 2 ^ 24) * (P * Q) := mul_nonneg (by norm_num) hPQ2
      linarith
    have h5 : 2 * (P * Q) ≤ (p + q) * (P + Q) := by linarith
    have e3 : 2 * (P * Q) / 2 ^ 24 = 1 / 2 ^ 24 * (2 * (P * Q)) := by ring
    rw [e3]
    exact mul_le_mul_of_nonneg_left h5 (by norm_num)
  rw [e, abs_le]
  constructor
  · rw [le_div_iff₀ hden]
    linarith
  · rw [div_le_iff₀ hden]
    linarith

/-- A positive multiple of 2^-149 rounds to a positive number. -/
theorem round32_pos_of_grid (u : ℚ) (hu : 0 < u) (hg : onGrid32 u) : 0 < round32 u := by
  rw [round32_of_pos u hu]
  have h1 := (round32pos_rel u hu hg).1
  have h2 : u / 2 ^ 24 ≤ u / 2 := div_le_div_of_nonneg_left hu.le (by norm_num) (by norm_num)
  linarith

/-- Rounding keeps the signs of two multiples of 2^-149: if the rounded values have no
product above zero, neither have the numbers. -/
theorem round32_sign_mul (u v : ℚ) (hgu : onGrid32 u) (hgv : onGrid32 v)
    (h : round32 u * round32 v ≤ 0) : u * v ≤ 0 := by
  by_contra hc
  push_neg at hc
  rcases pos_and_pos_or_neg_and_neg_of_mul_pos hc with ⟨h1, h2⟩ | ⟨h1, h2⟩
  · have := mul_pos (round32_pos_of_grid u h1 hgu) (round32_pos_of_grid v h2 hgv)
    linarith
  · have a1 := round32_pos_of_grid (-u) (by linarith) (onGrid32_neg u hgu)
    have a2 := round32_pos_of_grid (-v) (by linarith) (onGrid32_neg v hgv)
    rw [round32_neg] at a1 a2
    have := mul_pos a1 a2
    have e : -round32 u * -round32 v = round32 u * round32 v := by ring
    linarith

/-- The test `x <= 0.0` passes on the result of an operation whose exact result is zero
or negative. -/
theorem le_zero_ofRat (q : ℚ) (h : q ≤ 0) : GFloat.le_zero (GFloat.ofRat q) = true := by
  have h1 := round32_nonpos q h
  unfold GFloat.ofRat
  split_ifs with c1 c2
  · exfalso
    have : (0 : ℚ) < 2 ^ 128 := by norm_num
    linarith
  · rfl
  · exact decide_eq_true h1

/-- The test `x <= 0.0` passes on the result of an operation whose exact result is positive
only when that result rounds to zero: it is at most 2^-150. -/
theorem le_zero_ofRat_pos (q : ℚ) (hq : 0 < q) (h : GFloat.le_zero (GFloat.ofRat q) = true) :
    q ≤ 1 / 2 ^ 150 := by
  have h0 := round32pos_nonneg q hq
  unfold GFloat.ofRat at h
  rw [round32_of_pos q hq] at h
  split_ifs at h with c1 c2
  · exact absurd h (by simp [GFloat.le_zero])
  · exfalso
    have : (0 : ℚ) < 2 ^ 128 := by norm_num
    linarith
  · have h1 : round32pos q ≤ 0 := of_decide_eq_true h
    exact (round32pos_eq_zero_iff q hq).1 (le_antisymm h1 h0)

/-- The rounded quotient of the zero crossing in magnitudes: for a binary32 magnitude `x`
and a sum `S` of magnitudes that it does not exceed, the rounded sum is positive and the
quotient lies between 0 and 1, within 2^-23 of the exact one. -/
theorem crossing_core (x S : ℚ) (hx : 0 ≤ x) (hxS : x ≤ S) (hS : 0 < S)
    (hfx : round32 x = x) (hg : onGrid32 S) :
    0 < round32pos S ∧
      0 ≤ round32 (x / round32pos S) ∧ round32 (x / round32pos S) ≤ 1 ∧
      |round32 (x / round32pos S) - x / S| ≤ 1 / 2 ^ 23 := by
  obtain ⟨lo, hi⟩ := round32pos_rel S hS hg
  have hs2 : S / 2 ^ 24 ≤ S / 2 := div_le_div_of_nonneg_left hS.le (by norm_num) (by norm_num)
  have hs0 : 0 ≤ S / 2 ^ 24 := by positivity
  have hD : 0 < round32pos S := by linarith
  have hxD : x ≤ round32pos S := by
    rcases hx.lt_or_eq with h | h
    · rw [round32_of_pos x h] at hfx
      exact round32pos_ge_fixed x S h hfx hxS
    · rw [← h]; exact hD.le
  have hq0 : 0 ≤ x / round32pos S := div_nonneg hx hD.le
  have hq1 : x / round32pos S ≤ 1 := (div_le_one hD).2 hxD
  obtain ⟨t0, t1, terr⟩ := round32_unit (x / round32pos S) hq0 hq1
  refine ⟨hD, t0, t1, ?_⟩
  have hden : 0 < round32pos S * S := mul_pos hD hS
  have e : x / round32pos S - x / S = x * (S - round32pos S) / (round32pos S * S) := by
    field_simp
    ring
  have hqerr : |x / round32pos S - x / S| ≤ 1 / 2 ^ 24 := by
    rw [e, abs_le]
    constructor
    · rw [le_div_iff₀ hden]
      have h1 : x * (-(S / 2 ^ 24)) ≤ x * (S - round32pos S) :=
        mul_le_mul_of_nonneg_left (by linarith) hx
      have h2 : x * (S / 2 ^ 24) ≤ round32pos S * (S / 2 ^ 24) :=
        mul_le_mul_of_nonneg_right hxD hs0
      have e1 : -(1 / 2 ^ 24) * (round32pos S * S) = -(round32pos S * (S / 2 ^ 24)) := by ring
      have e2 : x * (-(S / 2 ^ 24)) = -(x * (S / 2 ^ 24)) := by ring
      linarith
    · rw [div_le_iff₀ hden]
      have h1 : x * (S - round32pos S) ≤ x * (S / 2 ^ 24) :=
        mul_le_mul_of_nonneg_left (by linarith) hx
      have h2 : x * (S / 2 ^ 24) ≤ round32pos S * (S / 2 ^ 24) :=
        mul_le_mul_of_nonneg_right hxD hs0
      have e1 : 1 / 2 ^ 24 * (round32pos S * S) = round32pos S * (S / 2 ^ 24) := by ring
      linarith
  rw [abs_le] at terr hqerr ⊢
  constructor
  · linarith [terr.1, hqerr.1]
  · linarith [terr.2, hqerr.2]

/-- The division of the zero crossing, the dividend and the exact divisor being a magnitude
`x` and a sum of magnitudes `S` or their negations: a finite result between 0 and 1, and
within 2^-23 of `x / S` when the divisor is finite. -/
theorem crossing_div (n d x S : ℚ) (hx : 0 ≤ x) (hxS : x ≤ S) (hS : 0 < S)
    (hfx : round32 x = x) (hg : onGrid32 S)
    (h : (n = x ∧ d = S) ∨ (n = -x ∧ d = -S)) :
    ∃ t : ℚ, GFloat.div (GFloat.fin n) (GFloat.ofRat d) = some (GFloat.fin t) ∧
      0 ≤ t ∧ t ≤ 1 ∧
      ((∃ f, GFloat.ofRat d = GFloat.fin f) → |t - x / S| ≤ 1 / 2 ^ 23) := by
  obtain ⟨hD, t0, t1, terr⟩ := crossing_core x S hx hxS hS hfx hg
  have hbig : (0 : ℚ) < 2 ^ 128 := by norm_num
  have hT : GFloat.ofRat (x / round32pos S) = GFloat.fin (round32 (x / round32pos S)) :=
    ofRat_of_lt _ (by linarith) (by linarith)
  have er : round32 (-S) = -round32pos S := by rw [round32_neg, round32_of_pos S hS]
  by_cases hlt : round32pos S < 2 ^ 128
  · refine ⟨round32 (x / round32pos S), ?_, t0, t1, fun _ => terr⟩
    rcases h with ⟨hn, hd⟩ | ⟨hn, hd⟩
    · have e : GFloat.ofRat S = GFloat.fin (round32pos S) := by
        have hh := ofRat_of_lt S (by rw [round32_of_pos S hS]; linarith)
          (by rw [round32_of_pos S hS]; exact hlt)
        rwa [round32_of_pos S hS] at hh
      rw [hn, hd, e]
      simp only [GFloat.div]
      rw [if_neg hD.ne', hT]
    · have e : GFloat.ofRat (-S) = GFloat.fin (-round32pos S) := by
        have hh := ofRat_of_lt (-S) (by rw [er]; linarith) (by rw [er]; linarith)
        rwa [er] at hh
      rw [hn, hd, e]
      simp only [GFloat.div]
      rw [if_neg (neg_ne_zero.2 hD.ne'), neg_div_neg_eq, hT]
  · push_neg at hlt
    have e1 : GFloat.ofRat S = GFloat.inf false := by
      unfold GFloat.ofRat
      rw [round32_of_pos S hS, if_pos hlt]
    have e2 : GFloat.ofRat (-S) = GFloat.inf true := by
      unfold GFloat.ofRat
      rw [er, if_neg (by linarith), if_pos (by linarith)]
    refine ⟨0, ?_, le_rfl, by norm_num, ?_⟩
    · rcases h with ⟨hn, hd⟩ | ⟨hn, hd⟩
      · rw [hn, hd, e1]
        rfl
      · rw [hn, hd, e2]
        rfl
    · rintro ⟨f, hf⟩
      exfalso
      rcases h with ⟨hn, hd⟩ | ⟨hn, hd⟩
      · rw [hd, e1] at hf
        cases hf
      · rw [hd, e2] at hf
        cases hf

/-- The magnitude of a binary32 value is a fixed point of rounding. -/
theorem round32_abs_fixed (a : ℚ) (h : round32 a = a) : round32 |a| = |a| := by
  rcases abs_choice a with e | e
  · rw [e, h]
  · rw [e, round32_neg, h]

/-- The zero crossing of two binary32 field values of opposite sign, not both zero: a
finite parameter between 0 and 1, within 2^-23 of the exact quotient when the divisor is
finite. -/
theorem zero_crossing_fin (a b : ℚ) (ha : isBinary32 a) (hb : isBinary32 b)
    (hs : a * b ≤ 0) (hne : a ≠ b) :
    ∃ t : ℚ, GFloat.div (GFloat.neg (GFloat.fin a)) (GFloat.sub (GFloat.fin b) (GFloat.fin a))
        = some (GFloat.fin t) ∧ 0 ≤ t ∧ t ≤ 1 ∧
      ((∃ f, GFloat.sub (GFloat.fin b) (GFloat.fin a) = GFloat.fin f) →
        |t - (-a) / (b - a)| ≤ 1 / 2 ^ 23) := by
  obtain ⟨hq, hS⟩ := crossing_abs a b hs hne
  have hfa := round32_abs_fixed a ((isBinary32_iff a).1 ha).1
  have hg : onGrid32 (|a| + |b|) := by
    have := onGrid32_sub |a| (-|b|) (onGrid32_abs a (onGrid32_of_isBinary32 a ha))
      (onGrid32_neg _ (onGrid32_abs b (onGrid32_of_isBinary32 b hb)))
    rwa [sub_neg_eq_add] at this
  have hsel : (-a = |a| ∧ b - a = |a| + |b|) ∨ (-a = -|a| ∧ b - a = -(|a| + |b|)) := by
    rcases mul_nonpos_iff.1 hs with ⟨h1, h2⟩ | ⟨h1, h2⟩
    · right
      rw [abs_of_nonneg h1, abs_of_nonpos h2]
      exact ⟨rfl, by ring⟩
    · left
      rw [abs_of_nonpos h1, abs_of_nonneg h2]
      exact ⟨rfl, by ring⟩
  have := crossing_div (-a) (b - a) |a| (|a| + |b|) (abs_nonneg a)
    (by linarith [abs_nonneg b]) hS hfa hg hsel
  rw [hq]
  exact this

/-- The value of a rounding of a number between 2^-k and 2^(1-k). -/
theorem round32pos_eval_small (q : ℚ) (k : ℕ) (m : ℤ) (hk : k ≤ 126)
    (h1 : 1 / 2 ^ k ≤ q) (h2 : q < 2 / 2 ^ k)
    (hm1 : (m : ℚ) - 1 / 2 < q * 2 ^ (k + 23)) (hm2 : q * 2 ^ (k + 23) < m + 1 / 2) :
    round32pos q = m / 2 ^ (k + 23) := by
  have hq : 0 < q := lt_of_lt_of_le (by positivity) h1
  have e0 : (2 : ℚ) ^ (-(k : ℤ)) = 1 / 2 ^ k := by
    rw [zpow_neg, zpow_natCast, one_div]
  have e1 : (2 : ℚ) ^ (-(k : ℤ) + 1) = 2 / 2 ^ k := by
    rw [zpow_add₀ (by norm_num), e0]
    norm_num
    ring
  have e2 : (2 : ℚ) ^ (-(k : ℤ) - 23) = 1 / 2 ^ (k + 23) := by
    have : -(k : ℤ) - 23 = -((k + 23 : ℕ) : ℤ) := by push_cast; ring
    rw [this, zpow_neg, zpow_natCast, one_div]
  have h := round32pos_eval q (-(k : ℤ)) m hq (by omega) (Or.inl (by rw [e0]; exact h1))
    (by rw [e1]; exact h2)
    (by
      rw [e2, div_div_eq_mul_div, div_one]
      exact roundHalfEven_eval _ m hm1 hm2)
  rw [h, e2]
  ring

/-- The result of an operation whose exact result lies between 2^-k and 2^(1-k). -/
theorem ofRat_eval_small (q : ℚ) (k : ℕ) (m : ℤ) (hk : k ≤ 126)
    (h1 : 1 / 2 ^ k ≤ q) (h2 : q < 2 / 2 ^ k)
    (hm1 : (m : ℚ) - 1 / 2 < q * 2 ^ (k + 23)) (hm2 : q * 2 ^ (k + 23) < m + 1 / 2) :
    GFloat.ofRat q = GFloat.fin (m / 2 ^ (k + 23)) := by
  have hq : 0 < q := lt_of_lt_of_le (by positivity) h1
  have h := round32pos_eval_small q k m hk h1 h2 hm1 hm2
  have h0 := round32pos_nonneg q hq
  have hp : (0 : ℚ) < 2 ^ (k + 23) := by positivity
  have hone : (1 : ℚ) ≤ 2 ^ (k + 23) := one_le_pow₀ (by norm_num)
  have hm0 : (0 : ℚ) ≤ m := by
    rw [h] at h0
    by_contra hc
    push_neg at hc
    have := div_neg_of_neg_of_pos hc hp
    linarith
  have hqs : q * 2 ^ (k + 23) < 2 ^ 24 := by
    have h3 := mul_lt_mul_of_pos_right h2 hp
    have e3 : (2 : ℚ) / 2 ^ k * 2 ^ (k + 23) = 2 ^ 24 := by
      rw [pow_add]
      field_simp
      ring
    linarith
  have hsm : (m : ℚ) / 2 ^ (k + 23) ≤ m := div_le_self hm0 hone
  have e := ofRat_of_lt q (by rw [round32_of_pos q hq]; linarith)
    (by rw [round32_of_pos q hq, h]; linarith)
  rw [e, round32_of_pos q hq, h]

/-- The result of an operation whose exact result lies between -2^(1-k) and -2^-k. -/
theorem ofRat_eval_small_neg (q : ℚ) (k : ℕ) (m : ℤ) (hk : k ≤ 126)
    (h1 : 1 / 2 ^ k ≤ q) (h2 : q < 2 / 2 ^ k)
    (hm1 : (m : ℚ) - 1 / 2 < q * 2 ^ (k + 23)) (hm2 : q * 2 ^ (k + 23) < m + 1 / 2) :
    GFloat.ofRat (-q) = GFloat.fin (-(m / 2 ^ (k + 23))) := by
  have h := ofRat_eval_small q k m hk h1 h2 hm1 hm2
  obtain ⟨e, lo, hi⟩ := ofRat_eq_fin _ _ h
  have hh := ofRat_of_lt (-q) (by rw [round32_neg, ← e]; linarith)
    (by rw [round32_neg, ← e]; linarith)
  rw [hh, round32_neg, ← e]

/-- The result of an operation whose exact result is positive and at most 2^-150: zero. -/
theorem ofRat_underflow (q : ℚ) (hq : 0 < q) (h : q ≤ 1 / 2 ^ 150) :
    GFloat.ofRat q = GFloat.fin 0 := by
  have e := (round32pos_eq_zero_iff q hq).2 h
  have hh := ofRat_of_lt q (by rw [round32_of_pos q hq, e]; norm_num)
    (by rw [round32_of_pos q hq, e]; norm_num)
  rw [hh, round32_of_pos q hq, e]

/-- The result of an operation whose exact result is zero. -/
theorem ofRat_zero : GFloat.ofRat 0 = GFloat.fin 0 := isBinary32_zero

/-- A division has a result unless the divisor is zero. -/
theorem div_isSome (x d : GFloat) (h : d ≠ GFloat.fin 0) : ∃ t, GFloat.div x d = some t := by
  cases d with
  | fin q =>
    have hq : q ≠ 0 := fun c => h (by rw [c])
    cases x <;> simp [GFloat.div, hq]
  | inf s => cases x <;> simp [GFloat.div]
  | nan => cases x <;> simp [GFloat.div]

/-- A division by zero has no result. -/
theorem div_zero_none (x : GFloat) : GFloat.div x (GFloat.fin 0) = none := by
  cases x <;> simp [GFloat.div]

/-- The product of two shader values does not depend on their order. -/
theorem GFloat_mul_comm (x y : GFloat) : GFloat.mul x y = GFloat.mul y x := by
  cases x <;> cases y <;> simp [GFloat.mul, mul_comm, Bool.xor_comm]

/-- A passing sign test on two values that are not both finite: the values differ and
their difference is not zero. -/
theorem guard_not_fin (fa fb : GFloat) (h : GFloat.le_zero (GFloat.mul fa fb) = true)
    (hn : ¬ ∃ a b, fa = GFloat.fin a ∧ fb = GFloat.fin b) :
    fa ≠ fb ∧ GFloat.sub fb fa ≠ GFloat.fin 0 := by
  cases fa with
  | fin a =>
    cases fb with
    | fin b => exact absurd ⟨a, b, rfl, rfl⟩ hn
    | inf s => simp [GFloat.sub]
    | nan => simp [GFloat.mul, GFloat.le_zero] at h
  | inf s =>
    cases fb with
    | fin b => simp [GFloat.sub]
    | inf r =>
      simp only [GFloat.mul, GFloat.le_zero] at h
      have hsr : s ≠ r := by
        intro c
        rw [c] at h
        simp at h
      refine ⟨fun c => hsr (by injection c), ?_⟩
      simp only [GFloat.sub]
      split_ifs <;> simp
    | nan => simp [GFloat.mul, GFloat.le_zero] at h
  | nan => cases fb <;> simp [GFloat.mul, GFloat.le_zero] at h

/-- The divisor of a zero crossing whose sign test passes, for all shader values: it is
zero exactly when the two field values are equal; then the division has no result and the
values are finite with a square of at most 2^-150; otherwise the division has a result. -/
theorem crossing_divisor (fa fb : GFloat) (ha : fa.valid) (hb : fb.valid)
    (h : GFloat.le_zero (GFloat.mul fa fb) = true) :
    (GFloat.sub fb fa = GFloat.fin 0 ↔ fa = fb) ∧
      (fa = fb → GFloat.div (GFloat.neg fa) (GFloat.sub fb fa) = none ∧
        ∃ v, fa = GFloat.fin v ∧ v * v ≤ 1 / 2 ^ 150) ∧
      (fa ≠ fb → ∃ t, GFloat.div (GFloat.neg fa) (GFloat.sub fb fa) = some t) := by
  by_cases hn : ∃ a b, fa = GFloat.fin a ∧ fb = GFloat.fin b
  · obtain ⟨a, b, rfl, rfl⟩ := hn
    have hiff : GFloat.sub (GFloat.fin b) (GFloat.fin a) = GFloat.fin 0 ↔
        GFloat.fin a = GFloat.fin b := by
      simp only [GFloat.sub]
      constructor
      · intro h0
        obtain ⟨e, -, -⟩ := ofRat_eq_fin _ _ h0
        have hg := onGrid32_sub b a (onGrid32_of_isBinary32 b hb) (onGrid32_of_isBinary32 a ha)
        have := round32_eq_zero (b - a) hg e.symm
        have hab : a = b := by linarith
        rw [hab]
      · intro h0
        have hab : a = b := by injection h0
        rw [hab, sub_self]
        exact ofRat_zero
    refine ⟨hiff, ?_, ?_⟩
    · intro hab
      have h0 := hiff.2 hab
      rw [h0]
      refine ⟨div_zero_none _, a, rfl, ?_⟩
      have hab2 : a = b := by injection hab
      rw [← hab2] at h
      simp only [GFloat.mul] at h
      rcases (mul_self_nonneg a).lt_or_eq with hp | hp
      · exact le_zero_ofRat_pos _ hp h
      · rw [← hp]; positivity
    · intro hab
      exact div_isSome _ _ (fun c => hab (hiff.1 c))
  · obtain ⟨h1, h2⟩ := guard_not_fin fa fb h hn
    refine ⟨⟨fun c => absurd c h2, fun c => absurd c h1⟩, fun c => absurd c h1, ?_⟩
    intro _
    exact div_isSome _ _ h2

/-! ## Theorems: the collision test of the particle animation shader -/

/-- The value 1 is a binary32 value. -/
theorem isBinary32_one : isBinary32 1 :=
  (ofRat_eval_small 1 0 (2 ^ 23) (by norm_num) (by norm_num) (by norm_num) (by norm_num)
    (by norm_num)).trans (by norm_num)

/-- The value 2^-100 is a binary32 value. -/
theorem isBinary32_pow100 : isBinary32 (1 / 2 ^ 100) :=
  (ofRat_eval_small (1 / 2 ^ 100) 100 (2 ^ 23) (by norm_num) (by norm_num) (by norm_num)
    (by norm_num) (by norm_num)).trans (by norm_num)

/-- The value 2^-99 is a binary32 value. -/
theorem isBinary32_pow99 : isBinary32 (1 / 2 ^ 99) :=
  (ofRat_eval_small (1 / 2 ^ 99) 99 (2 ^ 23) (by norm_num) (by norm_num) (by norm_num)
    (by norm_num) (by norm_num)).trans (by norm_num)

/-- The field value of a binary32 sample at the iso value zero is the sample. -/
theorem anim_field_zero (s : ℚ) (h : isBinary32 s) :
    anim_field (GFloat.fin s) (GFloat.fin 0) = GFloat.fin s := by
  unfold anim_field
  simp only [GFloat.sub]
  rw [sub_zero]
  exact h

/-- The exact quotient of the zero crossing moves by at most 2^-24 when the two field
values are rounded, and rounding keeps two distinct samples of opposite sign distinct. -/
theorem field_ratio_error (u v : ℚ) (hgu : onGrid32 u) (hgv : onGrid32 v) (hne : u ≠ v)
    (hs : round32 u * round32 v ≤ 0) :
    round32 u ≠ round32 v ∧
      |(-round32 u) / (round32 v - round32 u) - (-u) / (v - u)| ≤ 1 / 2 ^ 24 := by
  have huv := round32_sign_mul u v hgu hgv hs
  have hab : round32 u ≠ round32 v := by
    intro c
    rw [c] at hs
    have h0 : round32 v = 0 :=
      mul_self_eq_zero.1 (le_antisymm hs (mul_self_nonneg _))
    have hv := round32_eq_zero v hgv h0
    have hu := round32_eq_zero u hgu (c.trans h0)
    exact hne (hu.trans hv.symm)
  refine ⟨hab, ?_⟩
  obtain ⟨e1, -⟩ := crossing_abs _ _ hs hab
  obtain ⟨e2, hS⟩ := crossing_abs u v huv hne
  obtain ⟨a1, a2⟩ := round32_rel u hgu
  obtain ⟨b1, b2⟩ := round32_rel v hgv
  rw [e1, e2]
  exact ratio_perturb _ _ _ _ (abs_nonneg u) (abs_nonneg v) hS a1 a2 b1 b2

/-- The product of 2^-100 and 2^-99 underflows to zero and passes the sign test. -/
theorem sign_change_underflow :
    anim_sign_change (GFloat.fin (1 / 2 ^ 100)) (GFloat.fin (1 / 2 ^ 99)) = true := by
  unfold anim_sign_change
  simp only [GFloat.mul]
  rw [ofRat_underflow _ (by norm_num) (by norm_num)]
  simp [GFloat.le_zero]

/-- The zero crossing computed from the field values 2^-100 and 2^-99 is -1. -/
theorem zero_crossing_underflow :
    anim_zero_crossing (GFloat.fin (1 / 2 ^ 100)) (GFloat.fin (1 / 2 ^ 99))
      = some (GFloat.fin (-1)) := by
  unfold anim_zero_crossing
  simp only [GFloat.neg, GFloat.sub]
  have e : (1 / 2 ^ 99 - 1 / 2 ^ 100 : ℚ) = 1 / 2 ^ 100 := by norm_num
  rw [e, isBinary32_pow100]
  simp only [GFloat.div]
  rw [if_neg (by norm_num)]
  have e2 : (-(1 / 2 ^ 100) / (1 / 2 ^ 100) : ℚ) = -1 := by norm_num
  rw [e2, isBinary32_neg 1 isBinary32_one]

/-- The sample 0.3f is a binary32 value. -/
theorem isBinary32_s0 : isBinary32 (5033165 / 2 ^ 24) :=
  (ofRat_eval_small (5033165 / 2 ^ 24) 2 10066330 (by norm_num) (by norm_num) (by norm_num)
    (by norm_num) (by norm_num)).trans (by norm_num)

/-- The sample -0.1f is a binary32 value. -/
theorem isBinary32_s1 : isBinary32 (-(13421773 / 2 ^ 27)) :=
  (ofRat_eval_small_neg (13421773 / 2 ^ 27) 4 13421773 (by norm_num) (by norm_num)
    (by norm_num) (by norm_num) (by norm_num)).trans (by norm_num)

/-- The iso value 0.001f is a binary32 value. -/
theorem isBinary32_iso : isBinary32 (8589935 / 2 ^ 33) :=
  (ofRat_eval_small (8589935 / 2 ^ 33) 10 8589935 (by norm_num) (by norm_num) (by norm_num)
    (by norm_num) (by norm_num)).trans (by norm_num)

/-- The field value 0.3f - 0.001f. -/
theorem anim_field_s0 :
    anim_field (GFloat.fin (5033165 / 2 ^ 24)) (GFloat.fin (8589935 / 2 ^ 33))
      = GFloat.fin (1254097 / 2 ^ 22) := by
  unfold anim_field
  simp only [GFloat.sub]
  exact (ofRat_eval_small _ 2 10032776 (by norm_num) (by norm_num) (by norm_num)
    (by norm_num) (by norm_num)).trans (by norm_num)

/-- The field value -0.1f - 0.001f. -/
theorem anim_field_s1 :
    anim_field (GFloat.fin (-(13421773 / 2 ^ 27))) (GFloat.fin (8589935 / 2 ^ 33))
      = GFloat.fin (-(13555991 / 2 ^ 27)) := by
  unfold anim_field
  simp only [GFloat.sub]
  have e : (-(13421773 / 2 ^ 27) - 8589935 / 2 ^ 33 : ℚ)
      = -(13421773 / 2 ^ 27 + 8589935 / 2 ^ 33) := by ring
  rw [e]
  exact (ofRat_eval_small_neg _ 4 13555991 (by norm_num) (by norm_num) (by norm_num)
    (by norm_num) (by norm_num)).trans (by norm_num)

/-- The zero crossing computed from the field values of the samples 0.3f and -0.1f at the
iso value 0.001f. -/
theorem zero_crossing_rounded :
    anim_zero_crossing (GFloat.fin (1254097 / 2 ^ 22)) (GFloat.fin (-(13555991 / 2 ^ 27)))
      = some (GFloat.fin (12540969 / 2 ^ 24)) := by
  unfold anim_zero_crossing
  simp only [GFloat.neg, GFloat.sub]
  have e : (-(13555991 / 2 ^ 27) - 1254097 / 2 ^ 22 : ℚ)
      = -(13555991 / 2 ^ 27 + 1254097 / 2 ^ 22) := by ring
  have hd : GFloat.ofRat (-(13555991 / 2 ^ 27 + 1254097 / 2 ^ 22))
      = GFloat.fin (-(6710887 / 2 ^ 24)) :=
    (ofRat_eval_small_neg _ 2 13421774 (by norm_num) (by norm_num) (by norm_num)
      (by norm_num) (by norm_num)).trans (by norm_num)
  rw [e, hd]
  simp only [GFloat.div]
  rw [if_neg (by norm_num)]
  exact congrArg some ((ofRat_eval_small _ 1 12540969 (by norm_num) (by norm_num) (by norm_num)
    (by norm_num) (by norm_num)).trans (by norm_num))

/-- The formula `(iso - s0)/(s1 - s0)` evaluated in binary32 arithmetic at the samples 0.3f
and -0.1f and the iso value 0.001f. -/
theorem formula_rounded :
    GFloat.div
        (GFloat.sub (GFloat.fin (8589935 / 2 ^ 33)) (GFloat.fin (5033165 / 2 ^ 24)))
        (GFloat.sub (GFloat.fin (-(13421773 / 2 ^ 27))) (GFloat.fin (5033165 / 2 ^ 24)))
      = some (GFloat.fin (12540970 / 2 ^ 24)) := by
  simp only [GFloat.sub]
  have e1 : (8589935 / 2 ^ 33 - 5033165 / 2 ^ 24 : ℚ)
      = -(5033165 / 2 ^ 24 - 8589935 / 2 ^ 33) := by ring
  have h1 : GFloat.ofRat (-(5033165 / 2 ^ 24 - 8589935 / 2 ^ 33))
      = GFloat.fin (-(1254097 / 2 ^ 22)) :=
    (ofRat_eval_small_neg _ 2 10032776 (by norm_num) (by norm_num) (by norm_num)
      (by norm_num) (by norm_num)).trans (by norm_num)
  have e2 : (-(13421773 / 2 ^ 27) - 5033165 / 2 ^ 24 : ℚ)
      = -(13421773 / 2 ^ 27 + 5033165 / 2 ^ 24) := by ring
  have h2 : GFloat.ofRat (-(13421773 / 2 ^ 27 + 5033165 / 2 ^ 24))
      = GFloat.fin (-(13421773 / 2 ^ 25)) :=
    (ofRat_eval_small_neg _ 2 13421773 (by norm_num) (by norm_num) (by norm_num)
      (by norm_num) (by norm_num)).trans (by norm_num)
  rw [e1, h1, e2, h2]
  simp only [GFloat.div]
  rw [if_neg (by norm_num)]
  exact congrArg some ((ofRat_eval_small _ 1 12540970 (by norm_num) (by norm_num) (by norm_num)
    (by norm_num) (by norm_num)).trans (by norm_num))

/-- C14, counterexample: in binary32 arithmetic the claim fails twice. With the samples
2^-100 and 2^-99 and the iso value 0 the exact product of the field values is positive,
but the computed product underflows to zero: the test `field_a*field_b <= 0.0` passes, and
the computed `t` is -1, outside [0,1]. With the samples 0.3f and -0.1f and the iso value
0.001f the field values have opposite signs, and the computed `t` = 12540969/2^24 is
neither the exact `(iso - s0)/(s1 - s0)` nor that formula evaluated in binary32
(12540970/2^24), and is not the zero of the linear interpolant. -/
theorem anim_zero_crossing_not_exact :
    (isBinary32 (1 / 2 ^ 100) ∧ isBinary32 (1 / 2 ^ 99) ∧ isBinary32 0 ∧
      anim_field (GFloat.fin (1 / 2 ^ 100)) (GFloat.fin 0) = GFloat.fin (1 / 2 ^ 100) ∧
      anim_field (GFloat.fin (1 / 2 ^ 99)) (GFloat.fin 0) = GFloat.fin (1 / 2 ^ 99) ∧
      (1 / 2 ^ 100 : ℚ) ≠ 1 / 2 ^ 99 ∧
      anim_sign_change (GFloat.fin (1 / 2 ^ 100)) (GFloat.fin (1 / 2 ^ 99)) = true ∧
      anim_zero_crossing (GFloat.fin (1 / 2 ^ 100)) (GFloat.fin (1 / 2 ^ 99))
        = some (GFloat.fin (-1)) ∧
      ¬ (0 : ℚ) ≤ -1) ∧
    (isBinary32 (5033165 / 2 ^ 24) ∧ isBinary32 (-(13421773 / 2 ^ 27)) ∧
      isBinary32 (8589935 / 2 ^ 33) ∧
      anim_field (GFloat.fin (5033165 / 2 ^ 24)) (GFloat.fin (8589935 / 2 ^ 33))
        = GFloat.fin (1254097 / 2 ^ 22) ∧
      anim_field (GFloat.fin (-(13421773 / 2 ^ 27))) (GFloat.fin (8589935 / 2 ^ 33))
        = GFloat.fin (-(13555991 / 2 ^ 27)) ∧
      (1254097 / 2 ^ 22 : ℚ) * -(13555991 / 2 ^ 27) ≤ 0 ∧
      anim_sign_change (GFloat.fin (1254097 / 2 ^ 22)) (GFloat.fin (-(13555991 / 2 ^ 27)))
        = true ∧
      anim_zero_crossing (GFloat.fin (1254097 / 2 ^ 22)) (GFloat.fin (-(13555991 / 2 ^ 27)))
        = some (GFloat.fin (12540969 / 2 ^ 24)) ∧
      (12540969 / 2 ^ 24 : ℚ)
        ≠ (8589935 / 2 ^ 33 - 5033165 / 2 ^ 24) / (-(13421773 / 2 ^ 27) - 5033165 / 2 ^ 24) ∧
      GFloat.div
          (GFloat.sub (GFloat.fin (8589935 / 2 ^ 33)) (GFloat.fin (5033165 / 2 ^ 24)))
          (GFloat.sub (GFloat.fin (-(13421773 / 2 ^ 27))) (GFloat.fin (5033165 / 2 ^ 24)))
        = some (GFloat.fin (12540970 / 2 ^ 24)) ∧
      (12540969 / 2 ^ 24 : ℚ) ≠ 12540970 / 2 ^ 24 ∧
      (1254097 / 2 ^ 22 : ℚ)
        + 12540969 / 2 ^ 24 * (-(13555991 / 2 ^ 27) - 1254097 / 2 ^ 22) ≠ 0) :=
  ⟨⟨isBinary32_pow100, isBinary32_pow99, isBinary32_zero,
      anim_field_zero _ isBinary32_pow100, anim_field_zero _ isBinary32_pow99, by norm_num,
      sign_change_underflow, zero_crossing_underflow, by norm_num⟩,
    ⟨isBinary32_s0, isBinary32_s1, isBinary32_iso, anim_field_s0, anim_field_s1, by norm_num,
      le_zero_ofRat _ (by norm_num), zero_crossing_rounded, by norm_num, formula_rounded,
      by norm_num, by norm_num⟩⟩

/-- C14, amended: in binary32 arithmetic, for binary32 samples `s0`, `s1` and iso value with
finite field values `field_a = s0 - iso` and `field_b = s1 - iso` whose exact product is
zero or negative, and `s0 != s1`: the test `field_a*field_b <= 0.0` passes, and the computed
`t = -field_a/(field_b-field_a)` is a finite number in the closed interval [0,1]; when the
divisor `field_b-field_a` does not overflow, `t` is within 3 * 2^-24 of
`(iso - s0)/(s1 - s0)` and the linear interpolant at `t` is within 2^-23 of zero relative to
`|field_b - field_a|`. -/
theorem anim_zero_crossing_spec (s0 s1 iso a b : ℚ)
    (h0 : isBinary32 s0) (h1 : isBinary32 s1) (hi : isBinary32 iso)
    (ha : anim_field (GFloat.fin s0) (GFloat.fin iso) = GFloat.fin a)
    (hb : anim_field (GFloat.fin s1) (GFloat.fin iso) = GFloat.fin b)
    (hs : a * b ≤ 0) (hne : s0 ≠ s1) :
    anim_sign_change (GFloat.fin a) (GFloat.fin b) = true ∧
      ∃ t : ℚ, anim_zero_crossing (GFloat.fin a) (GFloat.fin b) = some (GFloat.fin t) ∧
        0 ≤ t ∧ t ≤ 1 ∧
        ((∃ f, GFloat.sub (GFloat.fin b) (GFloat.fin a) = GFloat.fin f) →
          |t - (iso - s0) / (s1 - s0)| ≤ 3 / 2 ^ 24 ∧
            |a + t * (b - a)| ≤ |b - a| / 2 ^ 23) := by
  unfold anim_field at ha hb
  simp only [GFloat.sub] at ha hb
  have hba := isBinary32_of_ofRat _ _ ha
  have hbb := isBinary32_of_ofRat _ _ hb
  obtain ⟨ea, -, -⟩ := ofRat_eq_fin _ _ ha
  obtain ⟨eb, -, -⟩ := ofRat_eq_fin _ _ hb
  have hgi := onGrid32_of_isBinary32 iso hi
  have hgu := onGrid32_sub s0 iso (onGrid32_of_isBinary32 s0 h0) hgi
  have hgv := onGrid32_sub s1 iso (onGrid32_of_isBinary32 s1 h1) hgi
  have hne2 : s0 - iso ≠ s1 - iso := fun c => hne (by linarith)
  obtain ⟨hab, herr⟩ := field_ratio_error (s0 - iso) (s1 - iso) hgu hgv hne2
    (by rw [← ea, ← eb]; exact hs)
  rw [← ea, ← eb] at hab herr
  have hq : (-(s0 - iso)) / (s1 - iso - (s0 - iso)) = (iso - s0) / (s1 - s0) := by
    congr 1 <;> ring
  rw [hq] at herr
  refine ⟨le_zero_ofRat _ hs, ?_⟩
  obtain ⟨t, ht, t0, t1, terr⟩ := zero_crossing_fin a b hba hbb hs hab
  refine ⟨t, ht, t0, t1, fun hf => ?_⟩
  have h2 := terr hf
  have hd : b - a ≠ 0 := fun c => hab (by linarith)
  constructor
  · rw [abs_le] at h2 herr ⊢
    constructor
    · linarith [h2.1, herr.1]
    · linarith [h2.2, herr.2]
  · have e : a + t * (b - a) = (t - (-a) / (b - a)) * (b - a) := by
      field_simp
      ring
    rw [e, abs_mul]
    have := mul_le_mul_of_nonneg_right h2 (abs_nonneg (b - a))
    have e2 : 1 / 2 ^ 23 * |b - a| = |b - a| / 2 ^ 23 := by ring
    linarith

/-- Witness for C14: the samples -1 and 1 at the iso value 0. -/
theorem anim_zero_crossing_spec_witness :
    anim_sign_change (GFloat.fin (-1)) (GFloat.fin 1) = true ∧
      ∃ t : ℚ, anim_zero_crossing (GFloat.fin (-1)) (GFloat.fin 1) = some (GFloat.fin t) ∧
        0 ≤ t ∧ t ≤ 1 ∧
        ((∃ f, GFloat.sub (GFloat.fin 1) (GFloat.fin (-1)) = GFloat.fin f) →
          |t - (0 - (-1)) / (1 - (-1))| ≤ 3 / 2 ^ 24 ∧
            |(-1) + t * (1 - (-1))| ≤ |1 - (-1)| / 2 ^ 23) :=
  anim_zero_crossing_spec (-1) 1 0 (-1) 1 (isBinary32_neg 1 isBinary32_one) isBinary32_one
    isBinary32_zero (anim_field_zero (-1) (isBinary32_neg 1 isBinary32_one))
    (anim_field_zero 1 isBinary32_one) (by norm_num) (by norm_num)

/-- C15, counterexample: neither interpolation has a fallback for equal samples. With both
field values zero the guarding test passes, the divisor is zero and the division has no
result (in particular not the midpoint 1/2); the same happens with both field values equal
to the nonzero 2^-100, whose square underflows to zero. -/
theorem anim_zero_crossing_degenerate :
    (anim_sign_change (GFloat.fin 0) (GFloat.fin 0) = true ∧
      GFloat.sub (GFloat.fin 0) (GFloat.fin 0) = GFloat.fin 0 ∧
      anim_zero_crossing (GFloat.fin 0) (GFloat.fin 0) = none ∧
      anim_surf_sign_change (GFloat.fin 0) (GFloat.fin 0) = true ∧
      anim_surf_crossing (GFloat.fin 0) (GFloat.fin 0) = none) ∧
    (isBinary32 (1 / 2 ^ 100) ∧ (1 / 2 ^ 100 : ℚ) ≠ 0 ∧
      anim_sign_change (GFloat.fin (1 / 2 ^ 100)) (GFloat.fin (1 / 2 ^ 100)) = true ∧
      GFloat.sub (GFloat.fin (1 / 2 ^ 100)) (GFloat.fin (1 / 2 ^ 100)) = GFloat.fin 0 ∧
      anim_zero_crossing (GFloat.fin (1 / 2 ^ 100)) (GFloat.fin (1 / 2 ^ 100)) = none ∧
      anim_surf_sign_change (GFloat.fin (1 / 2 ^ 100)) (GFloat.fin (1 / 2 ^ 100)) = true ∧
      anim_surf_crossing (GFloat.fin (1 / 2 ^ 100)) (GFloat.fin (1 / 2 ^ 100)) = none) := by
  have z : GFloat.sub (GFloat.fin 0) (GFloat.fin 0) = GFloat.fin 0 := by
    simp only [GFloat.sub]
    rw [sub_self]
    exact ofRat_zero
  have p : GFloat.sub (GFloat.fin (1 / 2 ^ 100)) (GFloat.fin (1 / 2 ^ 100)) = GFloat.fin 0 := by
    simp only [GFloat.sub]
    rw [sub_self]
    exact ofRat_zero
  have gz : GFloat.le_zero (GFloat.mul (GFloat.fin 0) (GFloat.fin 0)) = true := by
    simp only [GFloat.mul]
    exact le_zero_ofRat _ (by norm_num)
  have gp : GFloat.le_zero (GFloat.mul (GFloat.fin (1 / 2 ^ 100)) (GFloat.fin (1 / 2 ^ 100)))
      = true := by
    simp only [GFloat.mul]
    rw [ofRat_underflow _ (by norm_num) (by norm_num)]
    simp [GFloat.le_zero]
  have cz : GFloat.div (GFloat.neg (GFloat.fin 0)) (GFloat.sub (GFloat.fin 0) (GFloat.fin 0))
      = none := by rw [z]; exact div_zero_none _
  have cp : GFloat.div (GFloat.neg (GFloat.fin (1 / 2 ^ 100)))
      (GFloat.sub (GFloat.fin (1 / 2 ^ 100)) (GFloat.fin (1 / 2 ^ 100))) = none := by
    rw [p]; exact div_zero_none _
  exact ⟨⟨gz, z, cz, gz, cz⟩, ⟨isBinary32_pow100, by norm_num, gp, p, cp, gp, cp⟩⟩

/-- C15, amended: neither zero-crossing interpolation has a fallback. In binary32
arithmetic, for all field values (binary32 numbers, infinities, not a number), whenever the
guarding test passes, the divisor is zero exactly when the two field values are equal; two
equal field values pass the test only when they are finite with a square of at most 2^-150
(zero, or a product that underflows), and then the division is a division by zero, without
a result; when the two field values differ the divisor is not zero and the division has a
result. This holds for `t = -field_a/(field_b - field_a)` under `field_a*field_b <= 0.0`
and for `t = -gradsample_a.w/(to_surf_field - gradsample_a.w)` under
`to_surf_field*gradsample_a.w <= 0.0`. -/
theorem anim_zero_crossing_divisor (x y : GFloat) (hx : x.valid) (hy : y.valid) :
    (anim_sign_change x y = true →
      (GFloat.sub y x = GFloat.fin 0 ↔ x = y) ∧
        (x = y → anim_zero_crossing x y = none ∧
          ∃ v, x = GFloat.fin v ∧ v * v ≤ 1 / 2 ^ 150) ∧
        (x ≠ y → ∃ t, anim_zero_crossing x y = some t)) ∧
    (anim_surf_sign_change y x = true →
      (GFloat.sub y x = GFloat.fin 0 ↔ x = y) ∧
        (x = y → anim_surf_crossing y x = none ∧
          ∃ v, x = GFloat.fin v ∧ v * v ≤ 1 / 2 ^ 150) ∧
        (x ≠ y → ∃ t, anim_surf_crossing y x = some t)) :=
  ⟨fun h => crossing_divisor x y hx hy h,
    fun h => crossing_divisor x y hx hy (by rw [GFloat_mul_comm]; exact h)⟩

/-- Witness for C15: the field values -1 and 1, on which both guarding tests pass. -/
theorem anim_zero_crossing_divisor_witness :
    (anim_sign_change (GFloat.fin (-1)) (GFloat.fin 1) = true ∧
      anim_surf_sign_change (GFloat.fin 1) (GFloat.fin (-1)) = true) ∧
    (anim_sign_change (GFloat.fin (-1)) (GFloat.fin 1) = true →
      (GFloat.sub (GFloat.fin 1) (GFloat.fin (-1)) = GFloat.fin 0 ↔
          GFloat.fin (-1) = GFloat.fin 1) ∧
        (GFloat.fin (-1) = GFloat.fin 1 →
          anim_zero_crossing (GFloat.fin (-1)) (GFloat.fin 1) = none ∧
          ∃ v, GFloat.fin (-1) = GFloat.fin v ∧ v * v ≤ 1 / 2 ^ 150) ∧
        (GFloat.fin (-1) ≠ GFloat.fin 1 →
          ∃ t, anim_zero_crossing (GFloat.fin (-1)) (GFloat.fin 1) = some t)) ∧
    (anim_surf_sign_change (GFloat.fin 1) (GFloat.fin (-1)) = true →
      (GFloat.sub (GFloat.fin 1) (GFloat.fin (-1)) = GFloat.fin 0 ↔
          GFloat.fin (-1) = GFloat.fin 1) ∧
        (GFloat.fin (-1) = GFloat.fin 1 →
          anim_surf_crossing (GFloat.fin 1) (GFloat.fin (-1)) = none ∧
          ∃ v, GFloat.fin (-1) = GFloat.fin v ∧ v * v ≤ 1 / 2 ^ 150) ∧
        (GFloat.fin (-1) ≠ GFloat.fin 1 →
          ∃ t, anim_surf_crossing (GFloat.fin 1) (GFloat.fin (-1)) = some t)) :=
  ⟨⟨le_zero_ofRat _ (by norm_num), le_zero_ofRat _ (by norm_num)⟩,
    anim_zero_crossing_divisor (GFloat.fin (-1)) (GFloat.fin 1)
      (isBinary32_neg 1 isBinary32_one) isBinary32_one⟩

/-! ## Theorems: the emission threshold of `render` -/

/-- The spacing of binary64 values is positive. -/
theorem ulp64_pos (q : ℚ) : 0 < ulp64 q := by
  unfold ulp64; positivity

/-- The spacing of binary64 values around `q` is at most `q / 2^52`. -/
theorem ulp64_le (q : ℚ) (h : 0 < q) : ulp64 q ≤ q / 2 ^ 52 := by
  unfold ulp64
  have h1 : ((2 : ℕ) : ℚ) ^ Int.log 2 q ≤ q := Int.zpow_log_le_self (by norm_num) h
  rw [zpow_sub₀ (by norm_num : (2 : ℚ) ≠ 0)]
  push_cast at h1
  have : (2 : ℚ) ^ (52 : ℤ) = 2 ^ 52 := by norm_cast
  rw [this]
  exact div_le_div_of_nonneg_right h1 (by positivity)

/-- Rounding to `double` lowers a positive number by at most the relative error 2^-53. -/
theorem fl64_ge (q : ℚ) (h : 0 < q) : q * (1 - 1 / 2 ^ 53) ≤ fl64 q := by
  have hu := ulp64_pos q
  have hl := ulp64_le q h
  have hr := roundHalfEven_ge (q / ulp64 q)
  unfold fl64
  rw [if_pos h]
  have : (q / ulp64 q - 1 / 2) * ulp64 q ≤ roundHalfEven (q / ulp64 q) * ulp64 q :=
    mul_le_mul_of_nonneg_right hr hu.le
  have e : (q / ulp64 q - 1 / 2) * ulp64 q = q - ulp64 q / 2 := by
    field_simp
    ring
  rw [e] at this
  norm_num at hl ⊢
  linarith

/-- Rounding to `double` raises a positive number by at most the relative error 2^-53. -/
theorem fl64_le (q : ℚ) (h : 0 < q) : fl64 q ≤ q * (1 + 1 / 2 ^ 53) := by
  have hu := ulp64_pos q
  have hl := ulp64_le q h
  have hr := roundHalfEven_le (q / ulp64 q)
  unfold fl64
  rw [if_pos h]
  have : (roundHalfEven (q / ulp64 q) : ℚ) * ulp64 q ≤ (q / ulp64 q + 1 / 2) * ulp64 q :=
    mul_le_mul_of_nonneg_right hr hu.le
  have e : (q / ulp64 q + 1 / 2) * ulp64 q = q + ulp64 q / 2 := by
    field_simp
    ring
  rw [e] at this
  norm_num at hl ⊢
  linarith

/-- The `double` of a positive number in the binade `[2^e, 2^(e+1))` whose significand
rounds to `m`. -/
theorem fl64_eval (q : ℚ) (e m : ℤ) (hq : 0 < q) (h1 : (2 : ℚ) ^ e ≤ q) (h2 : q < 2 ^ (e + 1))
    (hm : roundHalfEven (q / 2 ^ (e - 52)) = m) : fl64 q = m * 2 ^ (e - 52) := by
  have hl : Int.log 2 q = e := by
    have a : e ≤ Int.log 2 q := by
      rw [← Int.zpow_le_iff_le_log (by norm_num) hq]; exact_mod_cast h1
    have b : Int.log 2 q < e + 1 := by
      rw [← Int.lt_zpow_iff_log_lt (by norm_num) hq]; exact_mod_cast h2
    omega
  unfold fl64 ulp64
  rw [if_pos hq, hl, hm]

/-- A positive number within half a spacing of the integer `M`, in a binade with spacing
`2^-k`, rounds to `M`. -/
theorem fl64_near (x : ℚ) (hx : 0 < x) (M : ℤ) (k : ℕ) (he : Int.log 2 x = 52 - k)
    (h1 : ((M : ℚ) - x) * 2 ^ k < 1 / 2) (h2 : (x - M) * 2 ^ k < 1 / 2) : fl64 x = M := by
  have hu : ulp64 x = ((2 : ℚ) ^ k)⁻¹ := by
    unfold ulp64
    rw [he, show (52 : ℤ) - k - 52 = -(k : ℤ) by ring, zpow_neg, zpow_natCast]
  have hr : roundHalfEven (x / ulp64 x) = M * 2 ^ k := by
    apply roundHalfEven_eval
    · rw [hu, div_inv_eq_mul]; push_cast; linarith
    · rw [hu, div_inv_eq_mul]; push_cast; linarith
  unfold fl64
  rw [if_pos hx, hr, hu]
  push_cast
  field_simp

/-- A positive `n / 2^j` with `n` an integer, in a binade that holds the multiples of
`2^-j`, is a `double`. -/
theorem fl64_exact (n : ℤ) (j : ℕ) (hq : (0 : ℚ) < n / 2 ^ j)
    (hlog : Int.log 2 ((n : ℚ) / 2 ^ j) + j ≤ 52) : fl64 ((n : ℚ) / 2 ^ j) = n / 2 ^ j := by
  obtain ⟨k, hk⟩ : ∃ k : ℕ, Int.log 2 ((n : ℚ) / 2 ^ j) = 52 - k :=
    ⟨(52 - Int.log 2 ((n : ℚ) / 2 ^ j)).toNat, by omega⟩
  have hjk : j ≤ k := by omega
  obtain ⟨d, rfl⟩ := Nat.exists_eq_add_of_le hjk
  have hu : ulp64 ((n : ℚ) / 2 ^ j) = ((2 : ℚ) ^ (j + d))⁻¹ := by
    unfold ulp64
    rw [hk, show (52 : ℤ) - ((j + d : ℕ) : ℤ) - 52 = -((j + d : ℕ) : ℤ) by ring, zpow_neg,
      zpow_natCast]
  have hz : (n : ℚ) / 2 ^ j / ulp64 ((n : ℚ) / 2 ^ j) = ((n * 2 ^ d : ℤ) : ℚ) := by
    rw [hu, div_inv_eq_mul, pow_add]
    push_cast
    field_simp
    ring
  unfold fl64
  rw [if_pos hq, hz, roundHalfEven_intCast, hu, pow_add]
  push_cast
  field_simp
  ring

/-- The constant `0.5` is a `double`. -/
theorem fl64_half : fl64 (1 / 2) = 1 / 2 := by
  rw [fl64_eval _ (-1) (2 ^ 52) (by norm_num) (by norm_num) (by norm_num)
    (roundHalfEven_eval _ _ (by norm_num) (by norm_num))]
  norm_num

/-- The constant `10.1` is the binary64 value 5685794529555251 / 2^49. -/
theorem fl64_ten_one : fl64 (101 / 10) = 5685794529555251 / 562949953421312 := by
  rw [fl64_eval _ 3 5685794529555251 (by norm_num) (by norm_num) (by norm_num)
    (roundHalfEven_eval _ _ (by norm_num) (by norm_num))]
  norm_num

/-- The comparison bounds 3900 and 4100 are `float`s. -/
theorem fl32_flow_bounds :
    fl32 (int32 (particle_flow - 100)) = 3900 ∧ fl32 (int32 (particle_flow + 100)) = 4100 := by
  have e1 : int32 (particle_flow - 100) = 3900 := by decide
  have e2 : int32 (particle_flow + 100) = 4100 := by decide
  rw [e1, e2]
  constructor
  · rw [fl32_eval _ 11 (3900 * 2 ^ 12) (by norm_num) (by norm_num) (by norm_num)
      (roundHalfEven_eval _ _ (by norm_num) (by norm_num))]
    norm_num
  · rw [fl32_eval _ 12 (4100 * 2 ^ 11) (by norm_num) (by norm_num) (by norm_num)
      (roundHalfEven_eval _ _ (by norm_num) (by norm_num))]
    norm_num

/-- A threshold between 1 and 100000 is a `double`. -/
theorem fl64_threshold (th : ℤ) (h1 : 1 ≤ th) (h2 : th ≤ 100000) : fl64 (th : ℚ) = th := by
  have hq : (0 : ℚ) < th := by exact_mod_cast (by omega : (0 : ℤ) < th)
  have hlt : Int.log 2 (th : ℚ) < 17 := by
    rw [← Int.lt_zpow_iff_log_lt (by norm_num) hq]
    have : (th : ℚ) ≤ 100000 := by exact_mod_cast h2
    norm_num
    linarith
  have := fl64_exact th 0 (by simpa using hq) (by simp only [pow_zero, div_one]; omega)
  simpa using this

/-- Half a threshold between 1 and 100000 is a `double`. -/
theorem fl64_half_threshold (th : ℤ) (h1 : 1 ≤ th) (h2 : th ≤ 100000) :
    fl64 (1 / 2 * (th : ℚ)) = th / 2 := by
  have hq : (0 : ℚ) < th := by exact_mod_cast (by omega : (0 : ℤ) < th)
  have hq2 : (0 : ℚ) < (th : ℚ) / 2 ^ 1 := by positivity
  have hlt : Int.log 2 ((th : ℚ) / 2 ^ 1) < 17 := by
    rw [← Int.lt_zpow_iff_log_lt (by norm_num) hq2]
    have : (th : ℚ) ≤ 100000 := by exact_mod_cast h2
    norm_num
    linarith
  have := fl64_exact th 1 hq2 (by omega)
  rw [show (1 : ℚ) / 2 * th = th / 2 ^ 1 by ring, this]
  norm_num


/-- The `double` product `10.1*threshold`, truncated, is floor(101*threshold/10), for every
threshold between 1 and 100000. -/
theorem floor_ten_one_mul (th : ℤ) (h1 : 1 ≤ th) (h2 : th ≤ 100000) :
    ⌊fl64 (5685794529555251 / 562949953421312 * (th : ℚ))⌋ = 101 * th / 10 := by
  have hq : (0 : ℚ) < th := by exact_mod_cast (by omega : (0 : ℤ) < th)
  have hq2 : (th : ℚ) ≤ 100000 := by exact_mod_cast h2
  have hx : (0 : ℚ) < 5685794529555251 / 562949953421312 * (th : ℚ) := by positivity
  have hdm := Int.emod_add_ediv (101 * th) 10
  have hr0 := Int.emod_nonneg (101 * th) (by norm_num : (10 : ℤ) ≠ 0)
  have hr1 := Int.emod_lt_of_pos (101 * th) (by norm_num : (0 : ℤ) < 10)
  have hdmq : ((101 * th % 10 : ℤ) : ℚ) + 10 * ((101 * th / 10 : ℤ) : ℚ) = 101 * th := by
    exact_mod_cast hdm
  by_cases hr : 101 * th % 10 = 0
  · -- the exact product is an integer; the rounded product is that integer
    rw [hr] at hdm hdmq
    obtain ⟨k, hk⟩ : ∃ k : ℕ,
        Int.log 2 (5685794529555251 / 562949953421312 * (th : ℚ)) = 52 - k := by
      have hlt : Int.log 2 (5685794529555251 / 562949953421312 * (th : ℚ)) < 21 := by
        rw [← Int.lt_zpow_iff_log_lt (by norm_num) hx]
        norm_num
        linarith
      exact ⟨(52 - Int.log 2 (5685794529555251 / 562949953421312 * (th : ℚ))).toNat, by omega⟩
    have hlt2 := Int.lt_zpow_succ_log_self (by norm_num : 1 < 2)
      (5685794529555251 / 562949953421312 * (th : ℚ))
    rw [hk, show (52 : ℤ) - k + 1 = 53 - (k : ℤ) by ring, zpow_sub₀ (by norm_num), zpow_natCast,
      lt_div_iff₀ (by positivity)] at hlt2
    have hw : (0 : ℚ) < th * 2 ^ k := by positivity
    have e : fl64 (5685794529555251 / 562949953421312 * (th : ℚ)) = ((101 * th / 10 : ℤ) : ℚ) := by
      apply fl64_near _ hx _ k hk
      · have : ((101 * th / 10 : ℤ) : ℚ) = 101 * th / 10 := by linarith
        rw [this]
        norm_num at hlt2 ⊢
        nlinarith
      · have : ((101 * th / 10 : ℤ) : ℚ) = 101 * th / 10 := by linarith
        rw [this]
        norm_num at hlt2 ⊢
        nlinarith
    rw [e, Int.floor_intCast]
  · have lo := fl64_ge _ hx
    have hi := fl64_le _ hx
    have hr2 : (1 : ℚ) ≤ ((101 * th % 10 : ℤ) : ℚ) := by exact_mod_cast (by omega : 1 ≤ 101 * th % 10)
    have hr3 : ((101 * th % 10 : ℤ) : ℚ) ≤ 9 := by exact_mod_cast (by omega : 101 * th % 10 ≤ 9)
    rw [Int.floor_eq_iff]
    norm_num at lo hi ⊢
    constructor <;> linarith


/-- The halving branch: for a threshold between 1 and 100000 it yields
max(1, floor(threshold/2)). -/
theorem adjust_halve (th : ℤ) (h1 : 1 ≤ th) (h2 : th ≤ 100000) :
    (toInt (fl64 (fl64 (1 / 2) * fl64 th))).map (max 1) = some (max 1 (th / 2)) := by
  have hq : (0 : ℚ) ≤ (th : ℚ) / 2 := by
    have : (0 : ℚ) < th := by exact_mod_cast (by omega : (0 : ℤ) < th)
    positivity
  have hf : ⌊(th : ℚ) / 2⌋ = th / 2 := by
    have := Rat.floor_intCast_div_natCast th 2
    simpa using this
  rw [fl64_half, fl64_threshold th h1 h2, fl64_half_threshold th h1 h2]
  unfold toInt toGLsizei
  simp only [if_pos hq, hf]
  rw [if_pos ⟨by omega, by omega⟩]
  rfl

/-- The growing branch: for a threshold between 1 and 100000 the conversion to `int` does
not overflow and the branch yields min(100000, floor(101*threshold/10)). -/
theorem adjust_grow (th : ℤ) (h1 : 1 ≤ th) (h2 : th ≤ 100000) :
    (toInt (fl64 (fl64 (101 / 10) * fl64 th))).map (min 100000)
      = some (min 100000 (101 * th / 10)) := by
  have hfl := floor_ten_one_mul th h1 h2
  have hq : (0 : ℚ) ≤ fl64 (5685794529555251 / 562949953421312 * (th : ℚ)) := by
    have hx : (0 : ℚ) < 5685794529555251 / 562949953421312 * (th : ℚ) := by
      have : (0 : ℚ) < th := by exact_mod_cast (by omega : (0 : ℤ) < th)
      positivity
    have := fl64_ge _ hx
    have h3 : (0 : ℚ) ≤ 5685794529555251 / 562949953421312 * (th : ℚ) * (1 - 1 / 2 ^ 53) := by
      apply mul_nonneg hx.le; norm_num
    linarith
  rw [fl64_ten_one, fl64_threshold th h1 h2]
  unfold toInt toGLsizei
  simp only [if_pos hq, hfl]
  rw [if_pos ⟨by omega, by omega⟩]
  rfl

/-- C16: for every threshold in 1..100000 and every measured rate: if the rate is below
particle_flow - 100 the new threshold is max(1, floor(threshold/2)) and not larger than
the old one; if the rate is above particle_flow + 100 it is
min(100000, trunc(10.1*threshold)) and not smaller than the old one; otherwise the
threshold is unchanged. -/
theorem render_adjust_threshold_spec (threshold : ℤ) (particles_per_sec : ℚ)
    (h1 : 1 ≤ threshold) (h2 : threshold ≤ 100000) :
    (particles_per_sec < (particle_flow : ℚ) - 100 →
      render_adjust_threshold threshold particles_per_sec = some (max 1 (threshold / 2)) ∧
        max 1 (threshold / 2) ≤ threshold) ∧
    (particles_per_sec > (particle_flow : ℚ) + 100 →
      render_adjust_threshold threshold particles_per_sec
          = some (min 100000 ⌊(101 / 10 : ℚ) * threshold⌋) ∧
        threshold ≤ min 100000 ⌊(101 / 10 : ℚ) * threshold⌋) ∧
    (¬ particles_per_sec < (particle_flow : ℚ) - 100 →
      ¬ particles_per_sec > (particle_flow : ℚ) + 100 →
      render_adjust_threshold threshold particles_per_sec = some threshold) := by
  obtain ⟨b1, b2⟩ := fl32_flow_bounds
  have hf : ⌊(101 / 10 : ℚ) * threshold⌋ = 101 * threshold / 10 := by
    have := Rat.floor_intCast_div_natCast (101 * threshold) 10
    have e : (101 / 10 : ℚ) * threshold = ((101 * threshold : ℤ) : ℚ) / ((10 : ℕ) : ℚ) := by
      push_cast
      ring
    rw [e, this]
    rfl
  have hp : (particle_flow : ℚ) = 4000 := by simp [particle_flow]
  rw [hp, hf]
  unfold render_adjust_threshold
  rw [b1, b2]
  refine ⟨fun h => ?_, fun h => ?_, fun ha hb => ?_⟩
  · rw [if_pos (by linarith)]
    exact ⟨adjust_halve threshold h1 h2, by omega⟩
  · rw [if_neg (by linarith), if_pos (by linarith)]
    exact ⟨adjust_grow threshold h1 h2, by omega⟩
  · rw [if_neg (by linarith), if_neg (by linarith)]

/-- Witness for C16: threshold 500 at the rates 3000, 5000 and 4000 particles per second. -/
theorem render_adjust_threshold_spec_witness :
    render_adjust_threshold 500 3000 = some (max 1 (500 / 2)) ∧
    render_adjust_threshold 500 5000 = some (min 100000 ⌊(101 / 10 : ℚ) * (500 : ℤ)⌋) ∧
    render_adjust_threshold 500 4000 = some 500 :=
  ⟨((render_adjust_threshold_spec 500 3000 (by decide) (by decide)).1
      (by norm_num [particle_flow])).1,
   ((render_adjust_threshold_spec 500 5000 (by decide) (by decide)).2.1
      (by norm_num [particle_flow])).1,
   (render_adjust_threshold_spec 500 4000 (by decide) (by decide)).2.2
      (by norm_num [particle_flow]) (by norm_num [particle_flow])⟩

/-- One frame keeps the threshold between 1 and 100000, whatever it was before a reset
frame and for a threshold in that range otherwise. -/
theorem render_threshold_step (th : ℤ) (f : Frame) (h1 : 1 ≤ th) (h2 : th ≤ 100000) :
    ∃ th1, render_threshold th f = some th1 ∧ 1 ≤ th1 ∧ th1 ≤ 100000 := by
  have hr : 1 ≤ render_reset_threshold th f.t ∧ render_reset_threshold th f.t ≤ 100000 := by
    unfold render_reset_threshold
    split_ifs <;> omega
  obtain ⟨a, b, c⟩ := render_adjust_threshold_spec (render_reset_threshold th f.t)
    (render_particles_per_sec f.emitter_result f.dt) hr.1 hr.2
  unfold render_threshold
  by_cases ha : render_particles_per_sec f.emitter_result f.dt < (particle_flow : ℚ) - 100
  · exact ⟨_, (a ha).1, by omega, by omega⟩
  · by_cases hb : render_particles_per_sec f.emitter_result f.dt > (particle_flow : ℚ) + 100
    · refine ⟨_, (b hb).1, ?_, ?_⟩
      · have := (b hb).2
        omega
      · exact min_le_left _ _
    · exact ⟨_, c ha hb, hr.1, hr.2⟩

/-- Any run of frames from a threshold between 1 and 100000 ends with a threshold between 1
and 100000. -/
theorem render_thresholds_from (frames : List Frame) :
    ∀ th0 : ℤ, 1 ≤ th0 → th0 ≤ 100000 →
      ∃ th, frames.foldlM render_threshold th0 = some th ∧ 1 ≤ th ∧ th ≤ 100000 := by
  induction frames with
  | nil => intro th0 h1 h2; exact ⟨th0, rfl, h1, h2⟩
  | cons f frames ih =>
    intro th0 h1 h2
    obtain ⟨th1, e, a, b⟩ := render_threshold_step th0 f h1 h2
    obtain ⟨th, e2, c, d⟩ := ih th1 a b
    refine ⟨th, ?_, c, d⟩
    rw [List.foldlM_cons, e]
    exact e2

/-- C17: for every sequence of frames and every further frame (any times, time steps and
emitter query results, reset frames included), the threshold held by `render` is between
1 and 100000 at the start of the frame, as the uniform of the emitter pass and at the end
of the frame; so the shader's remainder and quotient by `threshold` are defined, and the
conversion of `10.1*threshold` to a 32-bit `int` does not overflow. -/
theorem render_threshold_invariant (frames : List Frame) (f : Frame) :
    ∃ th0 th1, render_thresholds frames = some th0 ∧ 1 ≤ th0 ∧ th0 ≤ 100000 ∧
      1 ≤ render_reset_threshold th0 f.t ∧ render_reset_threshold th0 f.t ≤ 100000 ∧
      render_threshold th0 f = some th1 ∧ 1 ≤ th1 ∧ th1 ≤ 100000 ∧
      (∀ off k, emitter_emits off (render_reset_threshold th0 f.t) k ≠ none) ∧
      (∀ k, emitter_side (render_reset_threshold th0 f.t) k ≠ none) ∧
      toInt (fl64 (fl64 (101 / 10) * fl64 (render_reset_threshold th0 f.t))) ≠ none := by
  obtain ⟨th0, e0, a0, b0⟩ := render_thresholds_from frames 500 (by norm_num) (by norm_num)
  obtain ⟨th1, e1, a1, b1⟩ := render_threshold_step th0 f a0 b0
  have hr : 1 ≤ render_reset_threshold th0 f.t ∧ render_reset_threshold th0 f.t ≤ 100000 := by
    unfold render_reset_threshold
    split_ifs <;> omega
  refine ⟨th0, th1, e0, a0, b0, hr.1, hr.2, e1, a1, b1, ?_, ?_, ?_⟩
  · intro off k
    unfold emitter_emits
    rw [if_neg (by omega)]
    simp
  · intro k
    unfold emitter_side
    rw [if_neg (by omega)]
    simp
  · have := adjust_grow _ hr.1 hr.2
    intro hn
    rw [hn] at this
    simp at this

end HPMC
